import Mathlib

/-! # Allwinner Security System (sunxi-ss) driver: streaming logic

A shallow embedding of the engine-facing code of `drivers/crypto/sunxi-ss`:
the hash engine (`sunxi-ss-hash.c`), the cipher pump (`sunxi-ss-cipher.c`) and
the cipher entry points (`sunxi-ss-cipher-{aes,des,3des}.c`).

Conventions of the embedding.

* Machine integers are natural numbers; a reduction modulo `2 ^ 32` or
  `2 ^ 64` is written where the C type can wrap.
* The CPU is little-endian (the A20 is an ARM core running little-endian):
  `*(u32 *)p` assembles four bytes least-significant first and
  `cpu_to_be64` / `cpu_to_be32` are byte swaps.
* Memory is a list of bytes; a byte read outside the list yields `0` and a
  byte written outside the list is dropped.
* A scatterlist is the list of its entries, `NULL` is the empty list and
  `sg_next` is the tail.
* Every register access, mutex operation and page mapping is recorded, in
  program order, in a trace of events.  Values returned by the device are
  taken from an oracle indexed by the number of earlier reads of the same
  register.
* Loops whose trip count is not bounded by the program (the cipher pumps)
  take a bound on the number of iterations and return `none` when the bound
  is reached; loops with an evident bound take that bound as recursion
  argument.
-/

namespace SunxiSS

/-! ## Register map and control bits (`sunxi-ss.h`) -/

def SS_CTL : Nat := 0x00
def SS_KEY0 : Nat := 0x04
def SS_IV0 : Nat := 0x24
def SS_FCSR : Nat := 0x44
def SS_MD0 : Nat := 0x4C
def SS_RXFIFO : Nat := 0x200
def SS_TXFIFO : Nat := 0x204

def SS_CBC : Nat := 1 <<< 12
def SS_AES_128BITS : Nat := 0 <<< 8
def SS_AES_192BITS : Nat := 1 <<< 8
def SS_AES_256BITS : Nat := 2 <<< 8
def SS_ENCRYPTION : Nat := 0 <<< 7
def SS_DECRYPTION : Nat := 1 <<< 7
def SS_OP_AES : Nat := 0 <<< 4
def SS_OP_DES : Nat := 1 <<< 4
def SS_OP_3DES : Nat := 2 <<< 4
def SS_OP_SHA1 : Nat := 3 <<< 4
def SS_OP_MD5 : Nat := 4 <<< 4
def SS_DATA_END : Nat := 1 <<< 2
def SS_ENABLED : Nat := 1 <<< 0

/-- The macro `SS_RXFIFO_SPACES(val)`: `((val) >> 24) & 0x3f`. -/
def SS_RXFIFO_SPACES (val : Nat) : Nat := (val >>> 24) &&& 0x3f

/-- The macro `SS_TXFIFO_SPACES(val)`: `((val) >> 16) & 0x3f`. -/
def SS_TXFIFO_SPACES (val : Nat) : Nat := (val >>> 16) &&& 0x3f

def SS_TIMEOUT : Nat := 100

def EINVAL : Int := 22
def ENOMEM : Int := 12
def DES_KEY_SIZE : Nat := 8

/-! ## Events -/

/-- The three mutexes of `struct sunxi_ss_ctx`. -/
inductive Mutex where
  | lock
  | bufin_lock
  | bufout_lock
  deriving DecidableEq, Repr

/-- One observable action of the driver.  `writel val reg` also stands for
`writel_relaxed`, `readl reg val` for `readl_relaxed` (with the value the
device returned).  `kmap src k` maps entry `k` of the source (`src = true`)
or destination list; the atomic variants are recorded the same way. -/
inductive Ev where
  | writel (val reg : Nat)
  | readl (reg val : Nat)
  | mutex_lock (m : Mutex)
  | mutex_unlock (m : Mutex)
  | kmap (src : Bool) (k : Nat)
  | kunmap (src : Bool) (k : Nat)
  deriving DecidableEq, Repr

/-- Values written to register `reg`, in order. -/
def writesTo (reg : Nat) (t : List Ev) : List Nat :=
  t.filterMap fun e =>
    match e with
    | Ev.writel v r => if r = reg then some v else none
    | _ => none

/-- Values read from register `reg`, in order. -/
def readsFrom (reg : Nat) (t : List Ev) : List Nat :=
  t.filterMap fun e =>
    match e with
    | Ev.readl r v => if r = reg then some v else none
    | _ => none

/-- The words pushed into the receive FIFO. -/
def rxWords (t : List Ev) : List Nat := writesTo SS_RXFIFO t

/-- The words popped from the transmit FIFO. -/
def txWords (t : List Ev) : List Nat := readsFrom SS_TXFIFO t

/-- True when the event touches a device register. -/
def Ev.isReg : Ev → Bool
  | Ev.writel _ _ => true
  | Ev.readl _ _ => true
  | _ => false

/-- Number of acquisitions of mutex `m` in the trace. -/
def lockCount (m : Mutex) (t : List Ev) : Nat := t.count (Ev.mutex_lock m)

/-- Number of releases of mutex `m` in the trace. -/
def unlockCount (m : Mutex) (t : List Ev) : Nat := t.count (Ev.mutex_unlock m)

/-- Mutex `m` is held at the end of the trace (it was free at the start). -/
def heldAfter (m : Mutex) (t : List Ev) : Prop := unlockCount m t < lockCount m t

instance (m : Mutex) (t : List Ev) : Decidable (heldAfter m t) := by
  unfold heldAfter; infer_instance

/-! ## Bytes and words -/

/-- The four bytes of a 32-bit word in memory order (little-endian). -/
def le32 (v : Nat) : List Nat :=
  [v % 256, v / 256 % 256, v / 65536 % 256, v / 16777216 % 256]

/-- The load `*(u32 *)(mem + off)`. -/
def load32 (mem : List Nat) (off : Nat) : Nat :=
  mem.getD off 0 + 256 * mem.getD (off + 1) 0 + 65536 * mem.getD (off + 2) 0
    + 16777216 * mem.getD (off + 3) 0

/-- The store `*(u32 *)(mem + off) = v` (also `memcpy(mem + off, &v, 4)`). -/
def store32 (mem : List Nat) (off : Nat) (v : Nat) : List Nat :=
  (((mem.set off (v % 256)).set (off + 1) (v / 256 % 256)).set (off + 2)
    (v / 65536 % 256)).set (off + 3) (v / 16777216 % 256)

/-- The store `((u8 *)&w)[k] = b` into the 32-bit word `w`. -/
def set_byte (w k b : Nat) : Nat :=
  if k < 4 then w - (w / 256 ^ k % 256) * 256 ^ k + (b % 256) * 256 ^ k else w

/-- The byte swap `cpu_to_be32` of a little-endian CPU. -/
def cpu_to_be32 (v : Nat) : Nat :=
  (v % 256) * 16777216 + (v / 256 % 256) * 65536 + (v / 65536 % 256) * 256
    + v / 16777216 % 256

/-- The byte swap `cpu_to_be64` of a little-endian CPU. -/
def cpu_to_be64 (v : Nat) : Nat :=
  cpu_to_be32 (v % 2 ^ 32) * 2 ^ 32 + cpu_to_be32 (v / 2 ^ 32 % 2 ^ 32)

/-- All entries are bytes. -/
def isBytes (l : List Nat) : Prop := ∀ b ∈ l, b < 256

instance (l : List Nat) : Decidable (isBytes l) := by
  unfold isBytes; infer_instance

/-! ## Request context (`struct sunxi_req_ctx`) -/

/-- The per-transform context: `key` is the 256-byte array `u8 key[]`,
`byte_count` is a `u64`, `waitbuf` a `u32`. -/
structure sunxi_req_ctx where
  key : List Nat
  keylen : Nat
  mode : Nat
  byte_count : Nat
  waitbuf : Nat
  nbwait : Nat
  deriving DecidableEq, Repr

/-- The context after `memset(op, 0, sizeof(struct sunxi_req_ctx))`
(`sunxi_cipher_init`). -/
def sunxi_cipher_init : sunxi_req_ctx :=
  { key := List.replicate 256 0, keylen := 0, mode := 0, byte_count := 0,
    waitbuf := 0, nbwait := 0 }

/-! ## Hash engine (`sunxi-ss-hash.c`) -/

/-- What a hash entry point leaves behind: return value, context, the
caller's result buffer and the events performed.  `null_deref` is true when
the call dereferenced a `NULL` scatterlist instead of returning; `ret` has no
meaning then, and the other fields are the state at the dereference. -/
structure HashRet where
  ret : Int
  op : sunxi_req_ctx
  result : List Nat
  trace : List Ev
  null_deref : Bool := false
  deriving DecidableEq, Repr

/-- The function `sunxi_hash_init`; `hash_type` is `crypto_tfm_alg_name`. -/
def sunxi_hash_init (hash_type : String) (op : sunxi_req_ctx)
    (result : List Nat) : HashRet :=
  let tmp := SS_ENABLED
  let op := { op with byte_count := 0, nbwait := 0, waitbuf := 0 }
  if hash_type = "sha1" then
    { ret := 0, op := { op with mode := SS_OP_SHA1 }, result := result,
      trace := [Ev.mutex_lock Mutex.lock, Ev.writel (tmp ||| SS_OP_SHA1) SS_CTL] }
  else
    { ret := 0, op := { op with mode := SS_OP_MD5 }, result := result,
      trace := [Ev.mutex_lock Mutex.lock, Ev.writel (tmp ||| SS_OP_MD5) SS_CTL] }

/-- Locals of `sunxi_hash_update` together with the context and the trace. -/
structure UpdState where
  op : sunxi_req_ctx
  i : Nat
  in_i : Nat
  trace : List Ev
  deriving DecidableEq, Repr

/-- The byte move `waitbuf[op->nbwait] = *(u8 *)(src_addr + in_i)` with the
three increments that follow it in steps 1 and 3. -/
def update_take (sg : List Nat) (s : UpdState) : UpdState :=
  { s with
    op := { s.op with
      waitbuf := set_byte s.op.waitbuf s.op.nbwait (sg.getD s.in_i 0),
      nbwait := s.op.nbwait + 1 },
    i := s.i + 1,
    in_i := s.in_i + 1 }

/-- Step 1, the loop `while (op->nbwait < 4 && i < areq->nbytes &&
in_i < in_sg->length)`. -/
def update_fill (nbytes : Nat) (sg : List Nat) : Nat → UpdState → UpdState
  | 0, s => s
  | fuel + 1, s =>
    if s.op.nbwait < 4 ∧ s.i < nbytes ∧ s.in_i < sg.length then
      update_fill nbytes sg fuel (update_take sg s)
    else s

/-- The flush `writel(op->waitbuf, ss->base + SS_RXFIFO)` of step 1. -/
def update_flush (s : UpdState) : UpdState :=
  { s with
    op := { s.op with
      byte_count := (s.op.byte_count + 4) % 2 ^ 64, nbwait := 0, waitbuf := 0 },
    trace := s.trace ++ [Ev.writel s.op.waitbuf SS_RXFIFO] }

/-- Step 2, the loop pumping whole words. -/
def update_words (nbytes : Nat) (sg : List Nat) : Nat → UpdState → UpdState
  | 0, s => s
  | fuel + 1, s =>
    if s.i < nbytes ∧ nbytes - s.i ≥ 4 ∧ s.in_i < sg.length ∧
        sg.length - s.in_i ≥ 4 then
      update_words nbytes sg fuel
        { op := { s.op with byte_count := (s.op.byte_count + 4) % 2 ^ 64 },
          i := s.i + 4,
          in_i := s.in_i + 4,
          trace := s.trace ++ [Ev.writel (load32 sg s.in_i) SS_RXFIFO] }
    else s

/-- Step 3, the `do { ... } while (in_i < in_sg->length && i < areq->nbytes)`
loop. -/
def update_tail (nbytes : Nat) (sg : List Nat) : Nat → UpdState → UpdState
  | 0, s => s
  | fuel + 1, s =>
    let s := update_take sg s
    if s.in_i < sg.length ∧ s.i < nbytes then update_tail nbytes sg fuel s
    else s

/-- The body of the outer `do ... while` for the entry `sg` (entry number
`k` of the list): map, steps 1 to 3, unmap, `in_i = 0`. -/
def update_sg (nbytes : Nat) (k : Nat) (sg : List Nat) (s : UpdState) : UpdState :=
  let s := { s with trace := s.trace ++ [Ev.kmap true k] }
  let s :=
    if s.op.nbwait > 0 then
      let s := update_fill nbytes sg 4 s
      if s.op.nbwait = 4 then update_flush s else s
    else s
  let s := update_words nbytes sg sg.length s
  let s :=
    if s.in_i < sg.length ∧ sg.length - s.in_i < 4 ∧ s.i < nbytes then
      update_tail nbytes sg sg.length s
    else s
  { s with in_i := 0, trace := s.trace ++ [Ev.kunmap true k] }

/-- The outer loop `do { ... in_sg = sg_next(in_sg); } while (in_sg != NULL
&& i < areq->nbytes)`, entered with `in_sg` at the entry `sg` (entry number
`k`) and `rest` the entries after it. -/
def update_loop (nbytes : Nat) : List Nat → List (List Nat) → Nat → UpdState → UpdState
  | sg, rest, k, s =>
    let s := update_sg nbytes k sg s
    match rest with
    | [] => s
    | sg2 :: rest2 => if s.i < nbytes then update_loop nbytes sg2 rest2 (k + 1) s else s

/-- The function `sunxi_hash_update` on a request of `nbytes` bytes held in
the scatterlist `src`.  With `nbytes > 0` and `areq->src == NULL` the first
`sg_page(in_sg)` dereferences the null list. -/
def sunxi_hash_update (nbytes : Nat) (src : List (List Nat))
    (op : sunxi_req_ctx) (result : List Nat) : HashRet :=
  if nbytes = 0 then { ret := 0, op := op, result := result, trace := [] }
  else
    match src with
    | [] => { ret := 0, op := op, result := result, trace := [], null_deref := true }
    | sg :: rest =>
      let s := update_loop nbytes sg rest 0 { op := op, i := 0, in_i := 0, trace := [] }
      { ret := 0, op := s.op, result := result, trace := s.trace }

/-- What the device returns to `sunxi_hash_final`: `ctl k` is the value of
the `k`-th read of `SS_CTL` (read `0` precedes the end-of-data write, reads
`1, 2, ...` are the completion polls) and `md i` the value of `SS_MD0 + 4 * i`. -/
structure HashHW where
  ctl : Nat → Nat
  md : Nat → Nat

/-- The completion poll `do { v = readl(SS_CTL); i++; } while (i < SS_TIMEOUT
&& (v & SS_DATA_END) > 0)`; returns the final `i` and the reads performed. -/
def final_poll (ctl : Nat → Nat) : Nat → Nat → List Ev → Nat × List Ev
  | 0, i, t => (i, t)
  | fuel + 1, i, t =>
    let v := ctl (i + 1)
    let t := t ++ [Ev.readl SS_CTL v]
    let i := i + 1
    if i < SS_TIMEOUT ∧ (v &&& SS_DATA_END) > 0 then final_poll ctl fuel i t
    else (i, t)

/-- The terminator word written first by `sunxi_hash_final`, with the
updated `waitbuf`. -/
def final_terminator (op : sunxi_req_ctx) : sunxi_req_ctx × List Ev :=
  if op.nbwait > 0 then
    let w := (op.waitbuf ||| ((1 <<< 7) <<< (op.nbwait * 8))) % 2 ^ 32
    ({ op with waitbuf := w }, [Ev.writel w SS_RXFIFO])
  else (op, [Ev.writel (1 <<< 7) SS_RXFIFO])

/-- The computation of `zeros` with the update of `byte_count`. -/
def final_zeros (op : sunxi_req_ctx) : sunxi_req_ctx × Nat :=
  if op.mode = SS_OP_MD5 then
    let index := ((op.byte_count + 4) % 2 ^ 64) &&& 0x3f
    let op := { op with byte_count := (op.byte_count + op.nbwait) % 2 ^ 64 }
    if index > 56 then (op, (120 - index) / 4) else (op, (56 - index) / 4)
  else
    let op := { op with byte_count := (op.byte_count + op.nbwait) % 2 ^ 64 }
    let index := op.byte_count &&& 0x3f
    let padlen := if index < 56 then 56 - index else (64 + 56) - index
    (op, (padlen - 1) / 4)

/-- The two length words written after the zero pad. -/
def final_length (op : sunxi_req_ctx) : List Ev :=
  if op.mode = SS_OP_SHA1 then
    let bits := cpu_to_be64 ((op.byte_count <<< 3) % 2 ^ 64)
    [Ev.writel (bits &&& 0xffffffff) SS_RXFIFO,
     Ev.writel ((bits >>> 32) &&& 0xffffffff) SS_RXFIFO]
  else
    [Ev.writel (((op.byte_count <<< 3) % 2 ^ 64) &&& 0xffffffff) SS_RXFIFO,
     Ev.writel ((op.byte_count >>> 29) &&& 0xffffffff) SS_RXFIFO]

/-- The digest read-out loops: five big-endian words for SHA1, four native
words otherwise. -/
def final_digest (md : Nat → Nat) (sha1 : Bool) : Nat → Nat → List Nat → List Ev →
    List Nat × List Ev
  | 0, _, result, t => (result, t)
  | n + 1, i, result, t =>
    let r := md i
    let v := if sha1 then cpu_to_be32 r else r
    final_digest md sha1 n (i + 1) (store32 result (i * 4) v)
      (t ++ [Ev.readl (SS_MD0 + i * 4) r])

/-- The function `sunxi_hash_final`. -/
def sunxi_hash_final (hw : HashHW) (op : sunxi_req_ctx) (result : List Nat) :
    HashRet :=
  let (op, t1) := final_terminator op
  let (op, zeros) := final_zeros op
  let t2 := List.replicate zeros (Ev.writel 0 SS_RXFIFO)
  let t3 := final_length op
  let v := hw.ctl 0
  let t4 := [Ev.readl SS_CTL v, Ev.writel (v ||| SS_DATA_END) SS_CTL]
  let (i, t5) := final_poll hw.ctl SS_TIMEOUT 0 []
  let t := t1 ++ t2 ++ t3 ++ t4 ++ t5
  if i ≥ SS_TIMEOUT then
    { ret := -1, op := op, result := result,
      trace := t ++ [Ev.writel 0 SS_CTL, Ev.mutex_unlock Mutex.lock] }
  else
    let (result, t6) :=
      if op.mode = SS_OP_SHA1 then final_digest hw.md true 5 0 result []
      else final_digest hw.md false 4 0 result []
    { ret := 0, op := op, result := result,
      trace := t ++ t6 ++ [Ev.writel 0 SS_CTL, Ev.mutex_unlock Mutex.lock] }

/-! ## Cipher requests and the device seen by the cipher pump -/

/-- One scatterlist entry: `data` are the `length` bytes found at
`kmap(sg_page(sg)) + sg->offset`, and `mapped` is false when that address is
`NULL`. -/
structure Sg where
  data : List Nat
  mapped : Bool
  deriving DecidableEq, Repr

/-- The request `struct ablkcipher_request`: `info` is the IV pointer
(`none` for `NULL`); `src` and `dst` are `NULL` when empty. -/
structure ablkcipher_request where
  nbytes : Nat
  src : List Sg
  dst : List Sg
  info : Option (List Nat)
  deriving DecidableEq, Repr

/-- What the environment answers during a cipher call: `fcsr k` is the value
of the `k`-th read of `SS_FCSR`, `tx k` the `k`-th word read from
`SS_TXFIFO`, and `kmalloc_ok k` tells whether the `k`-th `kmalloc` of the
call succeeds. -/
structure Device where
  fcsr : Nat → Nat
  tx : Nat → Nat
  kmalloc_ok : Nat → Bool

/-- The staging buffers of `struct sunxi_ss_ctx` (`none` for `NULL`). -/
structure sunxi_ss_ctx where
  buf_in : Option (List Nat)
  buf_in_size : Nat
  buf_out : Option (List Nat)
  buf_out_size : Nat
  deriving DecidableEq, Repr

/-- How a call ends: it returns a value, or it dereferences `NULL`. -/
inductive Exit where
  | returned (v : Int)
  | null_deref
  deriving DecidableEq, Repr

/-- What a cipher call leaves behind: how it ended, the destination
scatterlist, the staging buffers, the context and the events performed. -/
structure CipherRet where
  exit : Exit
  dst : List Sg
  ss : sunxi_ss_ctx
  op : sunxi_req_ctx
  trace : List Ev
  deriving DecidableEq, Repr

/-- The kernel macro `min3`. -/
def min3 (a b c : Nat) : Nat := min a (min b c)

/-- Trip count of `do { ...; todo--; } while (todo > 0)` on a `u32`. -/
def do_while_count (todo : Nat) : Nat := if todo = 0 then 2 ^ 32 else todo

/-- The key and IV loads performed when `areq->info != NULL`:
`for (i = 0; i < op->keylen; i += 4) writel(*(u32 *)(op->key + i), SS_KEY0 + i)`
then `for (i = 0; i < 4 && i < ivsize / 4; i++)
writel(*(u32 *)(areq->info + i * 4), SS_IV0 + i * 4)`. -/
def load_key_iv (op : sunxi_req_ctx) (ivsize : Nat) (info : Option (List Nat)) : List Ev :=
  match info with
  | none => []
  | some iv =>
    (List.range ((op.keylen + 3) / 4)).map
        (fun k => Ev.writel (load32 op.key (4 * k)) (SS_KEY0 + 4 * k)) ++
      (List.range (min 4 (ivsize / 4))).map
        (fun i => Ev.writel (load32 iv (i * 4)) (SS_IV0 + i * 4))

/-- The pushes `writel_relaxed(*src32++, SS_RXFIFO)` of `n` consecutive
words, `src32` pointing at word `si` of `mem`. -/
def push_words (mem : List Nat) (si n : Nat) : List Ev :=
  (List.range n).map fun k => Ev.writel (load32 mem (4 * (si + k))) SS_RXFIFO

/-- The pops `*dst32++ = readl_relaxed(SS_TXFIFO)` of `n` consecutive words,
`dst32` pointing at word `di` of `mem`, `nt` words having been popped
before: the memory afterwards. -/
def pop_store (tx : Nat → Nat) : Nat → Nat → Nat → List Nat → List Nat
  | 0, _, _, mem => mem
  | n + 1, nt, di, mem => pop_store tx n (nt + 1) (di + 1) (store32 mem (4 * di) (tx nt))

/-- The events of `n` consecutive pops. -/
def pop_events (tx : Nat → Nat) (nt n : Nat) : List Ev :=
  (List.range n).map fun k => Ev.readl SS_TXFIFO (tx (nt + k))

/-! ## The fast path of `sunxi_aes_poll` -/

/-- Locals of the fast path: `si` and `di` are `src32` and `dst32` as word
offsets, `nf` and `nt` count the reads of `SS_FCSR` and `SS_TXFIFO`, `mem` is
the destination memory. -/
structure FastState where
  ileft : Nat
  oleft : Nat
  rx_cnt : Nat
  tx_cnt : Nat
  si : Nat
  di : Nat
  nf : Nat
  nt : Nat
  mem : List Nat
  deriving DecidableEq, Repr

/-- One turn of the fast loop body, with the events it performs. -/
def fast_iter (hw : Device) (src : List Nat) (s : FastState) : FastState × List Ev :=
  let (s, e1) :=
    if s.ileft > 0 ∧ s.rx_cnt > 0 then
      let todo := min s.rx_cnt s.ileft
      ({ s with ileft := s.ileft - todo, si := s.si + do_while_count todo },
        push_words src s.si (do_while_count todo))
    else (s, [])
  let (s, e2) :=
    if s.tx_cnt > 0 then
      let todo := min s.tx_cnt s.oleft
      ({ s with oleft := s.oleft - todo, di := s.di + do_while_count todo,
                nt := s.nt + do_while_count todo,
                mem := pop_store hw.tx (do_while_count todo) s.nt s.di s.mem },
        pop_events hw.tx s.nt (do_while_count todo))
    else (s, [])
  let tmp := hw.fcsr s.nf
  ({ s with rx_cnt := SS_RXFIFO_SPACES tmp, tx_cnt := SS_TXFIFO_SPACES tmp, nf := s.nf + 1 },
    e1 ++ e2 ++ [Ev.readl SS_FCSR tmp])

/-- The fast loop `do { ... } while (oleft > 0)`, at most `fuel` turns. -/
def fast_loop (hw : Device) (src : List Nat) : Nat → FastState → Option (FastState × List Ev)
  | 0, _ => none
  | fuel + 1, s =>
    let (s1, e) := fast_iter hw src s
    if s1.oleft > 0 then
      match fast_loop hw src fuel s1 with
      | none => none
      | some (s2, e2) => some (s2, e ++ e2)
    else some (s1, e)

/-! ## The segmented path of `sunxi_aes_poll` -/

/-- Locals of the segmented path: `in_sg` and `out_sg` are positions in the
two lists (`NULL` past the end), `src32` is word `si` of source entry `sseg`,
`dst32` is word `di` of destination entry `dseg`, `mem` is the destination
memory, entry by entry. -/
structure SegState where
  ileft : Nat
  oleft : Nat
  sgileft : Nat
  sgoleft : Nat
  in_sg : Nat
  out_sg : Nat
  sseg : Nat
  si : Nat
  dseg : Nat
  di : Nat
  nf : Nat
  nt : Nat
  mem : List (List Nat)
  deriving DecidableEq, Repr

/-- The input half of one turn: push, then advance to the next entry.  The
boolean is true when a `kmap` gave `NULL` and the function returned `-1`. -/
def seg_input (src : List Sg) (rx_cnt : Nat) (s : SegState) : SegState × List Ev × Bool :=
  let todo := min3 rx_cnt s.ileft s.sgileft
  let s1 := if todo > 0 then { s with ileft := s.ileft - todo, sgileft := s.sgileft - todo }
    else s
  let e1 := push_words ((src.getD s1.sseg ⟨[], true⟩).data) s1.si todo
  let s1 := { s1 with si := s1.si + todo }
  if s1.in_sg < src.length ∧ s1.sgileft = 0 ∧ s1.ileft > 0 then
    let e2 := [Ev.kunmap true s1.in_sg]
    let n := s1.in_sg + 1
    let n := if n < src.length ∧ (src.getD n ⟨[], true⟩).data.length = 0 then n + 1 else n
    let n := if n < src.length ∧ (src.getD n ⟨[], true⟩).data.length = 0 then n + 1 else n
    let s2 := { s1 with in_sg := n }
    if n < src.length ∧ s2.ileft > 0 then
      if (src.getD n ⟨[], true⟩).mapped = false then
        (s2, e1 ++ e2 ++ [Ev.kmap true n], true)
      else
        ({ s2 with sseg := n, si := 0,
                   sgileft := (src.getD n ⟨[], true⟩).data.length / 4 },
          e1 ++ e2 ++ [Ev.kmap true n], false)
    else (s2, e1 ++ e2, false)
  else (s1, e1, false)

/-- The output half of one turn: pop, then advance to the next entry. -/
def seg_output (hw : Device) (dst : List Sg) (tx_cnt : Nat) (s : SegState) :
    SegState × List Ev × Bool :=
  let todo := min3 tx_cnt s.oleft s.sgoleft
  let s1 := if todo > 0 then { s with oleft := s.oleft - todo, sgoleft := s.sgoleft - todo }
    else s
  let e1 := pop_events hw.tx s1.nt todo
  let s1 := { s1 with
    mem := s1.mem.modify (pop_store hw.tx todo s1.nt s1.di) s1.dseg,
    di := s1.di + todo, nt := s1.nt + todo }
  if s1.out_sg < dst.length ∧ s1.sgoleft = 0 then
    let e2 := [Ev.kunmap false s1.out_sg]
    let n := s1.out_sg + 1
    let n := if n < dst.length ∧ (dst.getD n ⟨[], true⟩).data.length = 0 then n + 1 else n
    let s2 := { s1 with out_sg := n }
    if n < dst.length ∧ s2.oleft > 0 then
      if (dst.getD n ⟨[], true⟩).mapped = false then
        (s2, e1 ++ e2 ++ [Ev.kmap false n], true)
      else
        ({ s2 with dseg := n, di := 0,
                   sgoleft := (dst.getD n ⟨[], true⟩).data.length / 4 },
          e1 ++ e2 ++ [Ev.kmap false n], false)
    else (s2, e1 ++ e2, false)
  else (s1, e1, false)

/-- One turn of the segmented loop body. -/
def seg_iter (hw : Device) (src dst : List Sg) (s : SegState) : SegState × List Ev × Bool :=
  let tmp := hw.fcsr s.nf
  let s := { s with nf := s.nf + 1 }
  let (s1, e1, failed) := seg_input src (SS_RXFIFO_SPACES tmp) s
  if failed then (s1, Ev.readl SS_FCSR tmp :: e1, true)
  else
    let (s2, e2, failed) := seg_output hw dst (SS_TXFIFO_SPACES tmp) s1
    (s2, Ev.readl SS_FCSR tmp :: e1 ++ e2, failed)

/-- The segmented loop `do { ... } while (oleft > 0)`, at most `fuel` turns;
the boolean is true when the loop was left by `return -1`. -/
def seg_loop (hw : Device) (src dst : List Sg) :
    Nat → SegState → Option (SegState × List Ev × Bool)
  | 0, _ => none
  | fuel + 1, s =>
    let (s1, e, failed) := seg_iter hw src dst s
    if failed then some (s1, e, true)
    else if s1.oleft > 0 then
      match seg_loop hw src dst fuel s1 with
      | none => none
      | some (s2, e2, f) => some (s2, e ++ e2, f)
    else some (s1, e, false)

/-- Put the memories `mem` back into the entries of `dst`. -/
def with_data (dst : List Sg) (mem : List (List Nat)) : List Sg :=
  List.zipWith (fun sg d => { sg with data := d }) dst mem

/-- The function `sunxi_aes_poll`; `none` when the pump loop needs more than
`fuel` turns. -/
def sunxi_aes_poll (fuel : Nat) (hw : Device) (ss : sunxi_ss_ctx) (op : sunxi_req_ctx)
    (ivsize : Nat) (areq : ablkcipher_request) : Option CipherRet :=
  match areq.src, areq.dst with
  | [], _ => some { exit := Exit.null_deref, dst := areq.dst, ss := ss, op := op, trace := [] }
  | _ :: _, [] =>
    some { exit := Exit.null_deref, dst := areq.dst, ss := ss, op := op, trace := [] }
  | in_sg :: in_rest, out_sg :: out_rest =>
    let tmp := op.mode ||| SS_ENABLED
    let t0 := [Ev.mutex_lock Mutex.lock] ++ load_key_iv op ivsize areq.info ++
      [Ev.writel tmp SS_CTL]
    if in_rest = [] ∧ out_rest = [] then
      if in_sg.mapped = false then
        some { exit := Exit.returned (-1), dst := areq.dst, ss := ss, op := op,
               trace := t0 ++ [Ev.kmap true 0, Ev.writel 0 SS_CTL,
                 Ev.mutex_unlock Mutex.lock] }
      else if out_sg.mapped = false then
        some { exit := Exit.returned (-1), dst := areq.dst, ss := ss, op := op,
               trace := t0 ++ [Ev.kmap true 0, Ev.kmap false 0, Ev.writel 0 SS_CTL,
                 Ev.mutex_unlock Mutex.lock, Ev.kunmap true 0] }
      else
        match fast_loop hw in_sg.data fuel
            { ileft := areq.nbytes / 4, oleft := areq.nbytes / 4, rx_cnt := 32, tx_cnt := 0,
              si := 0, di := 0, nf := 0, nt := 0, mem := out_sg.data } with
        | none => none
        | some (s, e) =>
          some { exit := Exit.returned 0, dst := [{ out_sg with data := s.mem }], ss := ss,
                 op := op,
                 trace := t0 ++ [Ev.kmap true 0, Ev.kmap false 0] ++ e ++
                   [Ev.writel 0 SS_CTL, Ev.mutex_unlock Mutex.lock, Ev.kunmap true 0,
                    Ev.kunmap false 0] }
    else
      if in_sg.mapped = false then
        some { exit := Exit.returned (-1), dst := areq.dst, ss := ss, op := op,
               trace := t0 ++ [Ev.kmap true 0] }
      else if out_sg.mapped = false then
        some { exit := Exit.returned (-1), dst := areq.dst, ss := ss, op := op,
               trace := t0 ++ [Ev.kmap true 0, Ev.kmap false 0, Ev.kunmap true 0] }
      else
        match seg_loop hw areq.src areq.dst fuel
            { ileft := areq.nbytes / 4, oleft := areq.nbytes / 4,
              sgileft := in_sg.data.length / 4, sgoleft := out_sg.data.length / 4,
              in_sg := 0, out_sg := 0, sseg := 0, si := 0, dseg := 0, di := 0,
              nf := 0, nt := 0, mem := areq.dst.map Sg.data } with
        | none => none
        | some (s, e, true) =>
          some { exit := Exit.returned (-1), dst := with_data areq.dst s.mem, ss := ss,
                 op := op, trace := t0 ++ [Ev.kmap true 0, Ev.kmap false 0] ++ e }
        | some (s, e, false) =>
          some { exit := Exit.returned 0, dst := with_data areq.dst s.mem, ss := ss,
                 op := op,
                 trace := t0 ++ [Ev.kmap true 0, Ev.kmap false 0] ++ e ++
                   [Ev.writel 0 SS_CTL, Ev.mutex_unlock Mutex.lock] }

/-! ## The linearization path (`sunxi_des_poll`) -/

/-- Overwrite the start of `buf` with the bytes `d` (bytes that do not fit
are dropped). -/
def copy_into (buf d : List Nat) : List Nat := d.take buf.length ++ buf.drop d.length

/-- The kernel helper `sg_copy_to_buffer(sgl, nents, buf, buflen)`: the first
`buflen` bytes of the entries of `sgl`, in order, are copied to `buf`. -/
def sg_copy_to_buffer (sgl : List Sg) (buf : List Nat) (buflen : Nat) : List Nat :=
  copy_into buf (((sgl.map Sg.data).flatten).take buflen)

/-- Fill the entries of `sgl`, in order, with the successive bytes `b`. -/
def scatter : List Sg → List Nat → List Sg
  | [], _ => []
  | sg :: rest, b =>
    { sg with data := copy_into sg.data (b.take sg.data.length) } ::
      scatter rest (b.drop sg.data.length)

/-- The kernel helper `sg_copy_from_buffer(sgl, nents, buf, buflen)`: the
first `buflen` bytes of `buf` are copied to the entries of `sgl`, in order. -/
def sg_copy_from_buffer (sgl : List Sg) (buf : List Nat) (buflen : Nat) : List Sg :=
  scatter sgl (buf.take buflen)

/-- The test made by the two `while` loops at the head of `sunxi_des_poll`:
`no_chunk` stays `1` when every entry length is a multiple of 4. -/
def no_chunk (areq : ablkcipher_request) : Bool :=
  areq.src.all (fun sg => sg.data.length % 4 = 0) &&
    areq.dst.all (fun sg => sg.data.length % 4 = 0)

/-- Locals of the linearization pump; `buf_out` is the output staging
buffer. -/
structure DesState where
  rx_cnt : Nat
  tx_cnt : Nat
  ir : Nat
  it : Nat
  nf : Nat
  nt : Nat
  buf_out : List Nat
  deriving DecidableEq, Repr

/-- The loop `do { writel(*(u32 *)(buf_in + ir), SS_RXFIFO); ir += 4;
rx_cnt--; } while (rx_cnt > 0 && ir < nbytes)`. -/
def des_push (buf_in : List Nat) (nbytes : Nat) : Nat → DesState → DesState × List Ev
  | 0, s => (s, [])
  | fuel + 1, s =>
    let e := Ev.writel (load32 buf_in s.ir) SS_RXFIFO
    let s := { s with ir := s.ir + 4, rx_cnt := s.rx_cnt - 1 }
    if s.rx_cnt > 0 ∧ s.ir < nbytes then
      let (s2, e2) := des_push buf_in nbytes fuel s
      (s2, e :: e2)
    else (s, [e])

/-- The loop `do { value = readl(SS_TXFIFO); *(u32 *)(buf_out + it) = value;
it += 4; tx_cnt--; } while (tx_cnt > 0 && it < nbytes)`. -/
def des_pop (hw : Device) (nbytes : Nat) : Nat → DesState → DesState × List Ev
  | 0, s => (s, [])
  | fuel + 1, s =>
    let value := hw.tx s.nt
    let s := { s with buf_out := store32 s.buf_out s.it value, it := s.it + 4,
                      tx_cnt := s.tx_cnt - 1, nt := s.nt + 1 }
    if s.tx_cnt > 0 ∧ s.it < nbytes then
      let (s2, e2) := des_pop hw nbytes fuel s
      (s2, Ev.readl SS_TXFIFO value :: e2)
    else (s, [Ev.readl SS_TXFIFO value])

/-- One turn of the linearization pump loop. -/
def des_iter (hw : Device) (buf_in : List Nat) (nbytes : Nat) (s : DesState) :
    DesState × List Ev :=
  let (s, e0) :=
    if s.rx_cnt = 0 ∨ s.tx_cnt = 0 then
      let tmp := hw.fcsr s.nf
      ({ s with rx_cnt := SS_RXFIFO_SPACES tmp, tx_cnt := SS_TXFIFO_SPACES tmp,
                nf := s.nf + 1 }, [Ev.readl SS_FCSR tmp])
    else (s, [])
  let (s, e1) :=
    if s.rx_cnt > 0 ∧ s.ir < nbytes then des_push buf_in nbytes s.rx_cnt s else (s, [])
  let (s, e2) :=
    if s.tx_cnt > 0 ∧ s.it < nbytes then des_pop hw nbytes s.tx_cnt s else (s, [])
  let (s, e3) :=
    if s.ir = nbytes then ({ s with ir := s.ir + 1 }, [Ev.mutex_unlock Mutex.bufin_lock])
    else (s, [])
  (s, e0 ++ e1 ++ e2 ++ e3)

/-- The pump loop `do { ... } while (it < areq->nbytes)`, at most `fuel`
turns. -/
def des_loop (hw : Device) (buf_in : List Nat) (nbytes : Nat) :
    Nat → DesState → Option (DesState × List Ev)
  | 0, _ => none
  | fuel + 1, s =>
    let (s1, e) := des_iter hw buf_in nbytes s
    if s1.it < nbytes then
      match des_loop hw buf_in nbytes fuel s1 with
      | none => none
      | some (s2, e2) => some (s2, e ++ e2)
    else some (s1, e)

/-- The allocation `kmalloc(size, GFP_KERNEL)` number `k` of the call: a
fresh buffer (its content is immaterial and taken as zeros) or `NULL`. -/
def kmalloc (hw : Device) (k size : Nat) : Option (List Nat) :=
  if hw.kmalloc_ok k then some (List.replicate size 0) else none

/-- The management of `ss->buf_in` at the head of the linearization path;
the second component is the number of `kmalloc` calls made. -/
def stage_in (hw : Device) (ss : sunxi_ss_ctx) (nbytes : Nat) : sunxi_ss_ctx × Nat :=
  match ss.buf_in with
  | none => ({ ss with buf_in := kmalloc hw 0 nbytes, buf_in_size := nbytes }, 1)
  | some _ =>
    if nbytes > ss.buf_in_size then
      ({ ss with buf_in := kmalloc hw 0 nbytes, buf_in_size := nbytes }, 1)
    else (ss, 0)

/-- The management of `ss->buf_out`; `k` is the number of earlier `kmalloc`
calls.  The boolean is true when the allocation failed. -/
def stage_out (hw : Device) (ss : sunxi_ss_ctx) (nbytes k : Nat) :
    sunxi_ss_ctx × List Ev × Bool :=
  match ss.buf_out with
  | none =>
    match kmalloc hw k nbytes with
    | none =>
      ({ ss with buf_out := none, buf_out_size := 0 },
        [Ev.mutex_lock Mutex.bufout_lock, Ev.mutex_unlock Mutex.bufout_lock], true)
    | some b =>
      ({ ss with buf_out := some b, buf_out_size := nbytes },
        [Ev.mutex_lock Mutex.bufout_lock, Ev.mutex_unlock Mutex.bufout_lock], false)
  | some _ =>
    if nbytes > ss.buf_out_size then
      match kmalloc hw k nbytes with
      | none =>
        ({ ss with buf_out := none, buf_out_size := 0 },
          [Ev.mutex_lock Mutex.bufout_lock, Ev.mutex_unlock Mutex.bufout_lock], true)
      | some b =>
        ({ ss with buf_out := some b, buf_out_size := nbytes },
          [Ev.mutex_lock Mutex.bufout_lock, Ev.mutex_unlock Mutex.bufout_lock], false)
    else (ss, [], false)

/-- The function `sunxi_des_poll`; `none` when a pump loop needs more than
`fuel` turns. -/
def sunxi_des_poll (fuel : Nat) (hw : Device) (ss : sunxi_ss_ctx) (op : sunxi_req_ctx)
    (ivsize : Nat) (areq : ablkcipher_request) : Option CipherRet :=
  if no_chunk areq = true then sunxi_aes_poll fuel hw ss op ivsize areq
  else
    let tmp := op.mode ||| SS_ENABLED
    let (ss, k) := stage_in hw ss areq.nbytes
    match ss.buf_in with
    | none =>
      some { exit := Exit.returned (-ENOMEM), dst := areq.dst,
             ss := { ss with buf_in_size := 0 }, op := op,
             trace := [Ev.mutex_lock Mutex.bufin_lock, Ev.mutex_unlock Mutex.bufin_lock] }
    | some buf_in =>
      let (ss, e_out, failed) := stage_out hw ss areq.nbytes k
      if failed then
        some { exit := Exit.returned (-ENOMEM), dst := areq.dst, ss := ss, op := op,
               trace := [Ev.mutex_lock Mutex.bufin_lock] ++ e_out }
      else
        let buf_in := sg_copy_to_buffer areq.src buf_in areq.nbytes
        let ss := { ss with buf_in := some buf_in }
        let t0 := [Ev.mutex_lock Mutex.bufin_lock] ++ e_out ++ [Ev.mutex_lock Mutex.lock] ++
          load_key_iv op ivsize areq.info ++ [Ev.writel tmp SS_CTL]
        match des_loop hw buf_in areq.nbytes fuel
            { rx_cnt := 0, tx_cnt := 0, ir := 0, it := 0, nf := 0, nt := 0,
              buf_out := ss.buf_out.getD [] } with
        | none => none
        | some (s, e) =>
          some { exit := Exit.returned 0,
                 dst := sg_copy_from_buffer areq.dst s.buf_out areq.nbytes,
                 ss := { ss with buf_out := some s.buf_out }, op := op,
                 trace := t0 ++ e ++ [Ev.writel 0 SS_CTL, Ev.mutex_unlock Mutex.lock,
                   Ev.mutex_lock Mutex.bufout_lock, Ev.mutex_unlock Mutex.bufout_lock] }

/-! ## Entry points (`sunxi-ss-cipher-{aes,des,3des}.c`) -/

/-- The copy `memcpy(dst, src, n)`. -/
def memcpy (dst src : List Nat) (n : Nat) : List Nat :=
  (List.range dst.length).map fun i => if i < n then src.getD i 0 else dst.getD i 0

/-- The function `sunxi_aes_setkey`. -/
def sunxi_aes_setkey (op : sunxi_req_ctx) (key : List Nat) (keylen : Nat) :
    Int × sunxi_req_ctx :=
  if keylen = 128 / 8 then
    (0, { op with mode := SS_AES_128BITS, keylen := keylen, key := memcpy op.key key keylen })
  else if keylen = 192 / 8 then
    (0, { op with mode := SS_AES_192BITS, keylen := keylen, key := memcpy op.key key keylen })
  else if keylen = 256 / 8 then
    (0, { op with mode := SS_AES_256BITS, keylen := keylen, key := memcpy op.key key keylen })
  else (-EINVAL, op)

/-- The function `sunxi_des_setkey`. -/
def sunxi_des_setkey (op : sunxi_req_ctx) (key : List Nat) (keylen : Nat) :
    Int × sunxi_req_ctx :=
  if keylen ≠ DES_KEY_SIZE then (-EINVAL, op)
  else (0, { op with keylen := keylen, key := memcpy op.key key keylen })

/-- The function `sunxi_des3_setkey`. -/
def sunxi_des3_setkey (op : sunxi_req_ctx) (key : List Nat) (keylen : Nat) :
    Int × sunxi_req_ctx :=
  if keylen ≠ 3 * DES_KEY_SIZE then (-EINVAL, op)
  else (0, { op with keylen := keylen, key := memcpy op.key key keylen })

/-- The early exit `return -EINVAL` of the six CBC entry points. -/
def empty_iv (ss : sunxi_ss_ctx) (op : sunxi_req_ctx) (areq : ablkcipher_request) :
    CipherRet :=
  { exit := Exit.returned (-EINVAL), dst := areq.dst, ss := ss, op := op, trace := [] }

/-- The function `sunxi_aes_cbc_encrypt`. -/
def sunxi_aes_cbc_encrypt (fuel : Nat) (hw : Device) (ss : sunxi_ss_ctx)
    (op : sunxi_req_ctx) (ivsize : Nat) (areq : ablkcipher_request) : Option CipherRet :=
  if areq.info = none then some (empty_iv ss op areq)
  else
    sunxi_aes_poll fuel hw ss
      { op with mode := ((op.mode ||| SS_ENCRYPTION) ||| SS_OP_AES) ||| SS_CBC } ivsize areq

/-- The function `sunxi_aes_cbc_decrypt`. -/
def sunxi_aes_cbc_decrypt (fuel : Nat) (hw : Device) (ss : sunxi_ss_ctx)
    (op : sunxi_req_ctx) (ivsize : Nat) (areq : ablkcipher_request) : Option CipherRet :=
  if areq.info = none then some (empty_iv ss op areq)
  else
    sunxi_aes_poll fuel hw ss
      { op with mode := ((op.mode ||| SS_DECRYPTION) ||| SS_OP_AES) ||| SS_CBC } ivsize areq

/-- The function `sunxi_des_cbc_encrypt`. -/
def sunxi_des_cbc_encrypt (fuel : Nat) (hw : Device) (ss : sunxi_ss_ctx)
    (op : sunxi_req_ctx) (ivsize : Nat) (areq : ablkcipher_request) : Option CipherRet :=
  if areq.info = none then some (empty_iv ss op areq)
  else
    sunxi_des_poll fuel hw ss
      { op with mode := ((op.mode ||| SS_ENCRYPTION) ||| SS_OP_DES) ||| SS_CBC } ivsize areq

/-- The function `sunxi_des_cbc_decrypt`. -/
def sunxi_des_cbc_decrypt (fuel : Nat) (hw : Device) (ss : sunxi_ss_ctx)
    (op : sunxi_req_ctx) (ivsize : Nat) (areq : ablkcipher_request) : Option CipherRet :=
  if areq.info = none then some (empty_iv ss op areq)
  else
    sunxi_des_poll fuel hw ss
      { op with mode := ((op.mode ||| SS_DECRYPTION) ||| SS_OP_DES) ||| SS_CBC } ivsize areq

/-- The function `sunxi_des3_cbc_encrypt`. -/
def sunxi_des3_cbc_encrypt (fuel : Nat) (hw : Device) (ss : sunxi_ss_ctx)
    (op : sunxi_req_ctx) (ivsize : Nat) (areq : ablkcipher_request) : Option CipherRet :=
  if areq.info = none then some (empty_iv ss op areq)
  else
    sunxi_des_poll fuel hw ss
      { op with mode := ((op.mode ||| SS_ENCRYPTION) ||| SS_OP_3DES) ||| SS_CBC } ivsize areq

/-- The function `sunxi_des3_cbc_decrypt`. -/
def sunxi_des3_cbc_decrypt (fuel : Nat) (hw : Device) (ss : sunxi_ss_ctx)
    (op : sunxi_req_ctx) (ivsize : Nat) (areq : ablkcipher_request) : Option CipherRet :=
  if areq.info = none then some (empty_iv ss op areq)
  else
    sunxi_des_poll fuel hw ss
      { op with mode := ((op.mode ||| SS_DECRYPTION) ||| SS_OP_3DES) ||| SS_CBC } ivsize areq

/-! ## Vocabulary for the cipher claims -/

/-- The hardware never offers more output than it was given input: at every
read of `SS_FCSR` the transmit count it reports is at most the number of
words pushed so far (`w`) minus the number of words popped so far (`r`). -/
def causal : Nat → Nat → List Ev → Bool
  | _, _, [] => true
  | w, r, Ev.writel _ reg :: t => causal (if reg = SS_RXFIFO then w + 1 else w) r t
  | w, r, Ev.readl reg v :: t =>
    if reg = SS_TXFIFO then causal w (r + 1) t
    else if reg = SS_FCSR then decide (SS_TXFIFO_SPACES v ≤ w - r) && causal w r t
    else causal w r t
  | w, r, _ :: t => causal w r t

/-- The 32-bit words of a memory, in order. -/
def words_of (mem : List Nat) (n : Nat) : List Nat :=
  (List.range n).map fun k => load32 mem (4 * k)

/-- The bytes of the first `n` words popped from the transmit FIFO. -/
def tx_bytes (tx : Nat → Nat) (n : Nat) : List Nat :=
  (List.range n).flatMap fun k => le32 (tx k)

/-! ## Vocabulary for the hash claims -/

/-- A sequence of `sunxi_hash_update` calls, one per request; a request is
given by its scatterlist and its `nbytes` is the sum of the entry lengths. -/
def hash_updates : List (List (List Nat)) → sunxi_req_ctx → sunxi_req_ctx × List Ev
  | [], op => (op, [])
  | r :: rs, op =>
    let u := sunxi_hash_update (r.map List.length).sum r op []
    let rest := hash_updates rs u.op
    (rest.1, u.trace ++ rest.2)

/-- The bytes of the message carried by a sequence of requests. -/
def messageOf (reqs : List (List (List Nat))) : List Nat :=
  (reqs.map List.flatten).flatten

/-- The pending bytes: the first `nbwait` bytes of `waitbuf`. -/
def residue (op : sunxi_req_ctx) : List Nat := (le32 op.waitbuf).take op.nbwait

/-- Byte serialisation of the words pushed into the receive FIFO. -/
def rxBytes (t : List Ev) : List Nat := (rxWords t).flatMap le32

/-- Events that only move data: FIFO pushes and page (un)mappings. -/
def Ev.isData : Ev → Bool
  | Ev.writel _ r => decide (r = SS_RXFIFO)
  | Ev.kmap _ _ => true
  | Ev.kunmap _ _ => true
  | _ => false

/-- The eight bytes of a 64-bit value, most significant first. -/
def be64 (v : Nat) : List Nat :=
  [v / 2 ^ 56 % 256, v / 2 ^ 48 % 256, v / 2 ^ 40 % 256, v / 2 ^ 32 % 256,
   v / 2 ^ 24 % 256, v / 2 ^ 16 % 256, v / 2 ^ 8 % 256, v % 256]

/-- The eight bytes of a 64-bit value, least significant first. -/
def le64 (v : Nat) : List Nat :=
  [v % 256, v / 2 ^ 8 % 256, v / 2 ^ 16 % 256, v / 2 ^ 24 % 256,
   v / 2 ^ 32 % 256, v / 2 ^ 40 % 256, v / 2 ^ 48 % 256, v / 2 ^ 56 % 256]

/-- Number of zero bytes of the Merkle-Damgard padding of a message of `len`
bytes: the least `k` with `len + 1 + k = 56 (mod 64)`. -/
def pad_zeros (len : Nat) : Nat := (119 - len % 64) % 64

/-- The Merkle-Damgard padded message: `m`, the byte `0x80`, the zero bytes,
the bit length on eight bytes (big-endian for SHA1, little-endian for MD5). -/
def md_pad (sha1 : Bool) (m : List Nat) : List Nat :=
  m ++ [0x80] ++ List.replicate (pad_zeros m.length) 0 ++
    (if sha1 then be64 (8 * m.length) else le64 (8 * m.length))

/-- The state `s'` is reached from `s` by consuming the next `j` bytes of the
entry `sg`: the events added only move data, and the bytes pushed followed by
the new residue are the old residue followed by the bytes consumed. -/
def Adv (sg : List Nat) (j : Nat) (s s' : UpdState) : Prop :=
  s'.in_i = s.in_i + j ∧ s'.i = s.i + j ∧ s.in_i + j ≤ sg.length ∧
  s'.op.nbwait ≤ 4 ∧ s'.op.waitbuf < 256 ^ s'.op.nbwait ∧
  s'.op.key = s.op.key ∧ s'.op.keylen = s.op.keylen ∧ s'.op.mode = s.op.mode ∧
  ∃ d, s'.trace = s.trace ++ d ∧ (∀ e ∈ d, e.isData = true) ∧
    (∀ w ∈ rxWords d, w < 2 ^ 32) ∧
    rxBytes d ++ residue s'.op = residue s.op ++ (sg.drop s.in_i).take j ∧
    s'.op.byte_count = (s.op.byte_count + 4 * (rxWords d).length) % 2 ^ 64

/-- The relation between the context before and after one or several
updates that consumed the bytes `m`, with `d` the events performed. -/
def Fed (m : List Nat) (op op' : sunxi_req_ctx) (d : List Ev) : Prop :=
  op'.nbwait ≤ 3 ∧ op'.waitbuf < 256 ^ op'.nbwait ∧
  op'.key = op.key ∧ op'.keylen = op.keylen ∧ op'.mode = op.mode ∧
  (∀ e ∈ d, e.isData = true) ∧ (∀ w ∈ rxWords d, w < 2 ^ 32) ∧
  rxBytes d ++ residue op' = residue op ++ m ∧
  op'.byte_count = (op.byte_count + 4 * (rxWords d).length) % 2 ^ 64

/-- A device that has always finished: every `SS_CTL` read returns `0` and
the digest registers read `0`. -/
def hw_idle : HashHW := { ctl := fun _ => 0, md := fun _ => 0 }

/-- A device whose `SS_DATA_END` bit is still set in the first 99 completion
polls and clear in the 100th. -/
def hw_late : HashHW :=
  { ctl := fun k => if k < 100 then SS_DATA_END else 0, md := fun _ => 0 }

/-- Events that acquire or release a mutex. -/
def Ev.isMutex : Ev → Bool
  | Ev.mutex_lock _ => true
  | Ev.mutex_unlock _ => true
  | _ => false

/-- The trace of `s'` extends the trace of `s` by events that only move data. -/
def DataExt (s s' : UpdState) : Prop :=
  ∃ d, s'.trace = s.trace ++ d ∧ ∀ e ∈ d, e.isData = true

/-- Three short updates of one to three bytes each. -/
def chunks_small : List (List (List Nat)) := [[[1], [2, 3]], [[4, 5, 6]], [[7]]]

/-- The same seven bytes in one update. -/
def chunks_big : List (List (List Nat)) := [[[1, 2, 3, 4, 5, 6, 7]]]

/-- The message `abc` in one update of two entries. -/
def chunks_abc : List (List (List Nat)) := [[[0x61], [0x62, 0x63]]]

/-- Events of the FIFO traffic: pushes into `SS_RXFIFO`, pops from
`SS_TXFIFO` and reads of `SS_FCSR`. -/
def Ev.isFifo : Ev → Bool
  | Ev.writel _ r => decide (r = SS_RXFIFO)
  | Ev.readl r _ => decide (r = SS_TXFIFO) || decide (r = SS_FCSR)
  | _ => false

/-- Staging buffers not yet allocated. -/
def ss_empty : sunxi_ss_ctx :=
  { buf_in := none, buf_in_size := 0, buf_out := none, buf_out_size := 0 }

/-- A device that reports, at every read of `SS_FCSR`, no room in the receive
FIFO and `tx` words ready in the transmit FIFO, whatever was pushed. -/
def hw_eager (tx : Nat) : Device :=
  { fcsr := fun _ => tx <<< 16, tx := fun k => k + 1, kmalloc_ok := fun _ => true }

/-- A device that reports two words ready at the second read of `SS_FCSR`
and none at the other reads. -/
def hw_paced : Device :=
  { fcsr := fun k => if k = 1 then 2 <<< 16 else 0, tx := fun k => k + 1,
    kmalloc_ok := fun _ => true }

/-- A request of 33 words held in one source and one destination entry. -/
def req_33_words : ablkcipher_request :=
  { nbytes := 132, src := [⟨List.replicate 132 1, true⟩],
    dst := [⟨List.replicate 132 0, true⟩], info := some (List.replicate 16 0) }

/-- A request of two source entries whose first entry cannot be mapped. -/
def req_unmapped : ablkcipher_request :=
  { nbytes := 8, src := [⟨[1, 2, 3, 4], false⟩, ⟨[5, 6, 7, 8], true⟩],
    dst := [⟨List.replicate 8 0, true⟩], info := some (List.replicate 16 0) }

/-- The recorded sizes of the staging buffers are their lengths. -/
def staged (ss : sunxi_ss_ctx) : Prop :=
  (∀ b, ss.buf_in = some b → b.length = ss.buf_in_size) ∧
    (∀ b, ss.buf_out = some b → b.length = ss.buf_out_size)

/-- A device that has room for two words at the first read of `SS_FCSR`,
reports two words ready at the second read and nothing afterwards. -/
def hw_two : Device :=
  { fcsr := fun k => if k = 0 then 2 <<< 24 else if k = 1 then 2 <<< 16 else 0,
    tx := fun k => k + 1, kmalloc_ok := fun _ => true }

/-- Eight bytes in source entries of 2 and 6 bytes, to destination entries of
3 and 5 bytes. -/
def req_chunked : ablkcipher_request :=
  { nbytes := 8, src := [⟨[1, 2], true⟩, ⟨[3, 4, 5, 6, 7, 8], true⟩],
    dst := [⟨[0, 0, 0], true⟩, ⟨[0, 0, 0, 0, 0], true⟩], info := some (List.replicate 8 0) }

/-- The same eight bytes in one source entry and one destination entry. -/
def req_single : ablkcipher_request :=
  { nbytes := 8, src := [⟨[1, 2, 3, 4, 5, 6, 7, 8], true⟩],
    dst := [⟨[0, 0, 0, 0, 0, 0, 0, 0], true⟩], info := some (List.replicate 8 0) }

/-- The same eight bytes in two source entries and two destination entries
of one word each. -/
def req_two_entries : ablkcipher_request :=
  { nbytes := 8, src := [⟨[1, 2, 3, 4], true⟩, ⟨[5, 6, 7, 8], true⟩],
    dst := [⟨[0, 0, 0, 0], true⟩, ⟨[0, 0, 0, 0], true⟩], info := some (List.replicate 8 0) }

/-- Number of bytes held by the entries before entry `j`. -/
def preB (L : List (List Nat)) (j : Nat) : Nat := ((L.take j).flatten).length

/-- The input cursor of the segmented loop agrees with the number `W` of
words pushed so far. -/
def InInv (Sd : List (List Nat)) (n : Nat) (s : SegState) (W : Nat) : Prop :=
  s.ileft + W = n ∧
    (0 < s.ileft → s.in_sg < Sd.length ∧ s.sseg = s.in_sg ∧
      4 * (s.si + s.sgileft) = (Sd.getD s.in_sg []).length ∧
      4 * W = preB Sd s.in_sg + 4 * s.si)

/-- The output cursor of the segmented loop agrees with the number `R` of
words popped so far, and the destination memory holds these words. -/
def OutInv (Dd : List (List Nat)) (tx : Nat → Nat) (n : Nat) (s : SegState) (R : Nat) : Prop :=
  s.nt = R ∧ s.oleft + R = n ∧ s.mem.map List.length = Dd.map List.length ∧
    s.mem.flatten = pop_store tx R 0 0 Dd.flatten ∧
    (0 < s.oleft → s.out_sg < Dd.length ∧ s.dseg = s.out_sg ∧
      4 * (s.di + s.sgoleft) = (Dd.getD s.out_sg []).length ∧
      4 * R = preB Dd s.out_sg + 4 * s.di)

/-- A device that alternates between room for one word in the receive FIFO
and one word ready in the transmit FIFO. -/
def hw_alternate : Device :=
  { fcsr := fun k => if k % 2 = 0 then 1 <<< 24 else 1 <<< 16, tx := fun k => k + 1,
    kmalloc_ok := fun _ => true }

/-- The four bytes of a 32-bit word, most significant first. -/
def be32 (v : Nat) : List Nat :=
  [v / 16777216 % 256, v / 65536 % 256, v / 256 % 256, v % 256]

/-- A device that completes at the first poll and whose digest registers
hold `0x01020304`, `0x05060708`, ... -/
def hw_digest : HashHW :=
  { ctl := fun _ => 0, md := fun i => 0x01020304 + 0x04040404 * i }

/-! ## The PRNG (`sunxi-ss-rng.c`) -/

def SS_PRNG_ONESHOT : Nat := 0 <<< 15
def SS_OP_PRNG : Nat := 5 <<< 4
def SS_PRNG_START : Nat := 1 <<< 1
def SS_SEED_LEN : Nat := 192 / 8
def SS_DATA_LEN : Nat := 160 / 8

/-- The context `struct prng_context`: `seed` is the array
`u32 seed[SS_SEED_LEN/4]` (six words), `slen` the `unsigned int` that follows
it. -/
structure prng_context where
  seed : List Nat
  slen : Nat
  deriving DecidableEq, Repr

/-- The context as it lies in memory: the structure, then the 32-bit words
`after` that follow it.  Word `i` of this memory is what the expression
`ctx->seed[i]` designates: a seed word for `i < 6`, the field `slen` for
`i = 6`, a word past the structure for `i > 6`. -/
structure PrngMem where
  ctx : prng_context
  after : List Nat
  deriving DecidableEq, Repr

/-- The load `ctx->seed[i]`, also written `*(u32 *)(ctx->seed + i)`. -/
def seed_word (m : PrngMem) (i : Nat) : Nat :=
  if i < SS_SEED_LEN / 4 then m.ctx.seed.getD i 0
  else if i = SS_SEED_LEN / 4 then m.ctx.slen
  else m.after.getD (i - (SS_SEED_LEN / 4 + 1)) 0

/-- The store `ctx->seed[i] = v`. -/
def set_seed_word (m : PrngMem) (i v : Nat) : PrngMem :=
  if i < SS_SEED_LEN / 4 then { m with ctx := { m.ctx with seed := m.ctx.seed.set i v } }
  else if i = SS_SEED_LEN / 4 then { m with ctx := { m.ctx with slen := v } }
  else { m with after := m.after.set (i - (SS_SEED_LEN / 4 + 1)) v }

/-- The loop `for (i = 0; i < SS_SEED_LEN && i < slen; i++)
ctx->seed[i] = seed[i]` from index `i` on, `n` turns. -/
def reset_loop (seed : List Nat) : Nat → Nat → PrngMem → PrngMem
  | 0, _, m => m
  | n + 1, i, m => reset_loop seed n (i + 1) (set_seed_word m i (seed.getD i 0))

/-- The function `sunxi_ss_rng_reset`; `seed` is the caller's byte buffer. -/
def sunxi_ss_rng_reset (m : PrngMem) (seed : List Nat) (slen : Nat) : Int × PrngMem :=
  if slen = 0 then (0, { m with ctx := { m.ctx with slen := 0 } })
  else if slen > SS_SEED_LEN then (-EINVAL, m)
  else
    let m := reset_loop seed (min SS_SEED_LEN slen) 0 m
    (0, { m with ctx := { m.ctx with slen := slen } })

/-- What `sunxi_ss_rng_get_random` leaves behind: the returned `int`, the
memory at `rdata` and the events performed. -/
structure RngRet where
  ret : Int
  rdata : Option (List Nat)
  trace : List Ev
  deriving DecidableEq, Repr

/-- The conversion of an `unsigned int` to the `int` returned. -/
def to_int (u : Nat) : Int :=
  if u % 2 ^ 32 < 2 ^ 31 then ((u % 2 ^ 32 : Nat) : Int) else ((u % 2 ^ 32 : Nat) : Int) - 2 ^ 32

/-- The loop `for (i = 0; i < ctx->slen && i < SS_SEED_LEN; i += 4)
{ v = *(u32 *)(ctx->seed + i); writel(v, ss->base + SS_KEY0 + i); }`. -/
def rng_load_seed (m : PrngMem) : List Ev :=
  (List.range ((min m.ctx.slen SS_SEED_LEN + 3) / 4)).map
    fun j => Ev.writel (seed_word m (4 * j)) (SS_KEY0 + 4 * j)

/-- The poll `do { v = readl(SS_CTL); i++; } while (v != mode && i < 10)`;
`ctl k` is the value of the `k`-th read of `SS_CTL`. -/
def rng_poll (ctl : Nat → Nat) (mode : Nat) : Nat → Nat → List Ev → Nat × List Ev
  | 0, i, t => (i, t)
  | fuel + 1, i, t =>
    let v := ctl i
    let t := t ++ [Ev.readl SS_CTL v]
    let i := i + 1
    if v ≠ mode ∧ i < 10 then rng_poll ctl mode fuel i t else (i, t)

/-- The loop `for (i = 0; i < dlen && i < SS_DATA_LEN; i += 4)
{ v = readl(ss->base + SS_MD0 + i); *(u32 *)(rdata + i) = v; }` from turn `j`
on, `n` turns. -/
def rng_read (md : Nat → Nat) : Nat → Nat → List Nat → List Ev → List Nat × List Ev
  | 0, _, rdata, t => (rdata, t)
  | n + 1, j, rdata, t =>
    rng_read md n (j + 1) (store32 rdata (4 * j) (md j))
      (t ++ [Ev.readl (SS_MD0 + 4 * j) (md j)])

/-- The function `sunxi_ss_rng_get_random`; `rdata` is the memory from the
caller's pointer on (`none` for `NULL`), `hw.ctl k` the `k`-th read of
`SS_CTL` and `hw.md j` the value of `SS_MD0 + 4 * j`. -/
def sunxi_ss_rng_get_random (hw : HashHW) (m : PrngMem) (rdata : Option (List Nat))
    (dlen : Nat) : RngRet :=
  match rdata with
  | none => { ret := -EINVAL, rdata := none, trace := [] }
  | some buf =>
    let mode := 0 ||| ((SS_OP_PRNG ||| SS_PRNG_ONESHOT) ||| SS_ENABLED)
    let t0 := [Ev.mutex_lock Mutex.lock, Ev.writel mode SS_CTL] ++ rng_load_seed m ++
      [Ev.writel (mode ||| SS_PRNG_START) SS_CTL]
    let (_, t1) := rng_poll hw.ctl mode 10 0 []
    let (buf, t2) := rng_read hw.md ((min dlen SS_DATA_LEN + 3) / 4) 0 buf []
    { ret := to_int dlen, rdata := some buf,
      trace := t0 ++ t1 ++ t2 ++ [Ev.writel 0 SS_CTL, Ev.mutex_unlock Mutex.lock] }

/-- A context holding six distinct seed words and a seed length of 8. -/
def prng_two_words : PrngMem :=
  { ctx := { seed := [0x11111111, 0x22222222, 0x33333333, 0x44444444, 0x55555555, 0x66666666],
             slen := 8 },
    after := List.replicate 24 0 }

/-- A context with a zeroed seed. -/
def prng_blank : PrngMem :=
  { ctx := { seed := List.replicate 6 0, slen := 0 }, after := List.replicate 24 0 }

/-- A device whose control register returns to the pre-start value at once
and whose digest registers hold `0x04030201`, `0x08070605`, ... -/
def hw_rng : HashHW :=
  { ctl := fun _ => 0 ||| ((SS_OP_PRNG ||| SS_PRNG_ONESHOT) ||| SS_ENABLED),
    md := fun j => 0x04030201 + 0x04040404 * j }

/-- The byte image of the six seed words. -/
def seed_bytes (c : prng_context) : List Nat := c.seed.flatMap le32

/-- Staging buffers of four bytes each, as left by an earlier request. -/
def ss_held : sunxi_ss_ctx :=
  { buf_in := some (List.replicate 4 0), buf_in_size := 4,
    buf_out := some (List.replicate 4 0), buf_out_size := 4 }

/-- A device under which every `kmalloc` fails. -/
def hw_nomem : Device :=
  { fcsr := fun _ => 0, tx := fun _ => 0, kmalloc_ok := fun _ => false }

/-- A device under which the first `kmalloc` of a call succeeds and the
second fails. -/
def hw_nomem_out : Device :=
  { fcsr := fun _ => 0, tx := fun _ => 0, kmalloc_ok := fun k => decide (k = 0) }

/-- States of the staging buffers reachable from the initial one (both
buffers absent, sizes 0, as left by `devm_kzalloc` in the probe) by calls of
`sunxi_des_poll`, whatever their outcome. -/
inductive Reachable : sunxi_ss_ctx → Prop where
  | init : Reachable ss_empty
  | step (fuel : Nat) (hw : Device) (ss : sunxi_ss_ctx) (op : sunxi_req_ctx) (ivsize : Nat)
      (areq : ablkcipher_request) (r : CipherRet) :
      Reachable ss → sunxi_des_poll fuel hw ss op ivsize areq = some r → Reachable r.ss

def SS_KEY7 : Nat := 0x20
def SS_IV3 : Nat := 0x30

/-- The writes into the key and IV registers (`SS_KEY0` to `SS_IV3`), in
order, as pairs of register and value. -/
def keyIvWrites (t : List Ev) : List (Nat × Nat) :=
  t.filterMap fun e =>
    match e with
    | Ev.writel v reg => if SS_KEY0 ≤ reg ∧ reg ≤ SS_IV3 then some (reg, v) else none
    | _ => none

/-- The context after `sunxi_aes_setkey` with the 16-byte key `0, 1, ..., 15`. -/
def op_aes128 : sunxi_req_ctx := (sunxi_aes_setkey sunxi_cipher_init (List.range 16) 16).2

/-! ## Definitions for C24: the residue invariant of the hash context -/

/-- The residue invariant of the hash context: at most three pending bytes,
a byte count that is a multiple of 4, and zero bytes in `waitbuf` from
position `nbwait` on. -/
def ResidueInv (op : sunxi_req_ctx) : Prop :=
  op.nbwait ≤ 3 ∧ op.byte_count % 4 = 0 ∧
    ∀ k, op.nbwait ≤ k → k < 4 → op.waitbuf / 256 ^ k % 256 = 0

/-! ## Definitions for C21, C23, C28, C29, C30: runs that show a defect -/

/-- Number of `kmap` calls on entries of the source (`src = true`) or
destination list. -/
def kmapCount (src : Bool) (t : List Ev) : Nat :=
  (t.filter fun e =>
    match e with
    | Ev.kmap a _ => a == src
    | _ => false).length

/-- Number of `kunmap` calls on entries of the source or destination list. -/
def kunmapCount (src : Bool) (t : List Ev) : Nat :=
  (t.filter fun e =>
    match e with
    | Ev.kunmap a _ => a == src
    | _ => false).length

/-- Six bytes in one source entry of six bytes, to one destination entry of
eight bytes. -/
def req_six_bytes : ablkcipher_request :=
  { nbytes := 6, src := [⟨[1, 2, 3, 4, 5, 6], true⟩],
    dst := [⟨[0, 0, 0, 0, 0, 0, 0, 0], true⟩], info := some (List.replicate 8 0) }

/-- A context whose six seed words and the memory after it carry distinct
marks; the seed length is 12. -/
def prng_marked : PrngMem :=
  { ctx := { seed := [0x5eed0000, 0x5eed0001, 0x5eed0002, 0x5eed0003, 0x5eed0004, 0x5eed0005],
             slen := 12 },
    after := [0xaf7e0007, 0xaf7e0008, 0xaf7e0009, 0xaf7e000a] }

/-! ## Definitions for C22: order of the register accesses of the cipher paths -/

/-- Events of a pump loop of `sunxi_aes_poll`: FIFO traffic (pushes into
`SS_RXFIFO`, pops from `SS_TXFIFO`, reads of `SS_FCSR`) and page
(un)mappings. -/
def Ev.isXfer : Ev → Bool
  | Ev.writel _ r => decide (r = SS_RXFIFO)
  | Ev.readl r _ => decide (r = SS_TXFIFO) || decide (r = SS_FCSR)
  | Ev.kmap _ _ => true
  | Ev.kunmap _ _ => true
  | _ => false

/-- Events of the pump loop of `sunxi_des_poll`: those of `Ev.isXfer` and the
release of `bufin_lock`. -/
def Ev.isPump : Ev → Bool
  | Ev.mutex_unlock m => decide (m = Mutex.bufin_lock)
  | e => e.isXfer

/-- Events that access no register and do not touch `ss->lock`. -/
def Ev.isOutside : Ev → Bool
  | Ev.writel _ _ => false
  | Ev.readl _ _ => false
  | Ev.mutex_lock m => decide (m ≠ Mutex.lock)
  | Ev.mutex_unlock m => decide (m ≠ Mutex.lock)
  | _ => true

/-- Writes into the key and IV registers `SS_KEY0` to `SS_IV3`. -/
def Ev.isKeyIv : Ev → Bool
  | Ev.writel _ r => decide (SS_KEY0 ≤ r ∧ r ≤ SS_IV3)
  | _ => false

/-! ## Definitions for C27: choice of path in `sunxi_des_poll` -/

/-- Events other than the acquisitions and releases of the two
staging-buffer locks. -/
def Ev.notBufLock : Ev → Bool
  | Ev.mutex_lock m => decide (m = Mutex.lock)
  | Ev.mutex_unlock m => decide (m = Mutex.lock)
  | _ => true

/-! ## Definitions for C26: FIFO flow control -/

/-- A device that has at least one word ready in the transmit FIFO at every
read of `SS_FCSR`. -/
def always_ready (hw : Device) : Prop := ∀ k, 0 < SS_TXFIFO_SPACES (hw.fcsr k)

/-- The context after `sunxi_des_setkey` with the 8-byte key `1, 2, ..., 8`. -/
def op_des : sunxi_req_ctx :=
  (sunxi_des_setkey sunxi_cipher_init [1, 2, 3, 4, 5, 6, 7, 8] 8).2

/-! # Theorems -/

/-! ## Bytes and words -/

theorem rxWords_append (a b : List Ev) : rxWords (a ++ b) = rxWords a ++ rxWords b := by
  simp [rxWords, writesTo]

theorem rxBytes_append (a b : List Ev) : rxBytes (a ++ b) = rxBytes a ++ rxBytes b := by
  simp [rxBytes, rxWords_append]

theorem rxWords_writel (v : Nat) : rxWords [Ev.writel v SS_RXFIFO] = [v] := by
  simp [rxWords, writesTo]

theorem length_le32 (v : Nat) : (le32 v).length = 4 := rfl

theorem set_byte_take (w n b : Nat) (hn : n ≤ 3) (hw : w < 256 ^ n) (hb : b < 256) :
    set_byte w n b < 256 ^ (n + 1) ∧
      (le32 (set_byte w n b)).take (n + 1) = (le32 w).take n ++ [b] := by
  have h4 : n = 0 ∨ n = 1 ∨ n = 2 ∨ n = 3 := by omega
  rcases h4 with h | h | h | h <;> subst h <;>
    simp only [set_byte, le32] <;> norm_num at hw ⊢ <;> omega

theorem residue_length (op : sunxi_req_ctx) (h : op.nbwait ≤ 4) :
    (residue op).length = op.nbwait := by
  simp [residue, length_le32, h]

theorem le32_load32 (sg : List Nat) (off : Nat) (hb : isBytes sg)
    (h : off + 4 ≤ sg.length) : le32 (load32 sg off) = (sg.drop off).take 4 := by
  have e0 : sg.getD off 0 = sg[off] := List.getD_eq_getElem _ _ (by omega)
  have e1 : sg.getD (off + 1) 0 = sg[off + 1] := List.getD_eq_getElem _ _ (by omega)
  have e2 : sg.getD (off + 2) 0 = sg[off + 2] := List.getD_eq_getElem _ _ (by omega)
  have e3 : sg.getD (off + 3) 0 = sg[off + 3] := List.getD_eq_getElem _ _ (by omega)
  have b0 : sg[off] < 256 := hb _ (List.getElem_mem _)
  have b1 : sg[off + 1] < 256 := hb _ (List.getElem_mem _)
  have b2 : sg[off + 2] < 256 := hb _ (List.getElem_mem _)
  have b3 : sg[off + 3] < 256 := hb _ (List.getElem_mem _)
  have hd : (sg.drop off).take 4 = [sg[off], sg[off + 1], sg[off + 2], sg[off + 3]] := by
    apply List.ext_getElem
    · simp; omega
    · intro n h1 h2
      simp at h2
      have h4 : n = 0 ∨ n = 1 ∨ n = 2 ∨ n = 3 := by omega
      rcases h4 with h | h | h | h <;> subst h <;> simp
  rw [hd]
  simp only [le32, load32, e0, e1, e2, e3]
  congr 1
  · omega
  congr 1
  · omega
  congr 1
  · omega
  congr 1
  omega

theorem load32_lt (sg : List Nat) (off : Nat) (hb : isBytes sg)
    (h : off + 4 ≤ sg.length) : load32 sg off < 2 ^ 32 := by
  have e0 : sg.getD off 0 = sg[off] := List.getD_eq_getElem _ _ (by omega)
  have e1 : sg.getD (off + 1) 0 = sg[off + 1] := List.getD_eq_getElem _ _ (by omega)
  have e2 : sg.getD (off + 2) 0 = sg[off + 2] := List.getD_eq_getElem _ _ (by omega)
  have e3 : sg.getD (off + 3) 0 = sg[off + 3] := List.getD_eq_getElem _ _ (by omega)
  have b0 : sg[off] < 256 := hb _ (List.getElem_mem _)
  have b1 : sg[off + 1] < 256 := hb _ (List.getElem_mem _)
  have b2 : sg[off + 2] < 256 := hb _ (List.getElem_mem _)
  have b3 : sg[off + 3] < 256 := hb _ (List.getElem_mem _)
  simp only [load32, e0, e1, e2, e3]
  omega

/-! ## The update loops -/

theorem adv_refl (sg : List Nat) (s : UpdState) (h1 : s.in_i ≤ sg.length)
    (h2 : s.op.nbwait ≤ 4) (h3 : s.op.waitbuf < 256 ^ s.op.nbwait)
    (h4 : s.op.byte_count < 2 ^ 64) : Adv sg 0 s s := by
  refine ⟨rfl, rfl, h1, h2, h3, rfl, rfl, rfl, [], by simp, by simp, by simp [rxWords, writesTo],
    by simp [rxBytes, rxWords, writesTo], ?_⟩
  simp only [rxWords, writesTo, List.filterMap_nil, List.length_nil]
  omega

theorem adv_trans {sg : List Nat} {j1 j2 : Nat} {s s1 s2 : UpdState}
    (h1 : Adv sg j1 s s1) (h2 : Adv sg j2 s1 s2) : Adv sg (j1 + j2) s s2 := by
  obtain ⟨a1, a2, a3, _, _, a6, a7, a8, d1, t1, e1, w1, r1, c1⟩ := h1
  obtain ⟨b1, b2, b3, b4, b5, b6, b7, b8, d2, t2, e2, w2, r2, c2⟩ := h2
  refine ⟨by omega, by omega, by omega, b4, b5, by rw [b6, a6], by rw [b7, a7],
    by rw [b8, a8], d1 ++ d2, by rw [t2, t1, List.append_assoc], ?_, ?_, ?_, ?_⟩
  · intro e he
    rcases List.mem_append.1 he with h | h
    · exact e1 e h
    · exact e2 e h
  · intro w hw
    rw [rxWords_append] at hw
    rcases List.mem_append.1 hw with h | h
    · exact w1 w h
    · exact w2 w h
  · rw [rxBytes_append, List.append_assoc, r2, ← List.append_assoc, r1, List.append_assoc,
      List.take_add, List.drop_drop, a1]
  · rw [c2, c1, rxWords_append, List.length_append]
    omega

theorem adv_take (sg : List Nat) (s : UpdState) (hb : isBytes sg)
    (h1 : s.in_i < sg.length) (h2 : s.op.nbwait ≤ 3)
    (h3 : s.op.waitbuf < 256 ^ s.op.nbwait) (h4 : s.op.byte_count < 2 ^ 64) :
    Adv sg 1 s (update_take sg s) := by
  have e0 : sg.getD s.in_i 0 = sg[s.in_i] := List.getD_eq_getElem _ _ h1
  have b0 : sg[s.in_i] < 256 := hb _ (List.getElem_mem _)
  obtain ⟨k1, k2⟩ := set_byte_take s.op.waitbuf s.op.nbwait sg[s.in_i] h2 h3 b0
  refine ⟨rfl, rfl, by omega, ?_, ?_, rfl, rfl, rfl, [], by simp [update_take], by simp,
    by simp [rxWords, writesTo], ?_, ?_⟩
  · simp only [update_take]; omega
  · simp only [update_take, e0]; exact k1
  · simp only [rxBytes, rxWords, writesTo, List.filterMap_nil, List.flatMap_nil, List.nil_append,
      residue, update_take, e0]
    rw [k2]
    congr 1
    rw [List.take_one_drop_eq_of_lt_length h1]
    rfl
  · simp only [rxWords, writesTo, List.filterMap_nil, List.length_nil, update_take]
    omega

theorem adv_flush (sg : List Nat) (s : UpdState) (h1 : s.in_i ≤ sg.length)
    (h2 : s.op.nbwait = 4) (h3 : s.op.waitbuf < 256 ^ s.op.nbwait) :
    Adv sg 0 s (update_flush s) := by
  refine ⟨rfl, rfl, h1, by simp [update_flush], by simp [update_flush], rfl, rfl, rfl,
    [Ev.writel s.op.waitbuf SS_RXFIFO], rfl, by simp [Ev.isData], ?_, ?_, ?_⟩
  · intro w hw
    rw [rxWords_writel] at hw
    simp only [List.mem_singleton] at hw
    rw [hw]
    rw [h2] at h3
    norm_num at h3 ⊢
    exact h3
  · simp [rxBytes, rxWords_writel, residue, update_flush, h2, length_le32]
  · simp [rxWords_writel, update_flush]

theorem adv_word (sg : List Nat) (s : UpdState) (hb : isBytes sg)
    (h1 : s.in_i + 4 ≤ sg.length) (h2 : s.op.nbwait = 0) (h3 : s.op.waitbuf = 0) :
    Adv sg 4 s
      { op := { s.op with byte_count := (s.op.byte_count + 4) % 2 ^ 64 },
        i := s.i + 4, in_i := s.in_i + 4,
        trace := s.trace ++ [Ev.writel (load32 sg s.in_i) SS_RXFIFO] } := by
  refine ⟨rfl, rfl, h1, by simp [h2], by simp [h3], rfl, rfl, rfl,
    [Ev.writel (load32 sg s.in_i) SS_RXFIFO], rfl, by simp [Ev.isData], ?_, ?_, ?_⟩
  · intro w hw
    rw [rxWords_writel] at hw
    simp only [List.mem_singleton] at hw
    rw [hw]
    exact load32_lt sg _ hb h1
  · simp [rxBytes, rxWords_writel, residue, h2, le32_load32 sg _ hb h1]
  · simp [rxWords_writel]

theorem adv_bc_lt {sg : List Nat} {j : Nat} {s s' : UpdState} (h : Adv sg j s s') :
    s'.op.byte_count < 2 ^ 64 := by
  obtain ⟨_, _, _, _, _, _, _, _, d, _, _, _, _, c⟩ := h
  rw [c]
  exact Nat.mod_lt _ (by norm_num)

theorem update_fill_adv (nbytes : Nat) (sg : List Nat) (hb : isBytes sg) :
    ∀ (fuel : Nat) (s : UpdState), s.in_i ≤ sg.length → s.op.nbwait ≤ 4 →
      s.op.waitbuf < 256 ^ s.op.nbwait → s.op.byte_count < 2 ^ 64 →
      ∃ j, Adv sg j s (update_fill nbytes sg fuel s) ∧
        (4 ≤ s.op.nbwait + fuel →
          (4 ≤ (update_fill nbytes sg fuel s).op.nbwait ∨
            nbytes ≤ (update_fill nbytes sg fuel s).i ∨
            sg.length ≤ (update_fill nbytes sg fuel s).in_i)) := by
  intro fuel
  induction fuel with
  | zero =>
    intro s h1 h2 h3 h4
    exact ⟨0, adv_refl sg s h1 h2 h3 h4, fun h => Or.inl (by simpa [update_fill] using h)⟩
  | succ n ih =>
    intro s h1 h2 h3 h4
    by_cases hc : s.op.nbwait < 4 ∧ s.i < nbytes ∧ s.in_i < sg.length
    · have a := adv_take sg s hb hc.2.2 (by omega) h3 h4
      obtain ⟨j, b, e⟩ := ih (update_take sg s) (by simp only [update_take]; omega)
        a.2.2.2.1 a.2.2.2.2.1 (adv_bc_lt a)
      refine ⟨1 + j, ?_, ?_⟩
      · simp only [update_fill, hc, and_self, if_true]
        exact adv_trans a b
      · intro hf
        simp only [update_fill, hc, and_self, if_true]
        apply e
        simp only [update_take]
        omega
    · refine ⟨0, ?_, ?_⟩
      · simp only [update_fill, hc, if_false]
        exact adv_refl sg s h1 h2 h3 h4
      · intro _
        simp only [update_fill, hc, if_false]
        omega

theorem update_words_adv (nbytes : Nat) (sg : List Nat) (hb : isBytes sg) :
    ∀ (fuel : Nat) (s : UpdState), s.in_i ≤ sg.length → s.op.nbwait ≤ 4 →
      s.op.waitbuf < 256 ^ s.op.nbwait → s.op.byte_count < 2 ^ 64 →
      (s.op.nbwait = 0 ∨ nbytes ≤ s.i ∨ sg.length ≤ s.in_i) →
      ∃ j, Adv sg j s (update_words nbytes sg fuel s) ∧
        (update_words nbytes sg fuel s).op.nbwait = s.op.nbwait ∧
        (sg.length < s.in_i + 4 * (fuel + 1) →
          (nbytes < (update_words nbytes sg fuel s).i + 4 ∨
            sg.length < (update_words nbytes sg fuel s).in_i + 4)) := by
  intro fuel
  induction fuel with
  | zero =>
    intro s h1 h2 h3 h4 _
    refine ⟨0, adv_refl sg s h1 h2 h3 h4, rfl, fun h => Or.inr ?_⟩
    simp only [update_words]
    omega
  | succ n ih =>
    intro s h1 h2 h3 h4 h5
    by_cases hc : s.i < nbytes ∧ nbytes - s.i ≥ 4 ∧ s.in_i < sg.length ∧
        sg.length - s.in_i ≥ 4
    · have hn : s.op.nbwait = 0 := by omega
      have hw : s.op.waitbuf = 0 := by
        rw [hn] at h3
        simpa using h3
      have a := adv_word sg s hb (by omega) hn hw
      obtain ⟨j, b, e1, e2⟩ := ih _ (by simp only []; omega) a.2.2.2.1 a.2.2.2.2.1
        (adv_bc_lt a) (Or.inl hn)
      refine ⟨4 + j, ?_, ?_, ?_⟩
      · simp only [update_words, hc, and_self, if_true]
        exact adv_trans a b
      · simp only [update_words, hc, and_self, if_true]
        exact e1
      · intro hf
        simp only [update_words, hc, and_self, if_true]
        apply e2
        simp only []
        omega
    · refine ⟨0, ?_, ?_, ?_⟩
      · simp only [update_words, hc, if_false]
        exact adv_refl sg s h1 h2 h3 h4
      · simp only [update_words, hc, if_false]
      · intro _
        simp only [update_words, hc, if_false]
        omega

theorem update_tail_adv (nbytes : Nat) (sg : List Nat) (hb : isBytes sg) :
    ∀ (fuel : Nat) (s : UpdState), s.in_i < sg.length →
      s.op.nbwait + (sg.length - s.in_i) ≤ 3 →
      s.op.waitbuf < 256 ^ s.op.nbwait → s.op.byte_count < 2 ^ 64 →
      ∃ j, Adv sg j s (update_tail nbytes sg (fuel + 1) s) ∧
        (update_tail nbytes sg (fuel + 1) s).op.nbwait ≤ 3 ∧
        (sg.length ≤ s.in_i + (fuel + 1) →
          (sg.length ≤ (update_tail nbytes sg (fuel + 1) s).in_i ∨
            nbytes ≤ (update_tail nbytes sg (fuel + 1) s).i)) := by
  intro fuel
  induction fuel with
  | zero =>
    intro s h1 h2 h3 h4
    have a := adv_take sg s hb h1 (by omega) h3 h4
    have e : update_tail nbytes sg (0 + 1) s = update_take sg s := by
      simp [update_tail]
    rw [e]
    refine ⟨1, a, ?_, fun h => Or.inl ?_⟩
    · simp only [update_take]; omega
    · simp only [update_take]; omega
  | succ n ih =>
    intro s h1 h2 h3 h4
    have a := adv_take sg s hb h1 (by omega) h3 h4
    by_cases hc : (update_take sg s).in_i < sg.length ∧ (update_take sg s).i < nbytes
    · have e : update_tail nbytes sg (n + 1 + 1) s =
          update_tail nbytes sg (n + 1) (update_take sg s) := by
        conv_lhs => unfold update_tail
        simp only [hc, and_self, if_true]
      rw [e]
      obtain ⟨j, b, e1, e2⟩ := ih (update_take sg s) hc.1
        (by simp only [update_take] at hc ⊢; omega) a.2.2.2.2.1 (adv_bc_lt a)
      refine ⟨1 + j, adv_trans a b, e1, ?_⟩
      intro hf
      apply e2
      simp only [update_take]
      omega
    · have e : update_tail nbytes sg (n + 1 + 1) s = update_take sg s := by
        conv_lhs => unfold update_tail
        simp only [hc, if_false]
      rw [e]
      refine ⟨1, a, ?_, fun _ => ?_⟩
      · simp only [update_take]; omega
      · omega

theorem update_step1_adv (nbytes : Nat) (sg : List Nat) (hb : isBytes sg) (s : UpdState)
    (h1 : s.in_i ≤ sg.length) (h2 : s.op.nbwait ≤ 3)
    (h3 : s.op.waitbuf < 256 ^ s.op.nbwait) (h4 : s.op.byte_count < 2 ^ 64) :
    ∃ j s1, s1 = (if s.op.nbwait > 0 then
          (if (update_fill nbytes sg 4 s).op.nbwait = 4 then
            update_flush (update_fill nbytes sg 4 s) else update_fill nbytes sg 4 s)
          else s) ∧
      Adv sg j s s1 ∧ s1.op.nbwait ≤ 3 ∧
      (s1.op.nbwait = 0 ∨ nbytes ≤ s1.i ∨ sg.length ≤ s1.in_i) := by
  by_cases hn : s.op.nbwait > 0
  · obtain ⟨j, a, e⟩ := update_fill_adv nbytes sg hb 4 s h1 (by omega) h3 h4
    have a' := a
    obtain ⟨a1, _, a3, a4, a5, _⟩ := a'
    by_cases hf : (update_fill nbytes sg 4 s).op.nbwait = 4
    · refine ⟨j + 0, _, rfl, ?_, ?_, ?_⟩
      · simp only [hn, hf, if_true]
        exact adv_trans a (adv_flush sg _ (by omega) hf a5)
      · simp [hn, hf, update_flush]
      · simp [hn, hf, update_flush]
    · refine ⟨j, _, rfl, ?_, ?_, ?_⟩
      · simp only [hn, hf, if_true, if_false]
        exact a
      · simp only [hn, hf, if_true, if_false]
        omega
      · simp only [hn, hf, if_true, if_false]
        have := e (by omega)
        omega
  · refine ⟨0, _, rfl, ?_, ?_, ?_⟩
    · simp only [hn, if_false]
      exact adv_refl sg s h1 (by omega) h3 h4
    · simp only [hn, if_false]
      omega
    · simp only [hn, if_false]
      omega

theorem update_sg_fed (nbytes k : Nat) (sg : List Nat) (hb : isBytes sg) (s : UpdState)
    (h0 : s.in_i = 0) (h1 : s.i + sg.length ≤ nbytes) (h2 : s.op.nbwait ≤ 3)
    (h3 : s.op.waitbuf < 256 ^ s.op.nbwait) (h4 : s.op.byte_count < 2 ^ 64) :
    ∃ d, (update_sg nbytes k sg s).trace = s.trace ++ d ∧
      Fed sg s.op (update_sg nbytes k sg s).op d ∧
      (update_sg nbytes k sg s).i = s.i + sg.length ∧
      (update_sg nbytes k sg s).in_i = 0 := by
  obtain ⟨j1, s1, hs1, a1, n1, x1⟩ := update_step1_adv nbytes sg hb
    { s with trace := s.trace ++ [Ev.kmap true k] } (by simp [h0]) h2 h3 h4
  obtain ⟨j2, a2, n2, x2⟩ := update_words_adv nbytes sg hb sg.length s1
    (by have := a1.1; have := a1.2.2.1; omega) (by omega) a1.2.2.2.2.1 (adv_bc_lt a1) x1
  have x2 := x2 (by omega)
  have key : ∃ j3 s3, s3 = (if (update_words nbytes sg sg.length s1).in_i < sg.length ∧
        sg.length - (update_words nbytes sg sg.length s1).in_i < 4 ∧
        (update_words nbytes sg sg.length s1).i < nbytes then
        update_tail nbytes sg sg.length (update_words nbytes sg sg.length s1)
        else update_words nbytes sg sg.length s1) ∧
      Adv sg j3 (update_words nbytes sg sg.length s1) s3 ∧ s3.op.nbwait ≤ 3 ∧
      s3.in_i = sg.length := by
    have i1 := a1.1
    have i2 := a1.2.1
    have i3 := a2.1
    have i4 := a2.2.1
    have i5 := a2.2.2.1
    simp only [] at i1 i2
    by_cases hc : (update_words nbytes sg sg.length s1).in_i < sg.length ∧
        sg.length - (update_words nbytes sg sg.length s1).in_i < 4 ∧
        (update_words nbytes sg sg.length s1).i < nbytes
    · obtain ⟨m, hm⟩ : ∃ m, sg.length = m + 1 := ⟨sg.length - 1, by omega⟩
      obtain ⟨j3, a3, n3, x3⟩ := update_tail_adv nbytes sg hb m
        (update_words nbytes sg sg.length s1) hc.1 (by omega) a2.2.2.2.2.1 (adv_bc_lt a2)
      refine ⟨j3, _, rfl, ?_, ?_, ?_⟩
      · simp only [hc, and_self, if_true]
        rw [hm] at a3 ⊢
        rw [← hm] at a3 ⊢
        exact a3
      · simp only [hc, and_self, if_true]
        rw [hm] at n3 ⊢
        rw [← hm] at n3 ⊢
        exact n3
      · simp only [hc, and_self, if_true]
        have i6 := a3.1
        have i7 := a3.2.1
        have i8 := a3.2.2.1
        have x3 := x3 (by omega)
        rw [← hm] at x3 i6 i7
        omega
    · refine ⟨0, _, rfl, ?_, ?_, ?_⟩
      · simp only [hc, if_false]
        exact adv_refl sg _ (by omega) (by omega) a2.2.2.2.2.1 (adv_bc_lt a2)
      · simp only [hc, if_false]
        omega
      · simp only [hc, if_false]
        omega
  obtain ⟨j3, s3, hs3, a3, n3, x3⟩ := key
  have tot := adv_trans (adv_trans a1 a2) a3
  obtain ⟨t1, t2, t3, t4, t5, t6, t7, t8, d, td, te, tw, tr, tc⟩ := tot
  have hfin : update_sg nbytes k sg s =
      { s3 with in_i := 0, trace := s3.trace ++ [Ev.kunmap true k] } := by
    rw [hs3, hs1]
    rfl
  rw [hfin]
  simp only [] at t1 t2 t3 td tr tc t6 t7 t8
  have hj : j1 + j2 + j3 = sg.length := by omega
  refine ⟨[Ev.kmap true k] ++ d ++ [Ev.kunmap true k], ?_, ⟨n3, t5, t6, t7, t8, ?_, ?_, ?_, ?_⟩,
    by simp only []; omega, rfl⟩
  · simp only [td, List.append_assoc]
  · intro e he
    simp only [List.mem_append, List.mem_singleton] at he
    rcases he with (h | h) | h
    · rw [h]; rfl
    · exact te e h
    · rw [h]; rfl
  · intro w hw
    simp only [rxWords_append] at hw
    simp only [rxWords, writesTo, List.filterMap_cons, List.filterMap_nil, List.nil_append,
      List.append_nil] at hw
    exact tw w hw
  · simp only [rxBytes_append]
    have e1 : rxBytes [Ev.kmap true k] = [] := rfl
    have e2 : rxBytes [Ev.kunmap true k] = [] := rfl
    rw [e1, e2, List.nil_append, List.append_nil, tr, h0, hj]
    simp [residue]
  · simp only [rxWords_append]
    have e1 : rxWords [Ev.kmap true k] = [] := rfl
    have e2 : rxWords [Ev.kunmap true k] = [] := rfl
    rw [e1, e2, List.nil_append, List.append_nil, tc]

theorem fed_refl (op : sunxi_req_ctx) (h2 : op.nbwait ≤ 3)
    (h3 : op.waitbuf < 256 ^ op.nbwait) (h4 : op.byte_count < 2 ^ 64) : Fed [] op op [] := by
  refine ⟨h2, h3, rfl, rfl, rfl, by simp, by simp [rxWords, writesTo],
    by simp [rxBytes, rxWords, writesTo], ?_⟩
  simp only [rxWords, writesTo, List.filterMap_nil, List.length_nil]
  omega

theorem fed_trans {m1 m2 : List Nat} {op op1 op2 : sunxi_req_ctx} {d1 d2 : List Ev}
    (h1 : Fed m1 op op1 d1) (h2 : Fed m2 op1 op2 d2) : Fed (m1 ++ m2) op op2 (d1 ++ d2) := by
  obtain ⟨_, _, a6, a7, a8, e1, w1, r1, c1⟩ := h1
  obtain ⟨b4, b5, b6, b7, b8, e2, w2, r2, c2⟩ := h2
  refine ⟨b4, b5, by rw [b6, a6], by rw [b7, a7], by rw [b8, a8], ?_, ?_, ?_, ?_⟩
  · intro e he
    rcases List.mem_append.1 he with h | h
    · exact e1 e h
    · exact e2 e h
  · intro w hw
    rw [rxWords_append] at hw
    rcases List.mem_append.1 hw with h | h
    · exact w1 w h
    · exact w2 w h
  · rw [rxBytes_append, List.append_assoc, r2, ← List.append_assoc, r1, List.append_assoc]
  · rw [c2, c1, rxWords_append, List.length_append]
    omega

theorem fed_bc_lt {m : List Nat} {op op' : sunxi_req_ctx} {d : List Ev}
    (h : Fed m op op' d) : op'.byte_count < 2 ^ 64 := by
  rw [h.2.2.2.2.2.2.2.2]
  exact Nat.mod_lt _ (by norm_num)

theorem flatten_nil_of_sum_zero (l : List (List Nat)) (h : (l.map List.length).sum = 0) :
    l.flatten = [] := by
  apply List.eq_nil_of_length_eq_zero
  rw [List.length_flatten]
  exact h

theorem update_loop_fed (nbytes : Nat) :
    ∀ (rest : List (List Nat)) (sg : List Nat) (k : Nat) (s : UpdState),
      (∀ x ∈ sg :: rest, isBytes x) →
      s.in_i = 0 → s.i + ((sg :: rest).map List.length).sum ≤ nbytes → s.op.nbwait ≤ 3 →
      s.op.waitbuf < 256 ^ s.op.nbwait → s.op.byte_count < 2 ^ 64 →
      ∃ d, (update_loop nbytes sg rest k s).trace = s.trace ++ d ∧
        Fed (sg :: rest).flatten s.op (update_loop nbytes sg rest k s).op d := by
  intro rest
  induction rest with
  | nil =>
    intro sg k s hb h0 h1 h2 h3 h4
    simp only [List.map_cons, List.sum_cons, List.map_nil, List.sum_nil, Nat.add_zero] at h1
    obtain ⟨d1, t1, f1, _, _⟩ := update_sg_fed nbytes k sg (hb sg (by simp)) s h0
      (by omega) h2 h3 h4
    refine ⟨d1, ?_, ?_⟩
    · simp only [update_loop]
      exact t1
    · simp only [update_loop, List.flatten_cons, List.flatten_nil, List.append_nil]
      exact f1
  | cons sg2 rest2 ih =>
    intro sg k s hb h0 h1 h2 h3 h4
    simp only [List.map_cons, List.sum_cons] at h1
    obtain ⟨d1, t1, f1, i1, z1⟩ := update_sg_fed nbytes k sg (hb sg (by simp)) s h0
      (by omega) h2 h3 h4
    by_cases hc : (update_sg nbytes k sg s).i < nbytes
    · obtain ⟨d2, t2, f2⟩ := ih sg2 (k + 1) (update_sg nbytes k sg s)
        (fun x hx => hb x (List.mem_cons_of_mem _ hx)) z1
        (by simp only [List.map_cons, List.sum_cons]; omega) f1.1 f1.2.1 (fed_bc_lt f1)
      refine ⟨d1 ++ d2, ?_, ?_⟩
      · rw [update_loop]
        simp only [hc, if_true]
        rw [t2, t1, List.append_assoc]
      · rw [update_loop]
        simp only [hc, if_true]
        rw [List.flatten_cons]
        exact fed_trans f1 f2
    · have hr : (sg2 :: rest2).flatten = [] := by
        apply flatten_nil_of_sum_zero
        simp only [List.map_cons, List.sum_cons]
        omega
      refine ⟨d1, ?_, ?_⟩
      · rw [update_loop]
        simp only [hc, if_false]
        exact t1
      · rw [update_loop]
        simp only [hc, if_false]
        rw [List.flatten_cons, hr, List.append_nil]
        exact f1

theorem hash_update_fed (src : List (List Nat)) (op : sunxi_req_ctx) (res : List Nat)
    (hb : ∀ sg ∈ src, isBytes sg) (h2 : op.nbwait ≤ 3)
    (h3 : op.waitbuf < 256 ^ op.nbwait) (h4 : op.byte_count < 2 ^ 64) :
    Fed src.flatten op (sunxi_hash_update (src.map List.length).sum src op res).op
      (sunxi_hash_update (src.map List.length).sum src op res).trace := by
  by_cases hz : (src.map List.length).sum = 0
  · simp only [sunxi_hash_update, hz, if_true]
    rw [flatten_nil_of_sum_zero src hz]
    exact fed_refl op h2 h3 h4
  · cases src with
    | nil => exact absurd rfl hz
    | cons sg rest =>
      obtain ⟨d, t, f⟩ := update_loop_fed ((sg :: rest).map List.length).sum rest sg 0
        { op := op, i := 0, in_i := 0, trace := [] } hb rfl (by simp) h2 h3 h4
      simp only [sunxi_hash_update, hz, if_false]
      simp only [List.nil_append] at t
      rw [t]
      exact f

theorem hash_updates_fed :
    ∀ (reqs : List (List (List Nat))) (op : sunxi_req_ctx),
      (∀ r ∈ reqs, ∀ sg ∈ r, isBytes sg) → op.nbwait ≤ 3 →
      op.waitbuf < 256 ^ op.nbwait → op.byte_count < 2 ^ 64 →
      Fed (messageOf reqs) op (hash_updates reqs op).1 (hash_updates reqs op).2 := by
  intro reqs
  induction reqs with
  | nil =>
    intro op _ h2 h3 h4
    exact fed_refl op h2 h3 h4
  | cons r rs ih =>
    intro op hb h2 h3 h4
    have f1 := hash_update_fed r op [] (hb r (by simp)) h2 h3 h4
    have f2 := ih (sunxi_hash_update (r.map List.length).sum r op []).op
      (fun x hx => hb x (by simp [hx])) f1.1 f1.2.1 (fed_bc_lt f1)
    simp only [hash_updates, messageOf, List.map_cons, List.flatten_cons]
    exact fed_trans f1 f2

theorem length_rxBytes (t : List Ev) : (rxBytes t).length = 4 * (rxWords t).length := by
  unfold rxBytes
  induction rxWords t with
  | nil => rfl
  | cons w ws ih =>
    simp only [List.flatMap_cons, List.length_append, List.length_cons, length_le32, ih]
    omega

theorem le32_inj (v w : Nat) (hv : v < 2 ^ 32) (hw : w < 2 ^ 32) (h : le32 v = le32 w) :
    v = w := by
  simp only [le32, List.cons.injEq, and_true] at h
  omega

theorem flatMap_le32_inj :
    ∀ (a b : List Nat), (∀ w ∈ a, w < 2 ^ 32) → (∀ w ∈ b, w < 2 ^ 32) →
      a.flatMap le32 = b.flatMap le32 → a = b := by
  intro a
  induction a with
  | nil =>
    intro b _ _ h
    cases b with
    | nil => rfl
    | cons y ys => simp [le32] at h
  | cons x xs ih =>
    intro b ha hb h
    cases b with
    | nil => simp [le32] at h
    | cons y ys =>
      simp only [List.flatMap_cons] at h
      have h1 := List.append_inj h (by simp [length_le32])
      have hxy := le32_inj x y (ha x (by simp)) (hb y (by simp)) h1.1
      rw [hxy, ih ys (fun w hw => ha w (by simp [hw])) (fun w hw => hb w (by simp [hw])) h1.2]

theorem residue_inj (op op' : sunxi_req_ctx) (hn : op.nbwait = op'.nbwait)
    (h1 : op.nbwait ≤ 3) (h2 : op.waitbuf < 256 ^ op.nbwait)
    (h3 : op'.waitbuf < 256 ^ op'.nbwait) (h : residue op = residue op') :
    op.waitbuf = op'.waitbuf := by
  unfold residue at h
  rw [← hn] at h h3
  generalize op.nbwait = n at *
  have h4 : n = 0 ∨ n = 1 ∨ n = 2 ∨ n = 3 := by omega
  rcases h4 with e | e | e | e <;> subst e <;> simp [le32] at h <;> norm_num at h2 h3 <;> omega

theorem fed_determined {m : List Nat} {op op1 op2 : sunxi_req_ctx} {d1 d2 : List Ev}
    (h1 : Fed m op op1 d1) (h2 : Fed m op op2 d2) :
    rxWords d1 = rxWords d2 ∧ op1.byte_count = op2.byte_count ∧
      op1.nbwait = op2.nbwait ∧ op1.waitbuf = op2.waitbuf := by
  obtain ⟨a4, a5, _, _, _, _, w1, r1, c1⟩ := h1
  obtain ⟨b4, b5, _, _, _, _, w2, r2, c2⟩ := h2
  have hl : (rxBytes d1 ++ residue op1).length = (rxBytes d2 ++ residue op2).length := by
    rw [r1, r2]
  simp only [List.length_append, length_rxBytes, residue_length op1 (by omega),
    residue_length op2 (by omega)] at hl
  have hn : op1.nbwait = op2.nbwait := by omega
  have hw : (rxWords d1).length = (rxWords d2).length := by omega
  have hs := List.append_inj (r1.trans r2.symm) (by simp only [length_rxBytes, hw])
  have hwords := flatMap_le32_inj _ _ w1 w2 hs.1
  refine ⟨hwords, by rw [c1, c2, hw], hn, residue_inj op1 op2 hn a4 a5 b5 hs.2⟩

/-! ## Bit-level facts used by `sunxi_hash_final` -/

theorem and_mask32 (x : Nat) : x &&& 0xffffffff = x % 2 ^ 32 :=
  Nat.and_pow_two_sub_one_eq_mod x 32

theorem and_mask6 (x : Nat) : x &&& 0x3f = x % 64 :=
  Nat.and_pow_two_sub_one_eq_mod x 6

theorem le32_of_bytes (a b c d : Nat) (ha : a < 256) (hb : b < 256) (hc : c < 256)
    (hd : d < 256) : le32 (a + 256 * b + 65536 * c + 16777216 * d) = [a, b, c, d] := by
  simp only [le32]
  congr 1
  · omega
  congr 1
  · omega
  congr 1
  · omega
  congr 1
  omega

theorem be32_of_bytes (a b c d : Nat) (ha : a < 256) (hb : b < 256) (hc : c < 256)
    (hd : d < 256) :
    cpu_to_be32 (a + 256 * b + 65536 * c + 16777216 * d) =
      d + 256 * c + 65536 * b + 16777216 * a := by
  have e := le32_of_bytes a b c d ha hb hc hd
  simp only [le32, List.cons.injEq, and_true] at e
  obtain ⟨e0, e1, e2, e3⟩ := e
  simp only [cpu_to_be32, e0, e1, e2, e3]
  omega

theorem bytes8 (y : Nat) (h : y < 2 ^ 64) :
    ∃ b0 b1 b2 b3 b4 b5 b6 b7 : Nat, b0 < 256 ∧ b1 < 256 ∧ b2 < 256 ∧ b3 < 256 ∧
      b4 < 256 ∧ b5 < 256 ∧ b6 < 256 ∧ b7 < 256 ∧
      y = b0 + 256 * b1 + 65536 * b2 + 16777216 * b3 +
        4294967296 * (b4 + 256 * b5 + 65536 * b6 + 16777216 * b7) := by
  refine ⟨y % 256, y / 256 % 256, y / 256 / 256 % 256, y / 256 / 256 / 256 % 256,
    y / 256 / 256 / 256 / 256 % 256, y / 256 / 256 / 256 / 256 / 256 % 256,
    y / 256 / 256 / 256 / 256 / 256 / 256 % 256,
    y / 256 / 256 / 256 / 256 / 256 / 256 / 256, ?_, ?_, ?_, ?_, ?_, ?_, ?_, ?_, ?_⟩ <;> omega


theorem split64 (lo hi : Nat) (h : lo < 2 ^ 32) :
    (lo + 4294967296 * hi) / 2 ^ 32 = hi ∧ (lo + 4294967296 * hi) % 2 ^ 32 = lo := by
  constructor <;> omega

theorem be64_of_bytes (b0 b1 b2 b3 b4 b5 b6 b7 : Nat) (h0 : b0 < 256) (h1 : b1 < 256)
    (h2 : b2 < 256) (h3 : b3 < 256) (h4 : b4 < 256) (h5 : b5 < 256) (h6 : b6 < 256)
    (h7 : b7 < 256) :
    be64 (b0 + 256 * b1 + 65536 * b2 + 16777216 * b3 +
        4294967296 * (b4 + 256 * b5 + 65536 * b6 + 16777216 * b7)) =
      [b7, b6, b5, b4, b3, b2, b1, b0] ∧
    le64 (b0 + 256 * b1 + 65536 * b2 + 16777216 * b3 +
        4294967296 * (b4 + 256 * b5 + 65536 * b6 + 16777216 * b7)) =
      [b0, b1, b2, b3, b4, b5, b6, b7] := by
  have lo := le32_of_bytes b0 b1 b2 b3 h0 h1 h2 h3
  have hi := le32_of_bytes b4 b5 b6 b7 h4 h5 h6 h7
  simp only [le32, List.cons.injEq, and_true] at lo hi
  generalize hlo : b0 + 256 * b1 + 65536 * b2 + 16777216 * b3 = x at lo
  generalize hhi : b4 + 256 * b5 + 65536 * b6 + 16777216 * b7 = y at hi
  have hx : x < 2 ^ 32 := by omega
  have s := split64 x y hx
  have d56 : (x + 4294967296 * y) / 2 ^ 56 = (x + 4294967296 * y) / 2 ^ 32 / 16777216 := by
    rw [Nat.div_div_eq_div_mul]; norm_num
  have d48 : (x + 4294967296 * y) / 2 ^ 48 = (x + 4294967296 * y) / 2 ^ 32 / 65536 := by
    rw [Nat.div_div_eq_div_mul]; norm_num
  have d40 : (x + 4294967296 * y) / 2 ^ 40 = (x + 4294967296 * y) / 2 ^ 32 / 256 := by
    rw [Nat.div_div_eq_div_mul]; norm_num
  have d24 : (x + 4294967296 * y) / 2 ^ 24 % 256 = x / 16777216 % 256 := by omega
  have d16 : (x + 4294967296 * y) / 2 ^ 16 % 256 = x / 65536 % 256 := by omega
  have d8 : (x + 4294967296 * y) / 2 ^ 8 % 256 = x / 256 % 256 := by omega
  have d0 : (x + 4294967296 * y) % 256 = x % 256 := by omega
  simp only [be64, le64, d56, d48, d40, d24, d16, d8, d0, s.1, lo, hi, and_self]

theorem sha1_len (L : Nat) (h : L < 2 ^ 61) :
    le32 (cpu_to_be64 ((L <<< 3) % 2 ^ 64) &&& 0xffffffff) ++
      le32 ((cpu_to_be64 ((L <<< 3) % 2 ^ 64) >>> 32) &&& 0xffffffff) = be64 (8 * L) := by
  rw [and_mask32, and_mask32, Nat.shiftRight_eq_div_pow, Nat.shiftLeft_eq]
  have e : L * 2 ^ 3 % 2 ^ 64 = 8 * L := by omega
  rw [e]
  obtain ⟨b0, b1, b2, b3, b4, b5, b6, b7, h0, h1, h2, h3, h4, h5, h6, h7, hy⟩ :=
    bytes8 (8 * L) (by omega)
  rw [hy, (be64_of_bytes b0 b1 b2 b3 b4 b5 b6 b7 h0 h1 h2 h3 h4 h5 h6 h7).1]
  clear hy e h
  have m1 : (b0 + 256 * b1 + 65536 * b2 + 16777216 * b3 +
        4294967296 * (b4 + 256 * b5 + 65536 * b6 + 16777216 * b7)) % 2 ^ 32 =
      b0 + 256 * b1 + 65536 * b2 + 16777216 * b3 := by omega
  have m2 : (b0 + 256 * b1 + 65536 * b2 + 16777216 * b3 +
        4294967296 * (b4 + 256 * b5 + 65536 * b6 + 16777216 * b7)) / 2 ^ 32 % 2 ^ 32 =
      b4 + 256 * b5 + 65536 * b6 + 16777216 * b7 := by omega
  unfold cpu_to_be64
  rw [m1, m2, be32_of_bytes _ _ _ _ h0 h1 h2 h3, be32_of_bytes _ _ _ _ h4 h5 h6 h7]
  have m3 : ((b3 + 256 * b2 + 65536 * b1 + 16777216 * b0) * 2 ^ 32 +
      (b7 + 256 * b6 + 65536 * b5 + 16777216 * b4)) % 2 ^ 32 =
      b7 + 256 * b6 + 65536 * b5 + 16777216 * b4 := by omega
  have m4 : ((b3 + 256 * b2 + 65536 * b1 + 16777216 * b0) * 2 ^ 32 +
      (b7 + 256 * b6 + 65536 * b5 + 16777216 * b4)) / 2 ^ 32 % 2 ^ 32 =
      b3 + 256 * b2 + 65536 * b1 + 16777216 * b0 := by omega
  rw [m3, m4, le32_of_bytes _ _ _ _ h7 h6 h5 h4, le32_of_bytes _ _ _ _ h3 h2 h1 h0]
  rfl

theorem md5_len (L : Nat) (h : L < 2 ^ 61) :
    le32 (((L <<< 3) % 2 ^ 64) &&& 0xffffffff) ++ le32 ((L >>> 29) &&& 0xffffffff) =
      le64 (8 * L) := by
  rw [and_mask32, and_mask32, Nat.shiftRight_eq_div_pow, Nat.shiftLeft_eq]
  have e : L * 2 ^ 3 % 2 ^ 64 = 8 * L := by omega
  rw [e]
  obtain ⟨b0, b1, b2, b3, b4, b5, b6, b7, h0, h1, h2, h3, h4, h5, h6, h7, hy⟩ :=
    bytes8 (8 * L) (by omega)
  have m1 : 8 * L % 2 ^ 32 = b0 + 256 * b1 + 65536 * b2 + 16777216 * b3 := by omega
  have m2 : L / 2 ^ 29 % 2 ^ 32 = b4 + 256 * b5 + 65536 * b6 + 16777216 * b7 := by omega
  rw [m1, m2, le32_of_bytes _ _ _ _ h0 h1 h2 h3, le32_of_bytes _ _ _ _ h4 h5 h6 h7, hy,
    (be64_of_bytes b0 b1 b2 b3 b4 b5 b6 b7 h0 h1 h2 h3 h4 h5 h6 h7).2]
  rfl

theorem lor_term (w n : Nat) (hn : n ≤ 3) (h : w < 256 ^ n) :
    (w ||| ((1 <<< 7) <<< (n * 8))) % 2 ^ 32 = w + 128 * 256 ^ n := by
  have e : (1 <<< 7) <<< (n * 8) = 2 ^ (8 * n) * 128 := by
    rw [Nat.shiftLeft_eq, Nat.shiftLeft_eq]
    ring
  have hw : w < 2 ^ (8 * n) := by
    rw [pow_mul]
    exact h
  have := Nat.mul_add_lt_is_or hw 128
  rw [e, Nat.lor_comm, ← this]
  have h4 : n = 0 ∨ n = 1 ∨ n = 2 ∨ n = 3 := by omega
  rcases h4 with e | e | e | e <;> subst e <;> norm_num at h ⊢ <;> omega


/-! ## The words written by `sunxi_hash_final` -/

theorem final_poll_rxWords (ctl : Nat → Nat) :
    ∀ (fuel i : Nat) (t : List Ev), rxWords (final_poll ctl fuel i t).2 = rxWords t := by
  intro fuel
  induction fuel with
  | zero => intro i t; rfl
  | succ n ih =>
    intro i t
    unfold final_poll
    simp only []
    split
    · rw [ih]
      simp [rxWords, writesTo]
    · simp [rxWords, writesTo]

theorem final_digest_rxWords (md : Nat → Nat) (sha1 : Bool) :
    ∀ (n i : Nat) (r : List Nat) (t : List Ev),
      rxWords (final_digest md sha1 n i r t).2 = rxWords t := by
  intro n
  induction n with
  | zero => intro i r t; rfl
  | succ n ih =>
    intro i r t
    unfold final_digest
    simp only []
    rw [ih]
    simp [rxWords, writesTo]

theorem rxWords_replicate_zero (z : Nat) :
    rxWords (List.replicate z (Ev.writel 0 SS_RXFIFO)) = List.replicate z 0 := by
  induction z with
  | zero => rfl
  | succ n ih =>
    rw [List.replicate_succ, List.replicate_succ]
    have : rxWords (Ev.writel 0 SS_RXFIFO :: List.replicate n (Ev.writel 0 SS_RXFIFO)) =
        0 :: rxWords (List.replicate n (Ev.writel 0 SS_RXFIFO)) := by
      simp [rxWords, writesTo]
    rw [this, ih]

theorem final_rxWords (hw : HashHW) (op : sunxi_req_ctx) (res : List Nat) :
    rxWords (sunxi_hash_final hw op res).trace =
      rxWords (final_terminator op).2 ++
        List.replicate (final_zeros (final_terminator op).1).2 0 ++
        rxWords (final_length (final_zeros (final_terminator op).1).1) := by
  have hctl : ∀ v : Nat, rxWords [Ev.readl SS_CTL (hw.ctl 0), Ev.writel v SS_CTL] = [] := by
    intro v
    simp [rxWords, writesTo, SS_CTL, SS_RXFIFO]
  have hend : rxWords [Ev.writel 0 SS_CTL, Ev.mutex_unlock Mutex.lock] = [] := by
    simp [rxWords, writesTo, SS_CTL, SS_RXFIFO]
  have hp := final_poll_rxWords hw.ctl SS_TIMEOUT 0 []
  have hnil : rxWords [] = [] := rfl
  unfold sunxi_hash_final
  simp only []
  split
  · simp only [rxWords_append, hctl, hend, hp, hnil, rxWords_replicate_zero,
      List.append_nil]
  · split
    · simp only [rxWords_append, hctl, hend, hp, hnil, rxWords_replicate_zero,
        List.append_nil, final_digest_rxWords]
    · simp only [rxWords_append, hctl, hend, hp, hnil, rxWords_replicate_zero,
        List.append_nil, final_digest_rxWords]

theorem final_terminator_bytes (op : sunxi_req_ctx) (h2 : op.nbwait ≤ 3)
    (h3 : op.waitbuf < 256 ^ op.nbwait) :
    rxBytes (final_terminator op).2 =
      residue op ++ [0x80] ++ List.replicate (3 - op.nbwait) 0 := by
  unfold final_terminator
  by_cases hn : op.nbwait > 0
  · simp only [hn, if_true, rxBytes, rxWords_writel, List.flatMap_cons, List.flatMap_nil,
      List.append_nil, lor_term op.waitbuf op.nbwait h2 h3, residue]
    generalize op.nbwait = n at *
    generalize op.waitbuf = w at *
    have h4 : n = 1 ∨ n = 2 ∨ n = 3 := by omega
    rcases h4 with e | e | e <;> subst e <;> simp [le32] <;> norm_num at h3 <;> omega
  · have h0 : op.nbwait = 0 := by omega
    simp [hn, rxBytes, rxWords_writel, residue, h0, le32]

theorem final_zeros_count (op : sunxi_req_ctx) (h2 : op.nbwait ≤ 3)
    (h4 : op.byte_count % 4 = 0) (h5 : op.byte_count + op.nbwait < 2 ^ 61) :
    (final_zeros op).1.byte_count = op.byte_count + op.nbwait ∧
      (final_zeros op).1.mode = op.mode ∧
      3 - op.nbwait + 4 * (final_zeros op).2 = pad_zeros (op.byte_count + op.nbwait) := by
  unfold final_zeros pad_zeros
  by_cases hm : op.mode = SS_OP_MD5
  · rw [if_pos hm]
    simp only [and_mask6]
    split
    · refine ⟨?_, rfl, ?_⟩
      · show (op.byte_count + op.nbwait) % 2 ^ 64 = _
        omega
      · show 3 - op.nbwait + 4 * ((120 - (op.byte_count + 4) % 2 ^ 64 % 64) / 4) = _
        omega
    · refine ⟨?_, rfl, ?_⟩
      · show (op.byte_count + op.nbwait) % 2 ^ 64 = _
        omega
      · show 3 - op.nbwait + 4 * ((56 - (op.byte_count + 4) % 2 ^ 64 % 64) / 4) = _
        omega
  · rw [if_neg hm]
    simp only [and_mask6]
    refine ⟨?_, trivial, ?_⟩
    · omega
    · split <;> omega

theorem final_terminator_frame (op : sunxi_req_ctx) :
    (final_terminator op).1.byte_count = op.byte_count ∧
      (final_terminator op).1.nbwait = op.nbwait ∧
      (final_terminator op).1.mode = op.mode := by
  unfold final_terminator
  split <;> exact ⟨rfl, rfl, rfl⟩

theorem flatMap_le32_replicate_zero (z : Nat) :
    (List.replicate z 0).flatMap le32 = List.replicate (4 * z) 0 := by
  induction z with
  | zero => rfl
  | succ n ih =>
    rw [List.replicate_succ, List.flatMap_cons, ih]
    have : 4 * (n + 1) = 4 + 4 * n := by ring
    rw [this, List.replicate_add]
    rfl

theorem final_length_bytes (op : sunxi_req_ctx) (h : op.byte_count < 2 ^ 61) :
    rxBytes (final_length op) =
      if op.mode = SS_OP_SHA1 then be64 (8 * op.byte_count) else le64 (8 * op.byte_count) := by
  unfold final_length
  split
  · simp only [rxBytes, rxWords, writesTo, List.filterMap_cons, if_true, List.filterMap_nil,
      List.flatMap_cons, List.flatMap_nil, List.append_nil]
    exact sha1_len op.byte_count h
  · simp only [rxBytes, rxWords, writesTo, List.filterMap_cons, if_true, List.filterMap_nil,
      List.flatMap_cons, List.flatMap_nil, List.append_nil]
    exact md5_len op.byte_count h

theorem final_rxBytes (hw : HashHW) (op : sunxi_req_ctx) (res : List Nat)
    (h2 : op.nbwait ≤ 3) (h3 : op.waitbuf < 256 ^ op.nbwait)
    (h4 : op.byte_count % 4 = 0) (h5 : op.byte_count + op.nbwait < 2 ^ 61) :
    rxBytes (sunxi_hash_final hw op res).trace =
      residue op ++ [0x80] ++
        List.replicate (pad_zeros (op.byte_count + op.nbwait)) 0 ++
        (if op.mode = SS_OP_SHA1 then be64 (8 * (op.byte_count + op.nbwait))
          else le64 (8 * (op.byte_count + op.nbwait))) := by
  obtain ⟨f1, f2, f3⟩ := final_terminator_frame op
  obtain ⟨z1, z2, z3⟩ := final_zeros_count (final_terminator op).1 (by omega) (by omega)
    (by omega)
  rw [f1, f2] at z1 z3
  rw [f3] at z2
  have hl := final_length_bytes (final_zeros (final_terminator op).1).1 (by omega)
  rw [z1, z2] at hl
  have ht := final_terminator_bytes op h2 h3
  unfold rxBytes at ht hl ⊢
  rw [final_rxWords, List.flatMap_append, List.flatMap_append, ht, hl,
    flatMap_le32_replicate_zero, ← z3, List.replicate_add]
  simp only [List.append_assoc]


/-! ## C2: the update stream -/

/-- C2: after `sunxi_hash_init` and any sequence of `sunxi_hash_update` calls
whose entry lengths sum to each request's `nbytes`, the bytes of the words
pushed into `SS_RXFIFO` followed by the first `nbwait` bytes of `waitbuf` are
the concatenation of the chunks; two sequences of updates carrying the same
message push the same words and leave the same `byte_count`, `nbwait` and
`waitbuf`. -/
theorem hash_update_stream (hash_type : String) (op0 : sunxi_req_ctx) (res : List Nat)
    (reqs reqs' : List (List (List Nat)))
    (hb : ∀ r ∈ reqs, ∀ sg ∈ r, isBytes sg) (hb' : ∀ r ∈ reqs', ∀ sg ∈ r, isBytes sg)
    (hm : messageOf reqs = messageOf reqs') :
    rxBytes ((sunxi_hash_init hash_type op0 res).trace ++
        (hash_updates reqs (sunxi_hash_init hash_type op0 res).op).2) ++
      residue (hash_updates reqs (sunxi_hash_init hash_type op0 res).op).1 = messageOf reqs ∧
    rxWords ((sunxi_hash_init hash_type op0 res).trace ++
        (hash_updates reqs (sunxi_hash_init hash_type op0 res).op).2) =
      rxWords ((sunxi_hash_init hash_type op0 res).trace ++
        (hash_updates reqs' (sunxi_hash_init hash_type op0 res).op).2) ∧
    (hash_updates reqs (sunxi_hash_init hash_type op0 res).op).1.byte_count =
      (hash_updates reqs' (sunxi_hash_init hash_type op0 res).op).1.byte_count ∧
    (hash_updates reqs (sunxi_hash_init hash_type op0 res).op).1.nbwait =
      (hash_updates reqs' (sunxi_hash_init hash_type op0 res).op).1.nbwait ∧
    (hash_updates reqs (sunxi_hash_init hash_type op0 res).op).1.waitbuf =
      (hash_updates reqs' (sunxi_hash_init hash_type op0 res).op).1.waitbuf := by
  have i1 : (sunxi_hash_init hash_type op0 res).op.nbwait = 0 := by
    unfold sunxi_hash_init; split <;> rfl
  have i2 : (sunxi_hash_init hash_type op0 res).op.waitbuf = 0 := by
    unfold sunxi_hash_init; split <;> rfl
  have i3 : (sunxi_hash_init hash_type op0 res).op.byte_count = 0 := by
    unfold sunxi_hash_init; split <;> rfl
  have i4 : rxWords (sunxi_hash_init hash_type op0 res).trace = [] := by
    unfold sunxi_hash_init; split <;> rfl
  have f := hash_updates_fed reqs (sunxi_hash_init hash_type op0 res).op hb
    (by omega) (by rw [i1, i2]; norm_num) (by rw [i3]; norm_num)
  have f' := hash_updates_fed reqs' (sunxi_hash_init hash_type op0 res).op hb'
    (by omega) (by rw [i1, i2]; norm_num) (by rw [i3]; norm_num)
  rw [← hm] at f'
  have r := f.2.2.2.2.2.2.2.1
  have hres : residue (sunxi_hash_init hash_type op0 res).op = [] := by
    simp [residue, i1]
  obtain ⟨d1, d2, d3, d4⟩ := fed_determined f f'
  refine ⟨?_, ?_, d2, d3, d4⟩
  · rw [rxBytes_append, rxBytes, i4, List.flatMap_nil, List.nil_append, r, hres,
      List.nil_append]
  · rw [rxWords_append, rxWords_append, d1]

/-! ## The padded stream of exact requests -/

theorem hash_init_op (hash_type : String) (op0 : sunxi_req_ctx) (res : List Nat) :
    (sunxi_hash_init hash_type op0 res).op.nbwait = 0 ∧
      (sunxi_hash_init hash_type op0 res).op.waitbuf = 0 ∧
      (sunxi_hash_init hash_type op0 res).op.byte_count = 0 ∧
      rxWords (sunxi_hash_init hash_type op0 res).trace = [] ∧
      ((sunxi_hash_init hash_type op0 res).op.mode = SS_OP_SHA1 ↔ hash_type = "sha1") := by
  unfold sunxi_hash_init
  split
  · rename_i h
    exact ⟨rfl, rfl, rfl, rfl, by simp [h]⟩
  · rename_i h
    refine ⟨rfl, rfl, rfl, rfl, ?_⟩
    simp only [h, iff_false]
    decide

/-- The stream of a hash whose requests are exact, that is whose entry
lengths sum to `nbytes` in every `sunxi_hash_update` call: for a message
shorter than `2 ^ 61` bytes the little-endian bytes of the words written to
`SS_RXFIFO` by `sunxi_hash_init`, the updates and `sunxi_hash_final` are the
message, the byte `0x80`, the fewest zero bytes that bring the length to 56
modulo 64, and the bit length on eight bytes, big-endian for SHA1 and
little-endian for MD5; MD5 of the empty message writes `0x80` and fifteen zero
words, SHA1 of `abc` writes `0x80636261`, thirteen zero words, `0` and
`0x18000000`. -/
theorem exact_requests_stream_is_md_padding (hash_type : String) (op0 : sunxi_req_ctx)
    (res : List Nat) (reqs : List (List (List Nat))) (hw : HashHW)
    (hb : ∀ r ∈ reqs, ∀ sg ∈ r, isBytes sg) (hlen : (messageOf reqs).length < 2 ^ 61) :
    rxBytes ((sunxi_hash_init hash_type op0 res).trace ++
        (hash_updates reqs (sunxi_hash_init hash_type op0 res).op).2 ++
        (sunxi_hash_final hw (hash_updates reqs (sunxi_hash_init hash_type op0 res).op).1
          res).trace) = md_pad (decide (hash_type = "sha1")) (messageOf reqs) ∧
    ((messageOf reqs).length + 1 + pad_zeros (messageOf reqs).length) % 64 = 56 ∧
    (∀ k, k < pad_zeros (messageOf reqs).length →
      ((messageOf reqs).length + 1 + k) % 64 ≠ 56) ∧
    rxWords ((sunxi_hash_init "md5" sunxi_cipher_init []).trace ++
        (hash_updates [[[]]] (sunxi_hash_init "md5" sunxi_cipher_init []).op).2 ++
        (sunxi_hash_final hw_idle
          (hash_updates [[[]]] (sunxi_hash_init "md5" sunxi_cipher_init []).op).1
          []).trace) = 0x00000080 :: List.replicate 15 0 ∧
    rxWords ((sunxi_hash_init "sha1" sunxi_cipher_init []).trace ++
        (hash_updates [[[0x61, 0x62, 0x63]]]
          (sunxi_hash_init "sha1" sunxi_cipher_init []).op).2 ++
        (sunxi_hash_final hw_idle
          (hash_updates [[[0x61, 0x62, 0x63]]]
            (sunxi_hash_init "sha1" sunxi_cipher_init []).op).1
          []).trace) = 0x80636261 :: (List.replicate 13 0 ++ [0x00000000, 0x18000000]) := by
  obtain ⟨i1, i2, i3, i4, i5⟩ := hash_init_op hash_type op0 res
  have f := hash_updates_fed reqs (sunxi_hash_init hash_type op0 res).op hb
    (by omega) (by rw [i1, i2]; norm_num) (by rw [i3]; norm_num)
  obtain ⟨a4, a5, _, _, a8, _, _, r, c⟩ := f
  have hres : residue (sunxi_hash_init hash_type op0 res).op = [] := by
    simp [residue, i1]
  rw [hres, List.nil_append] at r
  have hl : (rxBytes (hash_updates reqs (sunxi_hash_init hash_type op0 res).op).2 ++
      residue (hash_updates reqs (sunxi_hash_init hash_type op0 res).op).1).length =
      (messageOf reqs).length := by rw [r]
  rw [List.length_append, length_rxBytes, residue_length _ (by omega)] at hl
  rw [i3] at c
  have hbc : (hash_updates reqs (sunxi_hash_init hash_type op0 res).op).1.byte_count +
      (hash_updates reqs (sunxi_hash_init hash_type op0 res).op).1.nbwait =
      (messageOf reqs).length := by omega
  have hfin := final_rxBytes hw (hash_updates reqs (sunxi_hash_init hash_type op0 res).op).1
    res a4 a5 (by omega) (by omega)
  rw [hbc, a8] at hfin
  refine ⟨?_, ?_, ?_, by decide, by decide⟩
  · rw [rxBytes_append, rxBytes_append, hfin]
    have e0 : rxBytes (sunxi_hash_init hash_type op0 res).trace = [] := by
      rw [rxBytes, i4]; rfl
    rw [e0, List.nil_append, ← List.append_assoc, ← List.append_assoc, ← List.append_assoc,
      r]
    unfold md_pad
    by_cases hs : hash_type = "sha1"
    · rw [if_pos (i5.2 hs)]
      simp [hs]
    · rw [if_neg (fun h => hs (i5.1 h))]
      simp [hs]
  · unfold pad_zeros
    omega
  · intro k hk
    unfold pad_zeros at hk
    omega


/-- Witness of C2: three updates of one to three bytes against one update of
seven bytes. -/
theorem hash_update_stream_witness :
    (∀ r ∈ chunks_small, ∀ sg ∈ r, isBytes sg) ∧ (∀ r ∈ chunks_big, ∀ sg ∈ r, isBytes sg) ∧
    messageOf chunks_small = messageOf chunks_big ∧
    (rxBytes ((sunxi_hash_init "md5" sunxi_cipher_init []).trace ++
        (hash_updates chunks_small (sunxi_hash_init "md5" sunxi_cipher_init []).op).2) ++
      residue (hash_updates chunks_small (sunxi_hash_init "md5" sunxi_cipher_init []).op).1 =
        messageOf chunks_small ∧
    rxWords ((sunxi_hash_init "md5" sunxi_cipher_init []).trace ++
        (hash_updates chunks_small (sunxi_hash_init "md5" sunxi_cipher_init []).op).2) =
      rxWords ((sunxi_hash_init "md5" sunxi_cipher_init []).trace ++
        (hash_updates chunks_big (sunxi_hash_init "md5" sunxi_cipher_init []).op).2) ∧
    (hash_updates chunks_small (sunxi_hash_init "md5" sunxi_cipher_init []).op).1.byte_count =
      (hash_updates chunks_big (sunxi_hash_init "md5" sunxi_cipher_init []).op).1.byte_count ∧
    (hash_updates chunks_small (sunxi_hash_init "md5" sunxi_cipher_init []).op).1.nbwait =
      (hash_updates chunks_big (sunxi_hash_init "md5" sunxi_cipher_init []).op).1.nbwait ∧
    (hash_updates chunks_small (sunxi_hash_init "md5" sunxi_cipher_init []).op).1.waitbuf =
      (hash_updates chunks_big (sunxi_hash_init "md5" sunxi_cipher_init []).op).1.waitbuf) :=
  ⟨by decide, by decide, by decide,
    hash_update_stream "md5" sunxi_cipher_init [] chunks_small chunks_big (by decide)
      (by decide) (by decide)⟩

/-- An exact request: SHA1 of `abc` given in two scatterlist entries. -/
theorem exact_requests_stream_example :
    (∀ r ∈ chunks_abc, ∀ sg ∈ r, isBytes sg) ∧ (messageOf chunks_abc).length < 2 ^ 61 ∧
    rxBytes ((sunxi_hash_init "sha1" sunxi_cipher_init []).trace ++
        (hash_updates chunks_abc (sunxi_hash_init "sha1" sunxi_cipher_init []).op).2 ++
        (sunxi_hash_final hw_idle
          (hash_updates chunks_abc (sunxi_hash_init "sha1" sunxi_cipher_init []).op).1
          []).trace) = md_pad (decide ("sha1" = "sha1")) (messageOf chunks_abc) :=
  ⟨by decide, by decide,
    (exact_requests_stream_is_md_padding "sha1" sunxi_cipher_init [] chunks_abc hw_idle (by decide)
      (by decide)).1⟩

/-! ## C10: the lock over a whole hash -/

theorem dataExt_refl (s : UpdState) : DataExt s s := ⟨[], by simp, by simp⟩

theorem dataExt_trans {s s1 s2 : UpdState} (h1 : DataExt s s1) (h2 : DataExt s1 s2) :
    DataExt s s2 := by
  obtain ⟨d1, t1, e1⟩ := h1
  obtain ⟨d2, t2, e2⟩ := h2
  refine ⟨d1 ++ d2, by rw [t2, t1, List.append_assoc], ?_⟩
  intro e he
  rcases List.mem_append.1 he with h | h
  · exact e1 e h
  · exact e2 e h

theorem dataExt_push (s s' : UpdState) (e : Ev) (he : e.isData = true)
    (h : s'.trace = s.trace ++ [e]) : DataExt s s' :=
  ⟨[e], h, by simpa using he⟩

theorem update_fill_dataExt (nbytes : Nat) (sg : List Nat) :
    ∀ (fuel : Nat) (s : UpdState), DataExt s (update_fill nbytes sg fuel s) := by
  intro fuel
  induction fuel with
  | zero => intro s; exact dataExt_refl s
  | succ n ih =>
    intro s
    unfold update_fill
    split
    · exact dataExt_trans ⟨[], by simp [update_take], by simp⟩ (ih _)
    · exact dataExt_refl s

theorem update_words_dataExt (nbytes : Nat) (sg : List Nat) :
    ∀ (fuel : Nat) (s : UpdState), DataExt s (update_words nbytes sg fuel s) := by
  intro fuel
  induction fuel with
  | zero => intro s; exact dataExt_refl s
  | succ n ih =>
    intro s
    unfold update_words
    split
    · exact dataExt_trans (dataExt_push s _ (Ev.writel (load32 sg s.in_i) SS_RXFIFO)
        (by simp [Ev.isData]) rfl) (ih _)
    · exact dataExt_refl s

theorem update_tail_dataExt (nbytes : Nat) (sg : List Nat) :
    ∀ (fuel : Nat) (s : UpdState), DataExt s (update_tail nbytes sg fuel s) := by
  intro fuel
  induction fuel with
  | zero => intro s; exact dataExt_refl s
  | succ n ih =>
    intro s
    unfold update_tail
    simp only []
    split
    · exact dataExt_trans ⟨[], by simp [update_take], by simp⟩ (ih _)
    · exact ⟨[], by simp [update_take], by simp⟩

theorem update_sg_dataExt (nbytes k : Nat) (sg : List Nat) (s : UpdState) :
    DataExt s (update_sg nbytes k sg s) := by
  have key : ∀ s3 : UpdState,
      DataExt s3 { s3 with in_i := 0, trace := s3.trace ++ [Ev.kunmap true k] } :=
    fun s3 => dataExt_push _ _ (Ev.kunmap true k) rfl rfl
  have step1 : ∀ s0 : UpdState, DataExt s0 (if s0.op.nbwait > 0 then
      (if (update_fill nbytes sg 4 s0).op.nbwait = 4 then
        update_flush (update_fill nbytes sg 4 s0) else update_fill nbytes sg 4 s0)
      else s0) := by
    intro s0
    split
    · split
      · exact dataExt_trans (update_fill_dataExt nbytes sg 4 _)
          (dataExt_push _ _ _ (by simp [Ev.isData]) rfl)
      · exact update_fill_dataExt nbytes sg 4 _
    · exact dataExt_refl _
  have step3 : ∀ s2 : UpdState, DataExt s2 (if s2.in_i < sg.length ∧
      sg.length - s2.in_i < 4 ∧ s2.i < nbytes then update_tail nbytes sg sg.length s2
      else s2) := by
    intro s2
    split
    · exact update_tail_dataExt nbytes sg sg.length _
    · exact dataExt_refl _
  unfold update_sg
  simp only []
  exact dataExt_trans
    (dataExt_trans
      (dataExt_trans
        (dataExt_trans
          (dataExt_push s { s with trace := s.trace ++ [Ev.kmap true k] } (Ev.kmap true k)
            rfl rfl)
          (step1 _))
        (update_words_dataExt nbytes sg sg.length _))
      (step3 _))
    (key _)

theorem update_loop_dataExt (nbytes : Nat) :
    ∀ (rest : List (List Nat)) (sg : List Nat) (k : Nat) (s : UpdState),
      DataExt s (update_loop nbytes sg rest k s) := by
  intro rest
  induction rest with
  | nil =>
    intro sg k s
    simp only [update_loop]
    exact update_sg_dataExt nbytes k sg s
  | cons sg2 rest2 ih =>
    intro sg k s
    rw [update_loop]
    split
    · exact dataExt_trans (update_sg_dataExt nbytes k sg s) (ih _ _ _)
    · exact update_sg_dataExt nbytes k sg s

theorem hash_update_data (nbytes : Nat) (src : List (List Nat)) (op : sunxi_req_ctx)
    (res : List Nat) : ∀ e ∈ (sunxi_hash_update nbytes src op res).trace, e.isData = true := by
  unfold sunxi_hash_update
  split
  · simp
  · split
    · simp
    · rename_i sg rest
      obtain ⟨d, t, h⟩ := update_loop_dataExt nbytes rest sg 0
        { op := op, i := 0, in_i := 0, trace := [] }
      simp only [List.nil_append] at t
      simp only [t]
      exact h

theorem hash_updates_data :
    ∀ (reqs : List (List (List Nat))) (op : sunxi_req_ctx),
      ∀ e ∈ (hash_updates reqs op).2, e.isData = true := by
  intro reqs
  induction reqs with
  | nil => intro op e he; simp [hash_updates] at he
  | cons r rs ih =>
    intro op e he
    simp only [hash_updates, List.mem_append] at he
    rcases he with h | h
    · exact hash_update_data _ _ _ _ e h
    · exact ih _ e h

theorem isData_not_mutex (e : Ev) (h : e.isData = true) : e.isMutex = false := by
  cases e <;> simp [Ev.isData, Ev.isMutex] at h ⊢

theorem final_poll_no_mutex (ctl : Nat → Nat) :
    ∀ (fuel i : Nat) (t : List Ev), (∀ e ∈ t, e.isMutex = false) →
      ∀ e ∈ (final_poll ctl fuel i t).2, e.isMutex = false := by
  intro fuel
  induction fuel with
  | zero => intro i t h; exact h
  | succ n ih =>
    intro i t h
    have h' : ∀ e ∈ t ++ [Ev.readl SS_CTL (ctl (i + 1))], e.isMutex = false := by
      intro e he
      rcases List.mem_append.1 he with h1 | h1
      · exact h e h1
      · simp only [List.mem_singleton] at h1
        rw [h1]; rfl
    unfold final_poll
    simp only []
    split
    · exact ih _ _ h'
    · exact h'

theorem final_digest_no_mutex (md : Nat → Nat) (sha1 : Bool) :
    ∀ (n i : Nat) (r : List Nat) (t : List Ev), (∀ e ∈ t, e.isMutex = false) →
      ∀ e ∈ (final_digest md sha1 n i r t).2, e.isMutex = false := by
  intro n
  induction n with
  | zero => intro i r t h; exact h
  | succ n ih =>
    intro i r t h
    unfold final_digest
    simp only []
    apply ih
    intro e he
    rcases List.mem_append.1 he with h1 | h1
    · exact h e h1
    · simp only [List.mem_singleton] at h1
      rw [h1]; rfl

theorem final_head_no_mutex (hw : HashHW) (op : sunxi_req_ctx) :
    ∀ e ∈ (final_terminator op).2 ++
        List.replicate (final_zeros (final_terminator op).1).2 (Ev.writel 0 SS_RXFIFO) ++
        final_length (final_zeros (final_terminator op).1).1 ++
        [Ev.readl SS_CTL (hw.ctl 0), Ev.writel (hw.ctl 0 ||| SS_DATA_END) SS_CTL] ++
        (final_poll hw.ctl SS_TIMEOUT 0 []).2, e.isMutex = false := by
  intro e he
  simp only [List.mem_append] at he
  rcases he with (((h | h) | h) | h) | h
  · unfold final_terminator at h
    split at h <;> simp only [List.mem_singleton] at h <;> rw [h] <;> rfl
  · rw [(List.mem_replicate.1 h).2]; rfl
  · unfold final_length at h
    split at h <;> simp only [List.mem_cons, List.mem_singleton, List.not_mem_nil,
      or_false] at h <;> rcases h with h | h <;> rw [h] <;> rfl
  · simp only [List.mem_cons, List.mem_singleton, List.not_mem_nil, or_false] at h
    rcases h with h | h <;> rw [h] <;> rfl
  · exact final_poll_no_mutex hw.ctl SS_TIMEOUT 0 [] (by simp) e h

theorem final_shape (hw : HashHW) (op : sunxi_req_ctx) (res : List Nat) :
    ∃ mid, (sunxi_hash_final hw op res).trace =
        mid ++ [Ev.writel 0 SS_CTL, Ev.mutex_unlock Mutex.lock] ∧
      (∀ e ∈ mid, e.isMutex = false) ∧
      ((SS_TIMEOUT ≤ (final_poll hw.ctl SS_TIMEOUT 0 []).1 ∧
          (sunxi_hash_final hw op res).ret = -1 ∧
          (sunxi_hash_final hw op res).result = res) ∨
        (¬ SS_TIMEOUT ≤ (final_poll hw.ctl SS_TIMEOUT 0 []).1 ∧
          (sunxi_hash_final hw op res).ret = 0)) := by
  have hh := final_head_no_mutex hw op
  unfold sunxi_hash_final
  simp only []
  by_cases ht : (final_poll hw.ctl SS_TIMEOUT 0 []).1 ≥ SS_TIMEOUT
  · rw [if_pos ht]
    exact ⟨_, rfl, hh, Or.inl ⟨ht, rfl, rfl⟩⟩
  · rw [if_neg ht]
    split
    · refine ⟨_, rfl, ?_, Or.inr ⟨ht, rfl⟩⟩
      intro e he
      rcases List.mem_append.1 he with h | h
      · exact hh e h
      · exact final_digest_no_mutex hw.md true 5 0 res [] (by simp) e h
    · refine ⟨_, rfl, ?_, Or.inr ⟨ht, rfl⟩⟩
      intro e he
      rcases List.mem_append.1 he with h | h
      · exact hh e h
      · exact final_digest_no_mutex hw.md false 4 0 res [] (by simp) e h

theorem count_eq_zero_of_no_mutex (l : List Ev) (h : ∀ e ∈ l, e.isMutex = false) (m : Mutex) :
    l.count (Ev.mutex_lock m) = 0 ∧ l.count (Ev.mutex_unlock m) = 0 := by
  constructor
  · apply List.count_eq_zero.2
    intro hm
    have := h _ hm
    simp [Ev.isMutex] at this
  · apply List.count_eq_zero.2
    intro hm
    have := h _ hm
    simp [Ev.isMutex] at this

theorem hash_init_trace (hash_type : String) (op0 : sunxi_req_ctx) (res : List Nat) :
    ∃ v, (sunxi_hash_init hash_type op0 res).trace =
      [Ev.mutex_lock Mutex.lock, Ev.writel v SS_CTL] := by
  unfold sunxi_hash_init
  split
  · exact ⟨_, rfl⟩
  · exact ⟨_, rfl⟩

theorem lock_span_counts (M : List Ev) (h : ∀ e ∈ M, e.isMutex = false) :
    (∀ k, heldAfter Mutex.lock ((Ev.mutex_lock Mutex.lock :: M).take (k + 1))) ∧
      ¬ heldAfter Mutex.lock (Ev.mutex_lock Mutex.lock :: M ++ [Ev.mutex_unlock Mutex.lock]) ∧
      lockCount Mutex.lock (Ev.mutex_lock Mutex.lock :: M ++ [Ev.mutex_unlock Mutex.lock]) = 1 ∧
      unlockCount Mutex.lock
        (Ev.mutex_lock Mutex.lock :: M ++ [Ev.mutex_unlock Mutex.lock]) = 1 := by
  obtain ⟨c1, c2⟩ := count_eq_zero_of_no_mutex M h Mutex.lock
  refine ⟨?_, ?_, ?_, ?_⟩
  · intro k
    obtain ⟨d1, d2⟩ := count_eq_zero_of_no_mutex (M.take k)
      (fun e he => h e (List.mem_of_mem_take he)) Mutex.lock
    rw [List.take_succ_cons]
    simp [heldAfter, lockCount, unlockCount, List.count_cons, d1, d2]
  · simp [heldAfter, lockCount, unlockCount, List.count_cons, List.count_append, c1, c2]
  · simp [lockCount, List.count_cons, List.count_append, c1]
  · simp [unlockCount, List.count_cons, List.count_append, c2]

/-- C10: `sunxi_hash_final` ends, on the timeout path and on the success
path alike, with the write of `0` to `SS_CTL` followed by the release of
`ss->lock`; on timeout it returns `-1` and leaves the result buffer as it was.
Over a whole hash (`sunxi_hash_init`, any updates, `sunxi_hash_final`) the
lock is acquired once, by the first event, held at every later point before
the last event, and released once, by the last event. -/
theorem hash_lock_span (hash_type : String) (op0 : sunxi_req_ctx) (res : List Nat)
    (reqs : List (List (List Nat))) (hw : HashHW) :
    (∃ mid, (sunxi_hash_final hw (hash_updates reqs
          (sunxi_hash_init hash_type op0 res).op).1 res).trace =
        mid ++ [Ev.writel 0 SS_CTL, Ev.mutex_unlock Mutex.lock] ∧
      ∀ e ∈ mid, e.isMutex = false) ∧
    ((SS_TIMEOUT ≤ (final_poll hw.ctl SS_TIMEOUT 0 []).1 ∧
        (sunxi_hash_final hw (hash_updates reqs
          (sunxi_hash_init hash_type op0 res).op).1 res).ret = -1 ∧
        (sunxi_hash_final hw (hash_updates reqs
          (sunxi_hash_init hash_type op0 res).op).1 res).result = res) ∨
      (¬ SS_TIMEOUT ≤ (final_poll hw.ctl SS_TIMEOUT 0 []).1 ∧
        (sunxi_hash_final hw (hash_updates reqs
          (sunxi_hash_init hash_type op0 res).op).1 res).ret = 0)) ∧
    (∃ mid, (sunxi_hash_init hash_type op0 res).trace ++
          (hash_updates reqs (sunxi_hash_init hash_type op0 res).op).2 ++
          (sunxi_hash_final hw (hash_updates reqs
            (sunxi_hash_init hash_type op0 res).op).1 res).trace =
        Ev.mutex_lock Mutex.lock :: mid ++ [Ev.mutex_unlock Mutex.lock] ∧
      (∀ e ∈ mid, e.isMutex = false) ∧
      (∀ k, heldAfter Mutex.lock ((Ev.mutex_lock Mutex.lock :: mid).take (k + 1))) ∧
      ¬ heldAfter Mutex.lock (Ev.mutex_lock Mutex.lock :: mid ++ [Ev.mutex_unlock Mutex.lock]) ∧
      lockCount Mutex.lock
        (Ev.mutex_lock Mutex.lock :: mid ++ [Ev.mutex_unlock Mutex.lock]) = 1 ∧
      unlockCount Mutex.lock
        (Ev.mutex_lock Mutex.lock :: mid ++ [Ev.mutex_unlock Mutex.lock]) = 1) ∧
    heldAfter Mutex.lock ((sunxi_hash_init hash_type op0 res).trace ++
      (hash_updates reqs (sunxi_hash_init hash_type op0 res).op).2) := by
  obtain ⟨fmid, ft, fm, fr⟩ := final_shape hw
    (hash_updates reqs (sunxi_hash_init hash_type op0 res).op).1 res
  obtain ⟨v, it⟩ := hash_init_trace hash_type op0 res
  have um : ∀ e ∈ (hash_updates reqs (sunxi_hash_init hash_type op0 res).op).2,
      e.isMutex = false :=
    fun e he => isData_not_mutex e (hash_updates_data reqs _ e he)
  refine ⟨⟨fmid, ft, fm⟩, fr, ?_, ?_⟩
  · have hmid : ∀ e ∈ [Ev.writel v SS_CTL] ++
        (hash_updates reqs (sunxi_hash_init hash_type op0 res).op).2 ++ fmid ++
        [Ev.writel 0 SS_CTL], e.isMutex = false := by
      intro e he
      simp only [List.mem_append, List.mem_singleton] at he
      rcases he with ((h | h) | h) | h
      · rw [h]; rfl
      · exact um e h
      · exact fm e h
      · rw [h]; rfl
    obtain ⟨s1, s2, s3, s4⟩ := lock_span_counts _ hmid
    refine ⟨_, ?_, hmid, s1, s2, s3, s4⟩
    rw [it, ft]
    simp only [List.cons_append, List.nil_append, List.append_assoc, List.singleton_append]
  · rw [it]
    have h2 : ∀ e ∈ [Ev.writel v SS_CTL] ++
        (hash_updates reqs (sunxi_hash_init hash_type op0 res).op).2, e.isMutex = false := by
      intro e he
      simp only [List.mem_append, List.mem_singleton] at he
      rcases he with h | h
      · rw [h]; rfl
      · exact um e h
    have s1 := (lock_span_counts _ h2).1
      ([Ev.writel v SS_CTL] ++
        (hash_updates reqs (sunxi_hash_init hash_type op0 res).op).2).length
    rw [List.take_succ_cons, List.take_length] at s1
    exact s1


/-! ## C9: the completion poll -/

theorem readsFrom_append (reg : Nat) (a b : List Ev) :
    readsFrom reg (a ++ b) = readsFrom reg a ++ readsFrom reg b := by
  simp [readsFrom]

theorem final_poll_spec (ctl : Nat → Nat) :
    ∀ (n i : Nat) (t : List Ev), i + n = SS_TIMEOUT → 1 ≤ n →
      (final_poll ctl n i t).1 ≤ SS_TIMEOUT ∧ i < (final_poll ctl n i t).1 ∧
      (readsFrom SS_CTL (final_poll ctl n i t).2).length =
        (readsFrom SS_CTL t).length + ((final_poll ctl n i t).1 - i) ∧
      (SS_TIMEOUT ≤ (final_poll ctl n i t).1 ↔
        ∀ k, i < k → k < SS_TIMEOUT → 0 < ctl k &&& SS_DATA_END) := by
  intro n
  induction n with
  | zero => intro i t _ h; omega
  | succ n ih =>
    intro i t h1 _
    have hr : (readsFrom SS_CTL (t ++ [Ev.readl SS_CTL (ctl (i + 1))])).length =
        (readsFrom SS_CTL t).length + 1 := by
      rw [readsFrom_append]
      simp [readsFrom]
    unfold final_poll
    simp only []
    by_cases hc : i + 1 < SS_TIMEOUT ∧ (ctl (i + 1) &&& SS_DATA_END) > 0
    · rw [if_pos hc]
      obtain ⟨a1, a2, a3, a4⟩ := ih (i + 1) (t ++ [Ev.readl SS_CTL (ctl (i + 1))])
        (by omega) (by omega)
      refine ⟨a1, by omega, by rw [a3, hr]; omega, ?_⟩
      rw [a4]
      constructor
      · intro h k hk1 hk2
        by_cases hk : k = i + 1
        · rw [hk]; exact hc.2
        · exact h k (by omega) hk2
      · intro h k hk1 hk2
        exact h k (by omega) hk2
    · rw [if_neg hc]
      refine ⟨by omega, by simp, by rw [hr]; simp, ?_⟩
      simp only []
      constructor
      · intro h k hk1 hk2
        omega
      · intro h
        by_cases hi : i + 1 < SS_TIMEOUT
        · have := h (i + 1) (by omega) hi
          exact absurd ⟨hi, this⟩ hc
        · omega

/-- The behaviour of the completion poll of `sunxi_hash_final`: `SS_CTL` is
read at most `SS_TIMEOUT` times after the end-of-data write, and the timeout
error is returned exactly when `SS_DATA_END` is set in each of the first
`SS_TIMEOUT - 1` polls, whatever the last poll reads. -/
theorem hash_final_timeout_iff (hw : HashHW) (op : sunxi_req_ctx) (res : List Nat) :
    (readsFrom SS_CTL (final_poll hw.ctl SS_TIMEOUT 0 []).2).length ≤ SS_TIMEOUT ∧
      ((sunxi_hash_final hw op res).ret = -1 ↔
        ∀ k, 0 < k → k < SS_TIMEOUT → 0 < hw.ctl k &&& SS_DATA_END) := by
  obtain ⟨a1, a2, a3, a4⟩ := final_poll_spec hw.ctl SS_TIMEOUT 0 [] (by simp) (by decide)
  constructor
  · rw [a3]
    simp [readsFrom]
    exact a1
  · rw [← a4]
    unfold sunxi_hash_final
    simp only []
    by_cases ht : (final_poll hw.ctl SS_TIMEOUT 0 []).1 ≥ SS_TIMEOUT
    · rw [if_pos ht]
      simp [ht]
    · rw [if_neg ht]
      constructor
      · intro h
        split at h <;> simp at h
      · intro h
        exact absurd h ht


/-- C9: a device that shows `SS_DATA_END` set in the first 99 completion
polls and clear in the 100th one: `sunxi_hash_final` performs the 100th read,
finds the bit clear, and still returns the timeout error `-1` without
writing the digest. -/
theorem hash_final_last_poll_ignored :
    (sunxi_hash_final hw_late (sunxi_hash_init "md5" sunxi_cipher_init []).op
        (List.replicate 16 0xff)).ret = -1 ∧
      (sunxi_hash_final hw_late (sunxi_hash_init "md5" sunxi_cipher_init []).op
        (List.replicate 16 0xff)).result = List.replicate 16 0xff ∧
      (readsFrom SS_CTL (final_poll hw_late.ctl SS_TIMEOUT 0 []).2).length = 100 ∧
      (readsFrom SS_CTL (final_poll hw_late.ctl SS_TIMEOUT 0 []).2).getLast? = some 0 ∧
      0 &&& SS_DATA_END = 0 := by
  decide

/-! ## C3: the fast path of the cipher pump -/

theorem txWords_append (a b : List Ev) : txWords (a ++ b) = txWords a ++ txWords b := by
  simp [txWords, readsFrom]

theorem store32_cons (x : Nat) (mem : List Nat) (off v : Nat) :
    store32 (x :: mem) (off + 1) v = x :: store32 mem off v := by
  simp [store32, List.set_cons_succ]

theorem store32_split (v a b c d : Nat) (rest : List Nat) :
    ∀ (pre : List Nat) (off : Nat), pre.length = off →
      store32 (pre ++ a :: b :: c :: d :: rest) off v = pre ++ le32 v ++ rest := by
  intro pre
  induction pre with
  | nil =>
    intro off h
    subst h
    rfl
  | cons x xs ih =>
    intro off h
    subst h
    rw [List.cons_append, List.length_cons, store32_cons, ih _ rfl]
    rfl

theorem length_store32 (mem : List Nat) (off v : Nat) :
    (store32 mem off v).length = mem.length := by
  simp [store32]

theorem range_succ_flatMap (f : Nat → List Nat) (n : Nat) :
    (List.range (n + 1)).flatMap f = f 0 ++ (List.range n).flatMap fun k => f (k + 1) := by
  rw [List.range_succ_eq_map, List.flatMap_cons, List.flatMap_map]

theorem range_succ_map {α : Type} (f : Nat → α) (n : Nat) :
    (List.range (n + 1)).map f = f 0 :: (List.range n).map fun k => f (k + 1) := by
  rw [List.range_succ_eq_map, List.map_cons, List.map_map]
  rfl

theorem pop_store_split (tx : Nat → Nat) :
    ∀ (n nt di : Nat) (pre mid post : List Nat), pre.length = 4 * di → mid.length = 4 * n →
      pop_store tx n nt di (pre ++ mid ++ post) =
        pre ++ ((List.range n).flatMap fun k => le32 (tx (nt + k))) ++ post := by
  intro n
  induction n with
  | zero =>
    intro nt di pre mid post _ hm
    have : mid = [] := List.eq_nil_of_length_eq_zero (by simpa using hm)
    simp [pop_store, this]
  | succ n ih =>
    intro nt di pre mid post hp hm
    match mid, hm with
    | a :: b :: c :: d :: mid', hm =>
      unfold pop_store
      have e : pre ++ a :: b :: c :: d :: mid' ++ post =
          pre ++ a :: b :: c :: d :: (mid' ++ post) := by simp
      rw [e, store32_split _ _ _ _ _ _ pre (4 * di) hp]
      have e2 : pre ++ le32 (tx nt) ++ (mid' ++ post) = (pre ++ le32 (tx nt)) ++ mid' ++ post := by
        simp
      rw [e2, ih (nt + 1) (di + 1) (pre ++ le32 (tx nt)) mid' post
        (by simp [length_le32, hp]; omega) (by simp at hm; omega)]
      rw [range_succ_flatMap]
      simp [Nat.add_assoc, Nat.add_comm 1]

theorem pop_store_eq (tx : Nat → Nat) (n nt di : Nat) (mem : List Nat)
    (h : 4 * (di + n) ≤ mem.length) :
    pop_store tx n nt di mem =
      mem.take (4 * di) ++ ((List.range n).flatMap fun k => le32 (tx (nt + k))) ++
        mem.drop (4 * (di + n)) := by
  have e : mem = mem.take (4 * di) ++ (mem.drop (4 * di)).take (4 * n) ++
      mem.drop (4 * (di + n)) := by
    have : 4 * (di + n) = 4 * di + 4 * n := by ring
    rw [this, ← List.take_add, List.take_append_drop]
  conv_lhs => rw [e]
  exact pop_store_split tx n nt di _ _ _ (by simp; omega) (by simp; omega)

theorem length_pop_store (tx : Nat → Nat) :
    ∀ (n nt di : Nat) (mem : List Nat), (pop_store tx n nt di mem).length = mem.length := by
  intro n
  induction n with
  | zero => intro nt di mem; rfl
  | succ n ih =>
    intro nt di mem
    unfold pop_store
    rw [ih, length_store32]

/-! causality over the events of one turn -/

theorem causal_append :
    ∀ (a b : List Ev) (w r : Nat),
      causal w r (a ++ b) =
        (causal w r a && causal (w + (rxWords a).length) (r + (txWords a).length) b) := by
  intro a
  induction a with
  | nil => intro b w r; simp [causal, rxWords, txWords, writesTo, readsFrom]
  | cons x xs ih =>
    intro b w r
    cases x with
    | writel v reg =>
      by_cases h : reg = SS_RXFIFO
      · simp [causal, ih, h, rxWords, txWords, writesTo, readsFrom]
        congr 2
        omega
      · simp [causal, ih, h, rxWords, txWords, writesTo, readsFrom]
    | readl reg v =>
      by_cases h : reg = SS_TXFIFO
      · simp [causal, ih, h, rxWords, txWords, writesTo, readsFrom]
        congr 2
        omega
      · by_cases h2 : reg = SS_FCSR
        · subst h2
          have hne : ¬ SS_FCSR = SS_TXFIFO := by decide
          simp [causal, ih, hne, rxWords, txWords, writesTo, readsFrom, Bool.and_assoc]
        · simp [causal, ih, h, h2, rxWords, txWords, writesTo, readsFrom]
    | mutex_lock m => simp [causal, ih, rxWords, txWords, writesTo, readsFrom]
    | mutex_unlock m => simp [causal, ih, rxWords, txWords, writesTo, readsFrom]
    | kmap a k => simp [causal, ih, rxWords, txWords, writesTo, readsFrom]
    | kunmap a k => simp [causal, ih, rxWords, txWords, writesTo, readsFrom]

theorem rxWords_push (mem : List Nat) (si n : Nat) :
    rxWords (push_words mem si n) = (List.range n).map fun k => load32 mem (4 * (si + k)) := by
  simp only [rxWords, writesTo, push_words, List.filterMap_map, Function.comp_def, if_true]
  exact congrFun (List.filterMap_eq_map _) _

theorem txWords_push (mem : List Nat) (si n : Nat) : txWords (push_words mem si n) = [] := by
  simp [txWords, readsFrom, push_words, List.filterMap_map, Function.comp_def]

theorem rxWords_pop (tx : Nat → Nat) (nt n : Nat) : rxWords (pop_events tx nt n) = [] := by
  simp [rxWords, writesTo, pop_events, List.filterMap_map, Function.comp_def]

theorem txWords_pop (tx : Nat → Nat) (nt n : Nat) :
    txWords (pop_events tx nt n) = (List.range n).map fun k => tx (nt + k) := by
  simp only [txWords, readsFrom, pop_events, List.filterMap_map, Function.comp_def, if_true]
  exact congrFun (List.filterMap_eq_map _) _

theorem causal_push (mem : List Nat) (si n w r : Nat) :
    causal w r (push_words mem si n) = true := by
  unfold push_words
  induction n generalizing w si with
  | zero => simp [causal]
  | succ k ih =>
    rw [range_succ_map]
    simp only [causal, if_true]
    have := ih (si + 1) (w + 1)
    simp only [Nat.add_assoc, Nat.add_comm 1] at this ⊢
    exact this

theorem causal_pop (tx : Nat → Nat) (nt n w r : Nat) :
    causal w r (pop_events tx nt n) = true := by
  unfold pop_events
  induction n generalizing r nt with
  | zero => simp [causal]
  | succ k ih =>
    rw [range_succ_map]
    simp only [causal, if_true]
    have := ih (nt + 1) (r + 1)
    simp only [Nat.add_assoc, Nat.add_comm 1] at this ⊢
    exact this

theorem pop_store_add (tx : Nat → Nat) :
    ∀ (b c nt di : Nat) (mem : List Nat),
      pop_store tx c (nt + b) (di + b) (pop_store tx b nt di mem) =
        pop_store tx (b + c) nt di mem := by
  intro b
  induction b with
  | zero => intro c nt di mem; simp [pop_store]
  | succ b ih =>
    intro c nt di mem
    have e1 : nt + (b + 1) = nt + 1 + b := by omega
    have e2 : di + (b + 1) = di + 1 + b := by omega
    have e3 : b + 1 + c = (b + c) + 1 := by omega
    rw [e1, e2, e3]
    conv_lhs => rw [pop_store]
    conv_rhs => rw [pop_store]
    exact ih c (nt + 1) (di + 1) _

theorem range_map_split {α : Type} (g : Nat → α) (a m : Nat) (h : a ≤ m) :
    (List.range m).map g =
      (List.range a).map g ++ (List.range (m - a)).map fun k => g (a + k) := by
  obtain ⟨c, rfl⟩ : ∃ c, m = a + c := ⟨m - a, by omega⟩
  rw [List.range_add, List.map_append, List.map_map]
  simp [Function.comp_def]

theorem fast_iter_eq (hw : Device) (src : List Nat) (s : FastState)
    (h : s.tx_cnt = 0 ∨ 0 < s.oleft) :
    fast_iter hw src s =
      ({ ileft := s.ileft - (if s.ileft > 0 ∧ s.rx_cnt > 0 then min s.rx_cnt s.ileft else 0),
         oleft := s.oleft - (if s.tx_cnt > 0 then min s.tx_cnt s.oleft else 0),
         rx_cnt := SS_RXFIFO_SPACES (hw.fcsr s.nf),
         tx_cnt := SS_TXFIFO_SPACES (hw.fcsr s.nf),
         si := s.si + (if s.ileft > 0 ∧ s.rx_cnt > 0 then min s.rx_cnt s.ileft else 0),
         di := s.di + (if s.tx_cnt > 0 then min s.tx_cnt s.oleft else 0),
         nf := s.nf + 1,
         nt := s.nt + (if s.tx_cnt > 0 then min s.tx_cnt s.oleft else 0),
         mem := pop_store hw.tx (if s.tx_cnt > 0 then min s.tx_cnt s.oleft else 0)
           s.nt s.di s.mem },
       push_words src s.si (if s.ileft > 0 ∧ s.rx_cnt > 0 then min s.rx_cnt s.ileft else 0) ++
         pop_events hw.tx s.nt (if s.tx_cnt > 0 then min s.tx_cnt s.oleft else 0) ++
         [Ev.readl SS_FCSR (hw.fcsr s.nf)]) := by
  unfold fast_iter
  by_cases h1 : s.ileft > 0 ∧ s.rx_cnt > 0
  · have d1 : do_while_count (min s.rx_cnt s.ileft) = min s.rx_cnt s.ileft := by
      unfold do_while_count
      rw [if_neg]
      omega
    by_cases h2 : s.tx_cnt > 0
    · have d2 : do_while_count (min s.tx_cnt s.oleft) = min s.tx_cnt s.oleft := by
        unfold do_while_count
        rw [if_neg]
        omega
      simp only [h1, h2, and_self, if_true, d1, d2]
    · simp only [h1, h2, and_self, if_true, if_false, d1, pop_store, pop_events,
        List.range_zero, List.map_nil, Nat.add_zero, Nat.sub_zero]
  · by_cases h2 : s.tx_cnt > 0
    · have d2 : do_while_count (min s.tx_cnt s.oleft) = min s.tx_cnt s.oleft := by
        unfold do_while_count
        rw [if_neg]
        omega
      simp only [h1, h2, if_true, if_false, d2, push_words, List.range_zero, List.map_nil,
        Nat.add_zero, Nat.sub_zero]
    · simp only [h1, h2, if_false, pop_store, pop_events, push_words, List.range_zero,
        List.map_nil, Nat.add_zero, Nat.sub_zero]

theorem causal_turn (mem : List Nat) (tx : Nat → Nat) (si nt a b w r v : Nat)
    (rest : List Ev) :
    causal w r (push_words mem si a ++ pop_events tx nt b ++ [Ev.readl SS_FCSR v] ++ rest) =
      (decide (SS_TXFIFO_SPACES v ≤ (w + a) - (r + b)) && causal (w + a) (r + b) rest) := by
  have hne : ¬ SS_FCSR = SS_TXFIFO := by decide
  rw [List.append_assoc, List.append_assoc, causal_append, causal_push, rxWords_push,
    txWords_push, causal_append, causal_pop, rxWords_pop, txWords_pop]
  simp [causal, hne]

theorem fast_loop_spec (hw : Device) (src : List Nat) (n : Nat) :
    ∀ (fuel : Nat) (s s' : FastState) (e : List Ev),
      fast_loop hw src fuel s = some (s', e) →
      s.si + s.ileft = n → s.di + s.oleft = n → s.nt = s.di → s.di ≤ s.si →
      s.tx_cnt ≤ s.si - s.di → (s.tx_cnt = 0 ∨ 0 < s.oleft) →
      causal s.si s.di e = true →
      rxWords e = ((List.range s.ileft).map fun k => load32 src (4 * (s.si + k))) ∧
      txWords e = ((List.range s.oleft).map fun k => hw.tx (s.di + k)) ∧
      s'.mem = pop_store hw.tx s.oleft s.di s.di s.mem := by
  intro fuel
  induction fuel with
  | zero =>
    intro s s' e h
    simp [fast_loop] at h
  | succ fuel ih =>
    intro s s' e h h1 h2 h3 h4 h5 h6 hc
    unfold fast_loop at h
    rw [fast_iter_eq hw src s h6] at h
    have ha : (if s.ileft > 0 ∧ s.rx_cnt > 0 then min s.rx_cnt s.ileft else 0) ≤ s.ileft := by
      split <;> omega
    have hb : (if s.tx_cnt > 0 then min s.tx_cnt s.oleft else 0) ≤ s.oleft := by
      split <;> omega
    have hb2 : (if s.tx_cnt > 0 then min s.tx_cnt s.oleft else 0) ≤ s.tx_cnt := by
      split <;> omega
    generalize (if s.ileft > 0 ∧ s.rx_cnt > 0 then min s.rx_cnt s.ileft else 0) = a at h ha
    generalize (if s.tx_cnt > 0 then min s.tx_cnt s.oleft else 0) = b at h hb hb2
    simp only [] at h
    by_cases hol : s.oleft - b > 0
    · rw [if_pos hol] at h
      split at h
      · simp at h
      · rename_i s2 e2 hrec
        simp only [Option.some.injEq, Prod.mk.injEq] at h
        obtain ⟨hs, he⟩ := h
        subst hs
        rw [← he, causal_turn] at hc
        simp only [Bool.and_eq_true, decide_eq_true_eq] at hc
        obtain ⟨r1, r2, r3⟩ := ih _ _ _ hrec (by simp only []; omega) (by simp only []; omega)
          (by simp only []; omega) (by simp only []; omega) (by simp only []; omega)
          (Or.inr hol) hc.2
        simp only [] at r1 r2 r3
        rw [← he]
        refine ⟨?_, ?_, ?_⟩
        · rw [rxWords_append, rxWords_append, rxWords_append, rxWords_push, rxWords_pop, r1,
            range_map_split _ a s.ileft ha]
          simp [rxWords, writesTo, Nat.add_assoc]
        · rw [txWords_append, txWords_append, txWords_append, txWords_push, txWords_pop, r2,
            range_map_split _ b s.oleft hb, h3]
          simp [txWords, readsFrom, Nat.add_assoc]
          decide
        · rw [r3, h3, pop_store_add]
          congr 1
          omega
    · rw [if_neg hol] at h
      simp only [Option.some.injEq, Prod.mk.injEq] at h
      obtain ⟨hs, he⟩ := h
      subst hs
      rw [← he, ← List.append_nil (_ ++ [Ev.readl SS_FCSR (hw.fcsr s.nf)]), causal_turn] at hc
      have hbo : b = s.oleft := by omega
      have hao : a = s.ileft := by omega
      rw [← he]
      refine ⟨?_, ?_, ?_⟩
      · rw [rxWords_append, rxWords_append, rxWords_push, rxWords_pop, hao]
        simp [rxWords, writesTo]
      · rw [txWords_append, txWords_append, txWords_push, txWords_pop, hbo, h3]
        simp [txWords, readsFrom]
        decide
      · simp only []
        rw [hbo, h3]

theorem quiet_facts :
    ∀ (t : List Ev), (∀ e ∈ t, e.isFifo = false) →
      rxWords t = [] ∧ txWords t = [] ∧ ∀ w r x, causal w r (t ++ x) = causal w r x := by
  intro t
  induction t with
  | nil => intro _; exact ⟨rfl, rfl, fun _ _ _ => rfl⟩
  | cons y ys ih =>
    intro h
    obtain ⟨a1, a2, a3⟩ := ih (fun e he => h e (by simp [he]))
    have hy := h y (by simp)
    cases y with
    | writel v reg =>
      simp only [Ev.isFifo, decide_eq_false_iff_not] at hy
      refine ⟨?_, ?_, ?_⟩
      · simpa [rxWords, writesTo, hy] using a1
      · simpa [txWords, readsFrom] using a2
      · intro w r x
        simp [causal, hy, a3]
    | readl reg v =>
      simp only [Ev.isFifo, Bool.or_eq_false_iff, decide_eq_false_iff_not] at hy
      refine ⟨?_, ?_, ?_⟩
      · simpa [rxWords, writesTo] using a1
      · simpa [txWords, readsFrom, hy.1] using a2
      · intro w r x
        simp [causal, hy.1, hy.2, a3]
    | mutex_lock m =>
      exact ⟨by simpa [rxWords, writesTo] using a1, by simpa [txWords, readsFrom] using a2,
        fun w r x => by simp [causal, a3]⟩
    | mutex_unlock m =>
      exact ⟨by simpa [rxWords, writesTo] using a1, by simpa [txWords, readsFrom] using a2,
        fun w r x => by simp [causal, a3]⟩
    | kmap a k =>
      exact ⟨by simpa [rxWords, writesTo] using a1, by simpa [txWords, readsFrom] using a2,
        fun w r x => by simp [causal, a3]⟩
    | kunmap a k =>
      exact ⟨by simpa [rxWords, writesTo] using a1, by simpa [txWords, readsFrom] using a2,
        fun w r x => by simp [causal, a3]⟩

theorem load_key_iv_quiet (op : sunxi_req_ctx) (ivsize : Nat) (info : Option (List Nat))
    (hk : op.keylen ≤ 32) : ∀ e ∈ load_key_iv op ivsize info, e.isFifo = false := by
  intro e he
  unfold load_key_iv at he
  cases info with
  | none => simp at he
  | some iv =>
    simp only [List.mem_append, List.mem_map, List.mem_range] at he
    rcases he with ⟨k, hk1, rfl⟩ | ⟨i, hi1, rfl⟩
    · simp only [Ev.isFifo, decide_eq_false_iff_not, SS_KEY0, SS_RXFIFO]
      omega
    · simp only [Ev.isFifo, decide_eq_false_iff_not, SS_IV0, SS_RXFIFO]
      omega

theorem prologue_quiet (op : sunxi_req_ctx) (ivsize : Nat) (info : Option (List Nat))
    (hk : op.keylen ≤ 32) (l : List Ev) (hl : ∀ e ∈ l, e.isFifo = false) :
    ∀ e ∈ [Ev.mutex_lock Mutex.lock] ++ load_key_iv op ivsize info ++
      [Ev.writel (op.mode ||| SS_ENABLED) SS_CTL] ++ l, e.isFifo = false := by
  intro e he
  simp only [List.mem_append, List.mem_singleton] at he
  rcases he with ((h | h) | h) | h
  · rw [h]; rfl
  · exact load_key_iv_quiet op ivsize info hk e h
  · rw [h]; simp [Ev.isFifo, SS_CTL, SS_RXFIFO]
  · exact hl e h

theorem epilogue_quiet (l : List Ev)
    (hl : ∀ e ∈ l, e = Ev.writel 0 SS_CTL ∨ e = Ev.mutex_unlock Mutex.lock ∨
      (∃ a k, e = Ev.kunmap a k) ∨ (∃ a k, e = Ev.kmap a k)) :
    ∀ e ∈ l, e.isFifo = false := by
  intro e he
  rcases hl e he with h | h | ⟨a, k, h⟩ | ⟨a, k, h⟩ <;> rw [h] <;> simp [Ev.isFifo, SS_CTL, SS_RXFIFO]

theorem tx_bytes_eq (tx : Nat → Nat) (n : Nat) :
    tx_bytes tx n = (List.range n).flatMap fun k => le32 (tx (0 + k)) := by
  simp [tx_bytes]

/-- The fast path of `sunxi_aes_poll` under a causal device: what is pushed,
what is popped and where the popped words land. -/
theorem fast_path_run (fuel : Nat) (hw : Device) (ss : sunxi_ss_ctx)
    (op : sunxi_req_ctx) (ivsize nbytes : Nat) (sin sout : List Nat)
    (info : Option (List Nat)) (r : CipherRet)
    (hk : op.keylen ≤ 32) (h4 : nbytes % 4 = 0) (_hin : nbytes ≤ sin.length)
    (hout : nbytes ≤ sout.length)
    (hrun : sunxi_aes_poll fuel hw ss op ivsize
      { nbytes := nbytes, src := [⟨sin, true⟩], dst := [⟨sout, true⟩], info := info } = some r)
    (hcausal : causal 0 0 r.trace = true) :
    r.exit = Exit.returned 0 ∧
      rxWords r.trace = words_of sin (nbytes / 4) ∧
      txWords r.trace = (List.range (nbytes / 4)).map hw.tx ∧
      r.dst = [⟨tx_bytes hw.tx (nbytes / 4) ++ sout.drop nbytes, true⟩] ∧
      (nbytes = 0 → rxWords r.trace = [] ∧ txWords r.trace = []) := by
  unfold sunxi_aes_poll at hrun
  simp only [and_self, if_true, Bool.true_eq_false, if_false] at hrun
  split at hrun
  · simp at hrun
  · rename_i s e hloop
    simp only [Option.some.injEq] at hrun
    subst hrun
    simp only [] at hcausal ⊢
    have q0 := prologue_quiet op ivsize info hk [Ev.kmap true 0, Ev.kmap false 0]
      (epilogue_quiet _ (by simp))
    have q1 : ∀ x ∈ [Ev.writel 0 SS_CTL, Ev.mutex_unlock Mutex.lock, Ev.kunmap true 0,
        Ev.kunmap false 0], x.isFifo = false := epilogue_quiet _ (by simp)
    obtain ⟨a1, a2, a3⟩ := quiet_facts _ q0
    obtain ⟨b1, b2, b3⟩ := quiet_facts _ q1
    have ht : [Ev.mutex_lock Mutex.lock] ++ load_key_iv op ivsize info ++
        [Ev.writel (op.mode ||| SS_ENABLED) SS_CTL] ++ [Ev.kmap true 0, Ev.kmap false 0] ++ e ++
        [Ev.writel 0 SS_CTL, Ev.mutex_unlock Mutex.lock, Ev.kunmap true 0, Ev.kunmap false 0] =
        ([Ev.mutex_lock Mutex.lock] ++ load_key_iv op ivsize info ++
        [Ev.writel (op.mode ||| SS_ENABLED) SS_CTL] ++ [Ev.kmap true 0, Ev.kmap false 0]) ++
        (e ++ [Ev.writel 0 SS_CTL, Ev.mutex_unlock Mutex.lock, Ev.kunmap true 0,
          Ev.kunmap false 0]) := by simp
    rw [ht] at hcausal ⊢
    generalize [Ev.mutex_lock Mutex.lock] ++ load_key_iv op ivsize info ++
        [Ev.writel (op.mode ||| SS_ENABLED) SS_CTL] ++ [Ev.kmap true 0, Ev.kmap false 0] = P
        at a1 a2 a3 hcausal ⊢
    generalize [Ev.writel 0 SS_CTL, Ev.mutex_unlock Mutex.lock, Ev.kunmap true 0,
        Ev.kunmap false 0] = Q at b1 b2 b3 hcausal ⊢
    rw [a3, causal_append, Bool.and_eq_true] at hcausal
    obtain ⟨r1, r2, r3⟩ := fast_loop_spec hw sin (nbytes / 4) fuel _ s e hloop (by simp)
      (by simp) rfl (by simp) (by simp) (Or.inl rfl) hcausal.1
    simp only [] at r1 r2 r3
    have hw1 : rxWords (P ++ (e ++ Q)) = words_of sin (nbytes / 4) := by
      rw [rxWords_append, rxWords_append, a1, b1, r1]
      simp [words_of]
    have hw2 : txWords (P ++ (e ++ Q)) = (List.range (nbytes / 4)).map hw.tx := by
      rw [txWords_append, txWords_append, a2, b2, r2]
      simp
    refine ⟨trivial, hw1, hw2, ?_, ?_⟩
    · rw [r3, pop_store_eq _ _ _ _ _ (by simp; omega), tx_bytes_eq]
      have h5 : 4 * (0 + nbytes / 4) = nbytes := by omega
      rw [h5]
      simp
    · intro h0
      rw [hw1, hw2, h0]
      simp [words_of]


/-- C3 (amended): in the fast path of `sunxi_aes_poll`, for every run that
terminates and in which the device never reports more transmit words than
words pushed and not yet popped, the words written to `SS_RXFIFO` are the
`nbytes / 4` source words in source order, exactly `nbytes / 4` words are read
from `SS_TXFIFO`, and destination word `k` is the `k`-th word read. -/
theorem fast_path_in_order (fuel : Nat) (hw : Device) (ss : sunxi_ss_ctx)
    (op : sunxi_req_ctx) (ivsize nbytes : Nat) (sin sout : List Nat)
    (info : Option (List Nat)) (r : CipherRet)
    (hk : op.keylen ≤ 32) (h4 : nbytes % 4 = 0) (_hin : nbytes ≤ sin.length)
    (hout : nbytes ≤ sout.length)
    (hrun : sunxi_aes_poll fuel hw ss op ivsize
      { nbytes := nbytes, src := [⟨sin, true⟩], dst := [⟨sout, true⟩], info := info } = some r)
    (hcausal : causal 0 0 r.trace = true) :
    r.exit = Exit.returned 0 ∧
      rxWords r.trace = words_of sin (nbytes / 4) ∧
      txWords r.trace = (List.range (nbytes / 4)).map hw.tx ∧
      r.dst = [⟨tx_bytes hw.tx (nbytes / 4) ++ sout.drop nbytes, true⟩] ∧
      (nbytes = 0 → rxWords r.trace = [] ∧ txWords r.trace = []) :=
  fast_path_run fuel hw ss op ivsize nbytes sin sout info r hk h4 _hin hout hrun hcausal

/-- Counterexample to C3 as stated: 33 words, and a device that reports 33
words ready at the first read of `SS_FCSR`.  The loop terminates after
popping 33 words although only 32 source words were pushed. -/
theorem fast_path_drops_input_counterexample :
    ∃ r, sunxi_aes_poll 2 (hw_eager 33) ss_empty sunxi_cipher_init 16 req_33_words = some r ∧
      r.exit = Exit.returned 0 ∧ (txWords r.trace).length = 33 ∧
      (rxWords r.trace).length = 32 ∧
      rxWords r.trace ≠ words_of (List.replicate 132 1) (132 / 4) := by
  refine ⟨_, rfl, ?_⟩
  decide

/-- Witness of C3: two words through the fast path. -/
theorem fast_path_in_order_witness :
    ∃ r, sunxi_aes_poll 3 hw_paced ss_empty sunxi_cipher_init 16
        { nbytes := 8, src := [⟨List.range 8, true⟩], dst := [⟨List.replicate 8 0, true⟩],
          info := some (List.replicate 16 0) } = some r ∧
      causal 0 0 r.trace = true ∧
      rxWords r.trace = words_of (List.range 8) (8 / 4) ∧
      r.dst = [⟨tx_bytes hw_paced.tx (8 / 4) ++ (List.replicate 8 0).drop 8, true⟩] :=
  ⟨_, rfl, by decide,
    (fast_path_in_order 3 hw_paced ss_empty sunxi_cipher_init 16 8 (List.range 8)
      (List.replicate 8 0) (some (List.replicate 16 0)) _ (by decide) (by decide) (by decide)
      (by decide) rfl (by decide)).2.1,
    (fast_path_in_order 3 hw_paced ss_empty sunxi_cipher_init 16 8 (List.range 8)
      (List.replicate 8 0) (some (List.replicate 16 0)) _ (by decide) (by decide) (by decide)
      (by decide) rfl (by decide)).2.2.2.1⟩

/-! ## C6, C7, C8: key lengths, missing IV, error exits -/

theorem memcpy_take (dst src : List Nat) (n : Nat) (h1 : src.length = n)
    (h2 : n ≤ dst.length) : (memcpy dst src n).take n = src := by
  apply List.ext_getElem
  · simp [memcpy]; omega
  · intro i h3 h4
    simp [memcpy] at h3 ⊢
    have : i < n := by omega
    simp [this, List.getD_eq_getElem, h1]

/-- C6: each `setkey` returns `0` exactly on the documented key lengths (16,
24 or 32 for AES, 8 for DES, 24 for 3DES) and `-EINVAL` on every other
length; on success the context records the length and its first `keylen` key
bytes are the given key. -/
theorem setkey_accepts_documented_lengths (op : sunxi_req_ctx) (key : List Nat)
    (keylen : Nat) (hkey : key.length = keylen) (hop : op.key.length = 256) :
    ((sunxi_aes_setkey op key keylen).1 = 0 ↔ keylen = 16 ∨ keylen = 24 ∨ keylen = 32) ∧
    ((sunxi_aes_setkey op key keylen).1 ≠ 0 → (sunxi_aes_setkey op key keylen).1 = -EINVAL) ∧
    ((sunxi_des_setkey op key keylen).1 = 0 ↔ keylen = 8) ∧
    ((sunxi_des_setkey op key keylen).1 ≠ 0 → (sunxi_des_setkey op key keylen).1 = -EINVAL) ∧
    ((sunxi_des3_setkey op key keylen).1 = 0 ↔ keylen = 24) ∧
    ((sunxi_des3_setkey op key keylen).1 ≠ 0 → (sunxi_des3_setkey op key keylen).1 = -EINVAL) ∧
    ((sunxi_aes_setkey op key keylen).1 = 0 →
      (sunxi_aes_setkey op key keylen).2.keylen = keylen ∧
      (sunxi_aes_setkey op key keylen).2.key.take keylen = key) ∧
    ((sunxi_des_setkey op key keylen).1 = 0 →
      (sunxi_des_setkey op key keylen).2.keylen = keylen ∧
      (sunxi_des_setkey op key keylen).2.key.take keylen = key) ∧
    ((sunxi_des3_setkey op key keylen).1 = 0 →
      (sunxi_des3_setkey op key keylen).2.keylen = keylen ∧
      (sunxi_des3_setkey op key keylen).2.key.take keylen = key) := by
  have hE : (-EINVAL : Int) ≠ 0 := by decide
  refine ⟨?_, ?_, ?_, ?_, ?_, ?_, ?_, ?_, ?_⟩
  · unfold sunxi_aes_setkey
    by_cases h1 : keylen = 128 / 8
    · simp [h1]
    · by_cases h2 : keylen = 192 / 8
      · simp [h2]
      · by_cases h3 : keylen = 256 / 8
        · simp [h3]
        · simp only [h1, h2, h3, if_false]
          constructor
          · intro h; exact absurd h hE
          · intro h
            simp at h
  · unfold sunxi_aes_setkey
    split
    · simp
    · split
      · simp
      · split
        · simp
        · simp
  · unfold sunxi_des_setkey
    by_cases h : keylen = 8
    · simp [h, DES_KEY_SIZE]
    · simp [h, DES_KEY_SIZE, hE]
  · unfold sunxi_des_setkey
    split <;> simp
  · unfold sunxi_des3_setkey
    by_cases h : keylen = 24
    · simp [h, DES_KEY_SIZE]
    · simp [h, DES_KEY_SIZE, hE]
  · unfold sunxi_des3_setkey
    split <;> simp
  · have hm : keylen = 16 ∨ keylen = 24 ∨ keylen = 32 →
        (memcpy op.key key keylen).take keylen = key :=
      fun h => memcpy_take op.key key keylen hkey (by rw [hop]; omega)
    unfold sunxi_aes_setkey
    split
    · rename_i h1
      intro _; exact ⟨rfl, hm (Or.inl h1)⟩
    · split
      · rename_i h1
        intro _; exact ⟨rfl, hm (Or.inr (Or.inl h1))⟩
      · split
        · rename_i h1
          intro _; exact ⟨rfl, hm (Or.inr (Or.inr h1))⟩
        · intro h; exact absurd h hE
  · unfold sunxi_des_setkey
    split
    · intro h; exact absurd h hE
    · rename_i h1
      simp only [DES_KEY_SIZE, ne_eq, Decidable.not_not] at h1
      intro _; exact ⟨rfl, memcpy_take op.key key keylen hkey (by rw [hop]; omega)⟩
  · unfold sunxi_des3_setkey
    split
    · intro h; exact absurd h hE
    · rename_i h1
      simp only [DES_KEY_SIZE, ne_eq, Decidable.not_not] at h1
      intro _; exact ⟨rfl, memcpy_take op.key key keylen hkey (by rw [hop]; omega)⟩

/-- Witness of C6: a 16-byte key on a fresh context. -/
theorem setkey_accepts_documented_lengths_witness :
    (List.range 16).length = 16 ∧ sunxi_cipher_init.key.length = 256 ∧
      ((sunxi_aes_setkey sunxi_cipher_init (List.range 16) 16).1 = 0 ↔
        16 = 16 ∨ 16 = 24 ∨ 16 = 32) ∧
      ((sunxi_des_setkey sunxi_cipher_init (List.range 16) 16).1 = 0 ↔ 16 = 8) :=
  ⟨List.length_range 16, List.length_replicate 256 0,
    (setkey_accepts_documented_lengths sunxi_cipher_init (List.range 16) 16
      (List.length_range 16) (List.length_replicate 256 0)).1,
    (setkey_accepts_documented_lengths sunxi_cipher_init (List.range 16) 16
      (List.length_range 16) (List.length_replicate 256 0)).2.2.1⟩

/-- C7: each of the six CBC entry points, given a request without IV,
returns `-EINVAL` having performed no event at all (no register access, no
mutex operation) and leaves the context, its mode word included, the staging
buffers and the destination as they were. -/
theorem cbc_without_iv_is_rejected (fuel : Nat) (hw : Device) (ss : sunxi_ss_ctx)
    (op : sunxi_req_ctx) (ivsize : Nat) (areq : ablkcipher_request)
    (hiv : areq.info = none) :
    ∀ f ∈ [sunxi_aes_cbc_encrypt, sunxi_aes_cbc_decrypt, sunxi_des_cbc_encrypt,
        sunxi_des_cbc_decrypt, sunxi_des3_cbc_encrypt, sunxi_des3_cbc_decrypt],
      ∃ r, f fuel hw ss op ivsize areq = some r ∧ r.exit = Exit.returned (-EINVAL) ∧
        r.trace = [] ∧ r.op = op ∧ r.op.mode = op.mode ∧ r.ss = ss ∧ r.dst = areq.dst := by
  intro f hf
  simp only [List.mem_cons, List.mem_singleton, List.not_mem_nil, or_false] at hf
  rcases hf with h | h | h | h | h | h <;> subst h
  · exact ⟨empty_iv ss op areq, by simp [sunxi_aes_cbc_encrypt, hiv], rfl, rfl, rfl, rfl, rfl, rfl⟩
  · exact ⟨empty_iv ss op areq, by simp [sunxi_aes_cbc_decrypt, hiv], rfl, rfl, rfl, rfl, rfl, rfl⟩
  · exact ⟨empty_iv ss op areq, by simp [sunxi_des_cbc_encrypt, hiv], rfl, rfl, rfl, rfl, rfl, rfl⟩
  · exact ⟨empty_iv ss op areq, by simp [sunxi_des_cbc_decrypt, hiv], rfl, rfl, rfl, rfl, rfl, rfl⟩
  · exact ⟨empty_iv ss op areq, by simp [sunxi_des3_cbc_encrypt, hiv], rfl, rfl, rfl, rfl, rfl, rfl⟩
  · exact ⟨empty_iv ss op areq, by simp [sunxi_des3_cbc_decrypt, hiv], rfl, rfl, rfl, rfl, rfl, rfl⟩

/-- Witness of C7: the 33-word request with its IV removed. -/
theorem cbc_without_iv_is_rejected_witness :
    ({ req_33_words with info := none } : ablkcipher_request).info = none ∧
      ∃ r, sunxi_des3_cbc_decrypt 0 hw_paced ss_empty sunxi_cipher_init 8
          { req_33_words with info := none } = some r ∧
        r.exit = Exit.returned (-EINVAL) ∧ r.trace = [] ∧ r.op = sunxi_cipher_init ∧
        r.op.mode = sunxi_cipher_init.mode ∧ r.ss = ss_empty ∧
        r.dst = ({ req_33_words with info := none } : ablkcipher_request).dst :=
  ⟨rfl, cbc_without_iv_is_rejected 0 hw_paced ss_empty sunxi_cipher_init 8
    { req_33_words with info := none } rfl sunxi_des3_cbc_decrypt (by simp)⟩

/-- C8: a two-entry request whose first source entry cannot be mapped.
`sunxi_aes_poll` has written the enable word to `SS_CTL`, then returns `-1`
from the segmented path: the last write to `SS_CTL` is the enable word, not
`0`, and `ss->lock` is still held. -/
theorem segmented_map_failure_leaves_engine_enabled :
    ∃ r, sunxi_aes_poll 4 hw_paced ss_empty sunxi_cipher_init 16 req_unmapped = some r ∧
      r.exit = Exit.returned (-1) ∧
      (writesTo SS_CTL r.trace).getLast? = some (sunxi_cipher_init.mode ||| SS_ENABLED) ∧
      sunxi_cipher_init.mode ||| SS_ENABLED ≠ 0 ∧
      heldAfter Mutex.lock r.trace := by
  refine ⟨_, rfl, ?_⟩
  decide


/-! ## C5: the linearization path -/

theorem des_push_eq (buf_in : List Nat) (n : Nat) :
    ∀ (fuel : Nat) (s : DesState) (w : Nat), s.ir = 4 * w → w < n → 0 < s.rx_cnt →
      s.rx_cnt ≤ fuel →
      des_push buf_in (4 * n) fuel s =
        ({ s with ir := 4 * (w + min s.rx_cnt (n - w)),
                  rx_cnt := s.rx_cnt - min s.rx_cnt (n - w) },
          push_words buf_in w (min s.rx_cnt (n - w))) := by
  intro fuel
  induction fuel with
  | zero => intro s w _ _ h1 h2; omega
  | succ f ih =>
    intro s w h1 h2 h3 h4
    unfold des_push
    simp only []
    by_cases hc : s.rx_cnt - 1 > 0 ∧ s.ir + 4 < 4 * n
    · rw [if_pos hc]
      rw [ih { s with ir := s.ir + 4, rx_cnt := s.rx_cnt - 1 } (w + 1) (by simp only []; omega)
        (by omega) hc.1 (by simp only []; omega)]
      simp only []
      have hm : min s.rx_cnt (n - w) = min (s.rx_cnt - 1) (n - (w + 1)) + 1 := by omega
      rw [hm]
      refine Prod.ext ?_ ?_
      · simp only []
        congr 1
        · omega
        · omega
      · simp only [push_words]
        rw [range_succ_map]
        simp only [h1, Nat.add_zero, Nat.add_assoc, Nat.add_comm 1]
    · rw [if_neg hc]
      have hm : min s.rx_cnt (n - w) = 1 := by omega
      rw [hm]
      refine Prod.ext ?_ ?_
      · simp only []
        congr 1
        omega
      · simp only [push_words, h1]
        rfl

theorem des_pop_eq (hw : Device) (n : Nat) :
    ∀ (fuel : Nat) (s : DesState) (d : Nat), s.it = 4 * d → d < n → 0 < s.tx_cnt →
      s.tx_cnt ≤ fuel →
      des_pop hw (4 * n) fuel s =
        ({ s with it := 4 * (d + min s.tx_cnt (n - d)),
                  tx_cnt := s.tx_cnt - min s.tx_cnt (n - d),
                  nt := s.nt + min s.tx_cnt (n - d),
                  buf_out := pop_store hw.tx (min s.tx_cnt (n - d)) s.nt d s.buf_out },
          pop_events hw.tx s.nt (min s.tx_cnt (n - d))) := by
  intro fuel
  induction fuel with
  | zero => intro s d _ _ h1 h2; omega
  | succ f ih =>
    intro s d h1 h2 h3 h4
    unfold des_pop
    simp only []
    by_cases hc : s.tx_cnt - 1 > 0 ∧ s.it + 4 < 4 * n
    · rw [if_pos hc]
      rw [ih { s with buf_out := store32 s.buf_out s.it (hw.tx s.nt), it := s.it + 4,
                      tx_cnt := s.tx_cnt - 1, nt := s.nt + 1 } (d + 1)
        (by simp only []; omega) (by omega) hc.1 (by simp only []; omega)]
      simp only []
      have hm : min s.tx_cnt (n - d) = min (s.tx_cnt - 1) (n - (d + 1)) + 1 := by omega
      rw [hm]
      refine Prod.ext ?_ ?_
      · simp only []
        congr 1
        · omega
        · omega
        · omega
        · rw [pop_store, h1]
      · simp only [pop_events]
        rw [range_succ_map]
        simp only [Nat.add_zero, Nat.add_assoc, Nat.add_comm 1]
    · rw [if_neg hc]
      have hm : min s.tx_cnt (n - d) = 1 := by omega
      rw [hm]
      refine Prod.ext ?_ ?_
      · simp only []
        congr 1
        · omega
        · simp [pop_store, h1]
      · simp only [pop_events]
        rfl

theorem des_push_step (buf_in : List Nat) (n : Nat) (s : DesState) (W : Nat)
    (hir : (s.ir = 4 * W ∧ W ≤ n) ∨ (s.ir = 4 * n + 1 ∧ W = n)) :
    ∃ a, (if s.rx_cnt > 0 ∧ s.ir < 4 * n then des_push buf_in (4 * n) s.rx_cnt s
        else (s, [])) =
        ({ s with ir := s.ir + 4 * a, rx_cnt := s.rx_cnt - a }, push_words buf_in W a) ∧
      W + a ≤ n := by
  by_cases hc : s.rx_cnt > 0 ∧ s.ir < 4 * n
  · rw [if_pos hc]
    have h1 : s.ir = 4 * W := by omega
    have h2 : W < n := by omega
    refine ⟨min s.rx_cnt (n - W), ?_, by omega⟩
    rw [des_push_eq buf_in n s.rx_cnt s W h1 h2 hc.1 (Nat.le_refl _)]
    refine Prod.ext ?_ rfl
    simp only []
    congr 1
    omega
  · rw [if_neg hc]
    refine ⟨0, ?_, by omega⟩
    simp [push_words]

theorem des_pop_step (hw : Device) (n : Nat) (s : DesState) (R : Nat)
    (hit : s.it = 4 * R) (hR : R ≤ n) :
    ∃ b, (if s.tx_cnt > 0 ∧ s.it < 4 * n then des_pop hw (4 * n) s.tx_cnt s
        else (s, [])) =
        ({ s with it := 4 * (R + b), tx_cnt := s.tx_cnt - b, nt := s.nt + b,
                  buf_out := pop_store hw.tx b s.nt R s.buf_out },
          pop_events hw.tx s.nt b) ∧
      R + b ≤ n ∧ b ≤ s.tx_cnt := by
  by_cases hc : s.tx_cnt > 0 ∧ s.it < 4 * n
  · rw [if_pos hc]
    have h2 : R < n := by omega
    refine ⟨min s.tx_cnt (n - R), ?_, by omega, by omega⟩
    rw [des_pop_eq hw n s.tx_cnt s R hit h2 hc.1 (Nat.le_refl _)]
  · rw [if_neg hc]
    refine ⟨0, ?_, by omega, by omega⟩
    simp only [pop_events, pop_store, List.range_zero, List.map_nil, Nat.add_zero, Nat.sub_zero,
      ← hit]

theorem des_iter_spec (hw : Device) (buf_in : List Nat) (n : Nat) (s : DesState) (W R : Nat)
    (hir : (s.ir = 4 * W ∧ W ≤ n) ∨ (s.ir = 4 * n + 1 ∧ W = n))
    (hit : s.it = 4 * R) (hR : R ≤ n) :
    ∃ a b e0 e3 tx0,
      (des_iter hw buf_in (4 * n) s).2 =
        e0 ++ push_words buf_in W a ++ pop_events hw.tx s.nt b ++ e3 ∧
      ((e0 = [] ∧ tx0 = s.tx_cnt) ∨
        (e0 = [Ev.readl SS_FCSR (hw.fcsr s.nf)] ∧
          tx0 = SS_TXFIFO_SPACES (hw.fcsr s.nf))) ∧
      (e3 = [] ∨ e3 = [Ev.mutex_unlock Mutex.bufin_lock]) ∧
      W + a ≤ n ∧ R + b ≤ n ∧ b ≤ tx0 ∧
      (((des_iter hw buf_in (4 * n) s).1.ir = 4 * (W + a) ∧ W + a < n) ∨
        ((des_iter hw buf_in (4 * n) s).1.ir = 4 * n + 1 ∧ W + a = n)) ∧
      (des_iter hw buf_in (4 * n) s).1.it = 4 * (R + b) ∧
      (des_iter hw buf_in (4 * n) s).1.nt = s.nt + b ∧
      (des_iter hw buf_in (4 * n) s).1.tx_cnt = tx0 - b ∧
      (des_iter hw buf_in (4 * n) s).1.buf_out = pop_store hw.tx b s.nt R s.buf_out := by
  unfold des_iter
  by_cases hf : s.rx_cnt = 0 ∨ s.tx_cnt = 0
  · rw [if_pos hf]
    simp only []
    obtain ⟨a, ha, ha2⟩ := des_push_step buf_in n
      { s with rx_cnt := SS_RXFIFO_SPACES (hw.fcsr s.nf),
               tx_cnt := SS_TXFIFO_SPACES (hw.fcsr s.nf), nf := s.nf + 1 } W hir
    simp only [] at ha
    rw [ha]
    simp only []
    obtain ⟨b, hb, hb2, hb3⟩ := des_pop_step hw n
      { rx_cnt := SS_RXFIFO_SPACES (hw.fcsr s.nf) - a,
        tx_cnt := SS_TXFIFO_SPACES (hw.fcsr s.nf), ir := s.ir + 4 * a, it := s.it,
        nf := s.nf + 1, nt := s.nt, buf_out := s.buf_out } R hit hR
    simp only [] at hb hb3
    rw [hb]
    simp only []
    by_cases he : s.ir + 4 * a = 4 * n
    · rw [if_pos he]
      exact ⟨a, b, _, _, _, rfl, Or.inr ⟨rfl, rfl⟩, Or.inr rfl, ha2, hb2, hb3,
        Or.inr ⟨by simp only []; omega, by omega⟩, rfl, rfl, rfl, rfl⟩
    · rw [if_neg he]
      refine ⟨a, b, _, [], _, by simp, Or.inr ⟨rfl, rfl⟩, Or.inl rfl, ha2, hb2, hb3,
        ?_, rfl, rfl, rfl, rfl⟩
      simp only []
      omega
  · rw [if_neg hf]
    simp only []
    obtain ⟨a, ha, ha2⟩ := des_push_step buf_in n s W hir
    rw [ha]
    simp only []
    obtain ⟨b, hb, hb2, hb3⟩ := des_pop_step hw n
      { s with ir := s.ir + 4 * a, rx_cnt := s.rx_cnt - a } R hit hR
    simp only [] at hb hb3
    rw [hb]
    simp only []
    by_cases he : s.ir + 4 * a = 4 * n
    · rw [if_pos he]
      exact ⟨a, b, [], _, _, by simp, Or.inl ⟨rfl, rfl⟩, Or.inr rfl, ha2, hb2, hb3,
        Or.inr ⟨by simp only []; omega, by omega⟩, rfl, rfl, rfl, rfl⟩
    · rw [if_neg he]
      refine ⟨a, b, [], [], _, by simp, Or.inl ⟨rfl, rfl⟩, Or.inl rfl, ha2, hb2, hb3,
        ?_, rfl, rfl, rfl, rfl⟩
      simp only []
      omega

theorem des_turn_events (mem : List Nat) (tx : Nat → Nat) (si nt a b v W R : Nat)
    (e0 e3 rest : List Ev)
    (h0 : e0 = [] ∨ e0 = [Ev.readl SS_FCSR v])
    (h3 : e3 = [] ∨ e3 = [Ev.mutex_unlock Mutex.bufin_lock])
    (hc : causal W R (e0 ++ push_words mem si a ++ pop_events tx nt b ++ e3 ++ rest) = true) :
    (e0 = [Ev.readl SS_FCSR v] → SS_TXFIFO_SPACES v ≤ W - R) ∧
      causal (W + a) (R + b) rest = true ∧
      rxWords (e0 ++ push_words mem si a ++ pop_events tx nt b ++ e3 ++ rest) =
        ((List.range a).map fun k => load32 mem (4 * (si + k))) ++ rxWords rest ∧
      txWords (e0 ++ push_words mem si a ++ pop_events tx nt b ++ e3 ++ rest) =
        ((List.range b).map fun k => tx (nt + k)) ++ txWords rest := by
  have hne : ¬ SS_FCSR = SS_TXFIFO := by decide
  have q3 : rxWords e3 = [] ∧ txWords e3 = [] ∧ ∀ w r x, causal w r (e3 ++ x) = causal w r x := by
    rcases h3 with h | h <;> subst h <;>
      exact ⟨rfl, rfl, fun w r x => by simp [causal]⟩
  have r0 : rxWords e0 = [] ∧ txWords e0 = [] := by
    rcases h0 with h | h <;> subst h
    · exact ⟨rfl, rfl⟩
    · constructor
      · simp [rxWords, writesTo]
      · simp [txWords, readsFrom, hne]
  have hr : rxWords (e0 ++ push_words mem si a ++ pop_events tx nt b ++ e3 ++ rest) =
      ((List.range a).map fun k => load32 mem (4 * (si + k))) ++ rxWords rest := by
    simp only [rxWords_append, r0.1, q3.1, rxWords_push, rxWords_pop, List.nil_append,
      List.append_nil]
  have ht : txWords (e0 ++ push_words mem si a ++ pop_events tx nt b ++ e3 ++ rest) =
      ((List.range b).map fun k => tx (nt + k)) ++ txWords rest := by
    simp only [txWords_append, r0.2, q3.2.1, txWords_push, txWords_pop, List.nil_append,
      List.append_nil]
  have hmid : ∀ w r, causal w r (push_words mem si a ++ pop_events tx nt b ++ e3 ++ rest) =
      causal (w + a) (r + b) rest := by
    intro w r
    rw [List.append_assoc, List.append_assoc, causal_append, causal_push, rxWords_push,
      txWords_push, causal_append, causal_pop, rxWords_pop, txWords_pop, q3.2.2]
    simp
  rcases h0 with h | h <;> subst h
  · simp only [List.nil_append] at hc
    rw [hmid] at hc
    exact ⟨fun h => by simp at h, hc, hr, ht⟩
  · have e : [Ev.readl SS_FCSR v] ++ push_words mem si a ++ pop_events tx nt b ++ e3 ++ rest =
        [Ev.readl SS_FCSR v] ++ (push_words mem si a ++ pop_events tx nt b ++ e3 ++ rest) := by
      simp
    rw [e, causal_append, r0.1, r0.2, hmid] at hc
    simp only [causal, hne, if_false, if_true, Bool.and_eq_true, decide_eq_true_eq,
      List.length_nil, Nat.add_zero, Bool.and_true] at hc
    exact ⟨fun _ => hc.1, hc.2, hr, ht⟩

theorem des_loop_spec (hw : Device) (buf_in : List Nat) (n : Nat) :
    ∀ (fuel : Nat) (s s' : DesState) (e : List Ev) (W R : Nat),
      des_loop hw buf_in (4 * n) fuel s = some (s', e) →
      ((s.ir = 4 * W ∧ W ≤ n) ∨ (s.ir = 4 * n + 1 ∧ W = n)) → s.it = 4 * R → R ≤ n →
      s.nt = R → R ≤ W → s.tx_cnt ≤ W - R → causal W R e = true →
      rxWords e = ((List.range (n - W)).map fun k => load32 buf_in (4 * (W + k))) ∧
      txWords e = ((List.range (n - R)).map fun k => hw.tx (R + k)) ∧
      s'.buf_out = pop_store hw.tx (n - R) R R s.buf_out := by
  intro fuel
  induction fuel with
  | zero =>
    intro s s' e W R h
    simp [des_loop] at h
  | succ fuel ih =>
    intro s s' e W R h hir hit hR hnt hRW htx hc
    obtain ⟨a, b, e0, e3, tx0, p1, p2, p3, p4, p5, p6, p7, p8, p9, p10, p11⟩ :=
      des_iter_spec hw buf_in n s W R hir hit hR
    have h0 : e0 = [] ∨ e0 = [Ev.readl SS_FCSR (hw.fcsr s.nf)] := by
      rcases p2 with h | h
      · exact Or.inl h.1
      · exact Or.inr h.1
    unfold des_loop at h
    rcases hd : des_iter hw buf_in (4 * n) s with ⟨s1, e1⟩
    rw [hd] at h p1 p7 p8 p9 p10 p11
    simp only [] at h p1 p7 p8 p9 p10 p11
    rw [hnt] at p1 p9 p11
    by_cases hol : s1.it < 4 * n
    · rw [if_pos hol] at h
      split at h
      · simp at h
      · rename_i s2 e2 hrec
        simp only [Option.some.injEq, Prod.mk.injEq] at h
        obtain ⟨hs, he⟩ := h
        subst hs
        rw [← he, p1] at hc ⊢
        obtain ⟨c1, c2, c3, c4⟩ := des_turn_events buf_in hw.tx W R a b (hw.fcsr s.nf) W R
          e0 e3 e2 h0 p3 hc
        have htx0 : tx0 ≤ W - R := by
          rcases p2 with h | h
          · rw [h.2]; exact htx
          · rw [h.2]; exact c1 h.1
        obtain ⟨r1, r2, r3⟩ := ih s1 s2 e2 (W + a) (R + b) hrec
          (by rcases p7 with h | h
              · exact Or.inl ⟨h.1, by omega⟩
              · exact Or.inr ⟨h.1, by omega⟩)
          p8 p5 p9 (by omega) (by omega) c2
        refine ⟨?_, ?_, ?_⟩
        · rw [c3, r1, range_map_split _ a (n - W) (by omega)]
          simp [Nat.add_assoc, Nat.sub_sub]
        · rw [c4, r2, range_map_split _ b (n - R) (by omega)]
          simp [Nat.add_assoc, Nat.sub_sub]
        · rw [r3, p11, pop_store_add]
          congr 1
          omega
    · rw [if_neg hol] at h
      simp only [Option.some.injEq, Prod.mk.injEq] at h
      obtain ⟨hs, he⟩ := h
      subst hs
      rw [← he, p1, ← List.append_nil (_ ++ e3)] at hc ⊢
      obtain ⟨c1, c2, c3, c4⟩ := des_turn_events buf_in hw.tx W R a b (hw.fcsr s.nf) W R
        e0 e3 [] h0 p3 hc
      have htx0 : tx0 ≤ W - R := by
        rcases p2 with h | h
        · rw [h.2]; exact htx
        · rw [h.2]; exact c1 h.1
      have hb : b = n - R := by omega
      have ha : a = n - W := by omega
      refine ⟨?_, ?_, ?_⟩
      · rw [c3, ha]
        simp [rxWords, writesTo]
      · rw [c4, hb]
        simp [txWords, readsFrom]
      · rw [p11, hb]

theorem load32_append_left (a b : List Nat) (off : Nat) (h : off + 4 ≤ a.length) :
    load32 (a ++ b) off = load32 a off := by
  simp only [load32]
  rw [List.getD_append _ _ _ _ (by omega), List.getD_append _ _ _ _ (by omega),
    List.getD_append _ _ _ _ (by omega), List.getD_append _ _ _ _ (by omega)]

theorem words_of_append_left (a b : List Nat) (n : Nat) (h : 4 * n ≤ a.length) :
    ((List.range n).map fun k => load32 (a ++ b) (4 * (0 + k))) = words_of a n := by
  unfold words_of
  apply List.map_congr_left
  intro k hk
  have := List.mem_range.1 hk
  rw [Nat.zero_add, load32_append_left _ _ _ (by omega)]

theorem copy_into_eq (buf d : List Nat) (h : d.length ≤ buf.length) :
    copy_into buf d = d ++ buf.drop d.length := by
  unfold copy_into
  rw [List.take_of_length_le h]

theorem scatter_flatten :
    ∀ (dst : List Sg) (b : List Nat), b.length = ((dst.map Sg.data).flatten).length →
      ((scatter dst b).map Sg.data).flatten = b := by
  intro dst
  induction dst with
  | nil =>
    intro b h
    simp at h
    simp [scatter, h]
  | cons sg rest ih =>
    intro b h
    simp only [List.map_cons, List.flatten_cons, List.length_append] at h
    simp only [scatter, List.map_cons, List.flatten_cons]
    rw [ih (b.drop sg.data.length) (by rw [List.length_drop]; omega), copy_into_eq _ _ (by simp)]
    simp only [List.length_take, List.append_assoc]
    have : min sg.data.length b.length = sg.data.length := by omega
    rw [this, List.drop_length, List.nil_append, List.take_append_drop]

theorem stage_in_length (hw : Device) (ss : sunxi_ss_ctx) (nbytes : Nat) (hs : staged ss)
    (b : List Nat) (h : (stage_in hw ss nbytes).1.buf_in = some b) :
    nbytes ≤ b.length ∧
      (stage_in hw ss nbytes).1.buf_out = ss.buf_out ∧
      (stage_in hw ss nbytes).1.buf_out_size = ss.buf_out_size := by
  have hal : ∀ k, kmalloc hw k nbytes = some b → nbytes ≤ b.length := by
    intro k hk
    unfold kmalloc at hk
    split at hk
    · simp only [Option.some.injEq] at hk
      rw [← hk]; simp
    · simp at hk
  unfold stage_in at h ⊢
  cases hb : ss.buf_in with
  | none =>
    rw [hb] at h
    simp only [] at h ⊢
    refine ⟨hal 0 h, ?_, ?_⟩ <;> first | rfl | trivial
  | some b0 =>
    rw [hb] at h
    simp only [] at h ⊢
    split at h
    · rw [if_pos (by assumption)]
      exact ⟨hal 0 h, rfl, rfl⟩
    · rename_i hg
      rw [if_neg hg]
      rw [hb] at h
      simp only [Option.some.injEq] at h
      subst h
      have := hs.1 b0 hb
      refine ⟨by omega, ?_, ?_⟩ <;> rfl

theorem stage_out_length (hw : Device) (ss : sunxi_ss_ctx) (nbytes k : Nat)
    (hs : ∀ b, ss.buf_out = some b → b.length = ss.buf_out_size)
    (h : (stage_out hw ss nbytes k).2.2 = false) :
    (∃ b, (stage_out hw ss nbytes k).1.buf_out = some b ∧ nbytes ≤ b.length) ∧
      (∀ e ∈ (stage_out hw ss nbytes k).2.1, e.isFifo = false) := by
  have hal : ∀ b, kmalloc hw k nbytes = some b → nbytes ≤ b.length := by
    intro b hk
    unfold kmalloc at hk
    split at hk
    · simp only [Option.some.injEq] at hk
      rw [← hk]; simp
    · simp at hk
  have hq : ∀ e ∈ [Ev.mutex_lock Mutex.bufout_lock, Ev.mutex_unlock Mutex.bufout_lock],
      e.isFifo = false := by
    intro e he
    simp only [List.mem_cons, List.mem_singleton, List.not_mem_nil, or_false] at he
    rcases he with h | h <;> rw [h] <;> rfl
  unfold stage_out at h ⊢
  cases hb : ss.buf_out with
  | none =>
    rw [hb] at h
    simp only [] at h ⊢
    cases hk : kmalloc hw k nbytes with
    | none => rw [hk] at h; simp at h
    | some b => exact ⟨⟨b, rfl, hal b hk⟩, hq⟩
  | some b0 =>
    rw [hb] at h
    simp only [] at h ⊢
    by_cases hg : nbytes > ss.buf_out_size
    · rw [if_pos hg] at h ⊢
      cases hk : kmalloc hw k nbytes with
      | none => rw [hk] at h; simp at h
      | some b => exact ⟨⟨b, rfl, hal b hk⟩, hq⟩
    · rw [if_neg hg]
      have := hs b0 hb
      exact ⟨⟨b0, hb, by omega⟩, by simp⟩

theorem length_tx_bytes (tx : Nat → Nat) (n : Nat) : (tx_bytes tx n).length = 4 * n := by
  unfold tx_bytes
  induction n with
  | zero => rfl
  | succ k ih =>
    rw [List.range_succ, List.flatMap_append, List.length_append, ih]
    simp [length_le32]
    omega

/-- The linearization path of `sunxi_des_poll` under a causal device: what is
pushed and what the destination entries hold afterwards. -/
theorem des_path_run (fuel : Nat) (hw : Device) (ss : sunxi_ss_ctx) (op : sunxi_req_ctx)
    (ivsize : Nat) (areq : ablkcipher_request) (r : CipherRet)
    (hk : op.keylen ≤ 32) (hss : staged ss) (hchunk : no_chunk areq = false)
    (h4 : areq.nbytes % 4 = 0)
    (hsrc : ((areq.src.map Sg.data).flatten).length = areq.nbytes)
    (hdst : ((areq.dst.map Sg.data).flatten).length = areq.nbytes)
    (hrun : sunxi_des_poll fuel hw ss op ivsize areq = some r)
    (hok : r.exit = Exit.returned 0) (hcausal : causal 0 0 r.trace = true) :
    rxWords r.trace = words_of ((areq.src.map Sg.data).flatten) (areq.nbytes / 4) ∧
      txWords r.trace = (List.range (areq.nbytes / 4)).map hw.tx ∧
      (r.dst.map Sg.data).flatten = tx_bytes hw.tx (areq.nbytes / 4) := by
  have hE : (-ENOMEM : Int) ≠ 0 := by decide
  have hn : areq.nbytes = 4 * (areq.nbytes / 4) := by omega
  unfold sunxi_des_poll at hrun
  rw [if_neg (by rw [hchunk]; simp)] at hrun
  rcases hsi : stage_in hw ss areq.nbytes with ⟨ss1, k⟩
  rw [hsi] at hrun
  simp only [] at hrun
  cases hbi : ss1.buf_in with
  | none =>
    rw [hbi] at hrun
    simp only [Option.some.injEq] at hrun
    rw [← hrun] at hok
    simp only [Exit.returned.injEq] at hok
    exact absurd hok hE
  | some buf_in =>
    rw [hbi] at hrun
    simp only [] at hrun
    have hsi1 : (stage_in hw ss areq.nbytes).1 = ss1 := by rw [hsi]
    obtain ⟨l1, l2, l3⟩ := stage_in_length hw ss areq.nbytes hss buf_in (by rw [hsi1, hbi])
    rw [hsi1] at l2 l3
    rcases hso : stage_out hw ss1 areq.nbytes k with ⟨ss2, e_out, failed⟩
    rw [hso] at hrun
    simp only [] at hrun
    cases failed with
    | true =>
      simp only [if_true, Option.some.injEq] at hrun
      rw [← hrun] at hok
      simp only [Exit.returned.injEq] at hok
      exact absurd hok hE
    | false =>
      simp only [Bool.false_eq_true, if_false] at hrun
      obtain ⟨⟨bo, o1, o2⟩, o3⟩ := stage_out_length hw ss1 areq.nbytes k
        (by rw [l2, l3]; exact hss.2) (by rw [hso])
      rw [hso] at o1 o3
      simp only [] at o1 o3
      split at hrun
      · simp at hrun
      · rename_i s e hloop
        simp only [Option.some.injEq] at hrun
        subst hrun
        simp only [] at hcausal ⊢
        rw [o1] at hloop
        simp only [Option.getD_some] at hloop
        have q0 : ∀ x ∈ [Ev.mutex_lock Mutex.bufin_lock] ++ e_out ++ [Ev.mutex_lock Mutex.lock] ++
            load_key_iv op ivsize areq.info ++ [Ev.writel (op.mode ||| SS_ENABLED) SS_CTL],
            x.isFifo = false := by
          intro x hx
          simp only [List.mem_append, List.mem_singleton] at hx
          rcases hx with (((h | h) | h) | h) | h
          · rw [h]; rfl
          · exact o3 x h
          · rw [h]; rfl
          · exact load_key_iv_quiet op ivsize areq.info hk x h
          · rw [h]; simp [Ev.isFifo, SS_CTL, SS_RXFIFO]
        have q1 : ∀ x ∈ [Ev.writel 0 SS_CTL, Ev.mutex_unlock Mutex.lock,
            Ev.mutex_lock Mutex.bufout_lock, Ev.mutex_unlock Mutex.bufout_lock],
            x.isFifo = false := by
          intro x hx
          simp only [List.mem_cons, List.mem_singleton, List.not_mem_nil, or_false] at hx
          rcases hx with h | h | h | h <;> rw [h] <;> simp [Ev.isFifo, SS_CTL, SS_RXFIFO]
        obtain ⟨a1, a2, a3⟩ := quiet_facts _ q0
        obtain ⟨b1, b2, _⟩ := quiet_facts _ q1
        generalize [Ev.mutex_lock Mutex.bufin_lock] ++ e_out ++ [Ev.mutex_lock Mutex.lock] ++
            load_key_iv op ivsize areq.info ++ [Ev.writel (op.mode ||| SS_ENABLED) SS_CTL] = P
            at a1 a2 a3 hcausal ⊢
        generalize [Ev.writel 0 SS_CTL, Ev.mutex_unlock Mutex.lock,
            Ev.mutex_lock Mutex.bufout_lock, Ev.mutex_unlock Mutex.bufout_lock] = Q
            at b1 b2 hcausal ⊢
        rw [List.append_assoc, a3, causal_append, Bool.and_eq_true] at hcausal
        rw [hn] at hloop
        obtain ⟨r1, r2, r3⟩ := des_loop_spec hw _ (areq.nbytes / 4) fuel _ s e 0 0 hloop
          (Or.inl ⟨rfl, by omega⟩) rfl (by omega) rfl (by omega) (by simp) hcausal.1
        simp only [Nat.sub_zero] at r1 r2 r3
        have hflat : ((areq.src.map Sg.data).flatten).take areq.nbytes =
            (areq.src.map Sg.data).flatten := List.take_of_length_le (by omega)
        refine ⟨?_, ?_, ?_⟩
        · rw [rxWords_append, rxWords_append, a1, b1, r1, List.nil_append, List.append_nil]
          unfold sg_copy_to_buffer
          rw [← hn, hflat, copy_into_eq _ _ (by omega)]
          exact words_of_append_left _ _ _ (by omega)
        · rw [txWords_append, txWords_append, a2, b2, r2]
          simp
        · unfold sg_copy_from_buffer
          rw [r3, pop_store_eq _ _ _ _ _ (by simp; omega)]
          have h5 : 4 * (0 + areq.nbytes / 4) = areq.nbytes := by omega
          have h6 : (tx_bytes hw.tx (areq.nbytes / 4)).length = areq.nbytes := by
            rw [length_tx_bytes]
            omega
          rw [h5, ← tx_bytes_eq]
          have h7 : List.take (4 * 0) bo = [] := by simp
          rw [h7, List.nil_append]
          rw [List.take_append_of_le_length (by omega), List.take_of_length_le (by omega)]
          exact scatter_flatten _ _ (by omega)


theorem staged_empty : staged ss_empty :=
  ⟨fun b h => by simp [ss_empty] at h, fun b h => by simp [ss_empty] at h⟩

/-- C5 (amended): for the same input bytes with `nbytes` a multiple of 4, and
for runs that terminate under a device that never reports more transmit words
than words pushed and not yet popped, the linearization path of
`sunxi_des_poll` pushes into `SS_RXFIFO` the same words as the fast path of
`sunxi_aes_poll`, and both leave the `k`-th word popped from `SS_TXFIFO` at
byte offset `4 * k` of the destination stream. -/
theorem linearization_matches_fast_path (fuel fuel' : Nat) (hw hw' : Device)
    (ss ss' : sunxi_ss_ctx) (op : sunxi_req_ctx) (ivsize : Nat) (areq : ablkcipher_request)
    (r r' : CipherRet)
    (hk : op.keylen ≤ 32) (hss : staged ss) (hchunk : no_chunk areq = false)
    (h4 : areq.nbytes % 4 = 0)
    (hsrc : ((areq.src.map Sg.data).flatten).length = areq.nbytes)
    (hdst : ((areq.dst.map Sg.data).flatten).length = areq.nbytes)
    (hrun : sunxi_des_poll fuel hw ss op ivsize areq = some r)
    (hok : r.exit = Exit.returned 0) (hcausal : causal 0 0 r.trace = true)
    (hrun' : sunxi_aes_poll fuel' hw' ss' op ivsize
      { nbytes := areq.nbytes, src := [⟨(areq.src.map Sg.data).flatten, true⟩],
        dst := [⟨(areq.dst.map Sg.data).flatten, true⟩], info := areq.info } = some r')
    (hcausal' : causal 0 0 r'.trace = true) (htx : hw'.tx = hw.tx) :
    rxWords r.trace = rxWords r'.trace ∧
      (r.dst.map Sg.data).flatten = (r'.dst.map Sg.data).flatten ∧
      rxWords r.trace = words_of ((areq.src.map Sg.data).flatten) (areq.nbytes / 4) ∧
      (r.dst.map Sg.data).flatten = tx_bytes hw.tx (areq.nbytes / 4) := by
  obtain ⟨a1, _, a3⟩ := des_path_run fuel hw ss op ivsize areq r hk hss hchunk h4 hsrc hdst
    hrun hok hcausal
  obtain ⟨_, b1, _, b3, _⟩ := fast_path_run fuel' hw' ss' op ivsize areq.nbytes _ _ areq.info
    r' hk h4 (by omega) (by omega) hrun' hcausal'
  refine ⟨by rw [a1, b1], ?_, a1, a3⟩
  rw [a3, b3, htx]
  simp only [List.map_cons, List.map_nil, List.flatten_cons, List.flatten_nil, List.append_nil]
  rw [List.drop_of_length_le (by omega), List.append_nil]

/-- Counterexample to C5 as stated: a device that reports two words ready at
every read of `SS_FCSR`.  Both loops terminate; the linearization pump pushes
no word at all while the fast path pushes the two source words. -/
theorem linearization_differs_counterexample :
    ∃ r r', sunxi_des_poll 2 (hw_eager 2) ss_empty sunxi_cipher_init 8 req_chunked = some r ∧
      sunxi_aes_poll 2 (hw_eager 2) ss_empty sunxi_cipher_init 8 req_single = some r' ∧
      r.exit = Exit.returned 0 ∧ r'.exit = Exit.returned 0 ∧
      rxWords r.trace = [] ∧ rxWords r'.trace = [0x04030201, 0x08070605] ∧
      rxWords r.trace ≠ rxWords r'.trace := by
  refine ⟨_, _, rfl, rfl, ?_⟩
  decide

/-- Witness of C5: eight bytes through both paths. -/
theorem linearization_matches_fast_path_witness :
    ∃ r r', sunxi_des_poll 3 hw_two ss_empty sunxi_cipher_init 8 req_chunked = some r ∧
      sunxi_aes_poll 3 hw_two ss_empty sunxi_cipher_init 8
        { nbytes := req_chunked.nbytes,
          src := [⟨(req_chunked.src.map Sg.data).flatten, true⟩],
          dst := [⟨(req_chunked.dst.map Sg.data).flatten, true⟩],
          info := req_chunked.info } = some r' ∧
      no_chunk req_chunked = false ∧ r.exit = Exit.returned 0 ∧
      causal 0 0 r.trace = true ∧ causal 0 0 r'.trace = true ∧
      rxWords r.trace = rxWords r'.trace ∧
      (r.dst.map Sg.data).flatten = (r'.dst.map Sg.data).flatten :=
  ⟨_, _, rfl, rfl, by decide, by decide, by decide, by decide,
    (linearization_matches_fast_path 3 3 hw_two hw_two ss_empty ss_empty sunxi_cipher_init 8
      req_chunked _ _ (by decide) staged_empty (by decide) (by decide) (by decide) (by decide)
      rfl (by decide) (by decide) rfl (by decide) rfl).1,
    (linearization_matches_fast_path 3 3 hw_two hw_two ss_empty ss_empty sunxi_cipher_init 8
      req_chunked _ _ (by decide) staged_empty (by decide) (by decide) (by decide) (by decide)
      rfl (by decide) (by decide) rfl (by decide) rfl).2.1⟩

/-! ## C4: the segmented path -/

theorem preB_zero (L : List (List Nat)) : preB L 0 = 0 := by simp [preB]

theorem flatten_split (L : List (List Nat)) (j : Nat) (hj : j < L.length) :
    L.flatten = (L.take j).flatten ++ L.getD j [] ++ (L.drop (j + 1)).flatten := by
  have e : L = L.take j ++ L.getD j [] :: L.drop (j + 1) := by
    rw [List.getD_eq_getElem _ _ hj]
    simp
  conv_lhs => rw [e]
  simp

theorem preB_succ (L : List (List Nat)) (j : Nat) (hj : j < L.length) :
    preB L (j + 1) = preB L j + (L.getD j []).length := by
  unfold preB
  rw [List.take_succ, List.getElem?_eq_getElem hj, List.getD_eq_getElem _ _ hj]
  simp only [Option.toList, List.flatten_append, List.length_append, List.flatten_cons,
    List.flatten_nil, List.append_nil]

theorem preB_of_le (L : List (List Nat)) (j : Nat) (hj : L.length ≤ j) :
    preB L j = L.flatten.length := by
  unfold preB
  rw [List.take_of_length_le hj]

theorem preB_lt (L : List (List Nat)) (j : Nat) (h : preB L j < L.flatten.length) :
    j < L.length := by
  by_contra hc
  rw [preB_of_le L j (by omega)] at h
  omega

theorem getD_mid (A M B : List Nat) (i : Nat) (hi : i < M.length) :
    (A ++ M ++ B).getD (A.length + i) 0 = M.getD i 0 := by
  rw [List.getD_eq_getElem _ _ (by simp; omega), List.getD_eq_getElem _ _ hi]
  rw [List.getElem_append_left (by simp; omega), List.getElem_append_right (by omega)]
  simp

theorem load32_mid (A M B : List Nat) (off : Nat) (h : off + 4 ≤ M.length) :
    load32 (A ++ M ++ B) (A.length + off) = load32 M off := by
  unfold load32
  simp only [Nat.add_assoc]
  rw [getD_mid A M B off (by omega),
    getD_mid A M B (off + 1) (by omega), getD_mid A M B (off + 2) (by omega),
    getD_mid A M B (off + 3) (by omega)]

theorem load32_flatten (L : List (List Nat)) (j off : Nat) (hj : j < L.length)
    (h : off + 4 ≤ (L.getD j []).length) :
    load32 L.flatten (preB L j + off) = load32 (L.getD j []) off := by
  rw [flatten_split L j hj]
  exact load32_mid _ _ _ off h

theorem modify_flatten (f : List Nat → List Nat) (L : List (List Nat)) (j : Nat)
    (hj : j < L.length) :
    (L.modify f j).flatten =
      (L.take j).flatten ++ f (L.getD j []) ++ (L.drop (j + 1)).flatten := by
  rw [List.modify_eq_take_cons_drop hj, List.getD_eq_getElem _ _ hj]
  simp

theorem pop_store_mid (tx : Nat → Nat) (b nt di p : Nat) (A M B : List Nat)
    (hA : A.length = 4 * p) (hM : 4 * (di + b) ≤ M.length) :
    pop_store tx b nt (p + di) (A ++ M ++ B) = A ++ pop_store tx b nt di M ++ B := by
  rw [pop_store_eq tx b nt di M hM, pop_store_eq tx b nt (p + di) _ (by simp; omega)]
  have e1 : 4 * (p + di) = A.length + 4 * di := by omega
  have e2 : 4 * (p + di + b) = A.length + 4 * (di + b) := by omega
  rw [e1, e2, List.append_assoc A M B, List.take_append, List.drop_append,
    List.take_append_of_le_length (by omega), List.drop_append_of_le_length (by omega)]
  simp

theorem pop_store_modify (tx : Nat → Nat) (L : List (List Nat)) (j b nt di p : Nat)
    (hj : j < L.length) (hb : 4 * (di + b) ≤ (L.getD j []).length) (hp : preB L j = 4 * p) :
    (L.modify (pop_store tx b nt di) j).flatten = pop_store tx b nt (p + di) L.flatten := by
  rw [modify_flatten _ L j hj]
  conv_rhs => rw [flatten_split L j hj]
  exact (pop_store_mid tx b nt di p _ _ _ hp hb).symm

theorem modify_lengths (f : List Nat → List Nat) (hf : ∀ m, (f m).length = m.length)
    (L : List (List Nat)) (j : Nat) :
    (L.modify f j).map List.length = L.map List.length := by
  induction L generalizing j with
  | nil => cases j <;> rfl
  | cons x xs ih =>
    cases j with
    | zero => simp [List.modify, hf]
    | succ j => simp [ih]

theorem pop_store_zero (tx : Nat → Nat) (nt di : Nat) : pop_store tx 0 nt di = id := by
  funext m
  rfl

theorem preB_congr (L M : List (List Nat)) (h : L.map List.length = M.map List.length)
    (j : Nat) : preB L j = preB M j := by
  unfold preB
  rw [List.length_flatten, List.length_flatten, List.map_take, List.map_take, h]

theorem getD_length_congr (L M : List (List Nat)) (h : L.map List.length = M.map List.length)
    (j : Nat) : (L.getD j []).length = (M.getD j []).length := by
  have e : ∀ K : List (List Nat), (K.getD j []).length = (K.map List.length).getD j 0 := by
    intro K
    by_cases hj : j < K.length
    · rw [List.getD_eq_getElem _ _ hj, List.getD_eq_getElem _ _ (by simpa using hj)]
      simp
    · rw [List.getD_eq_default _ _ (by omega), List.getD_eq_default _ _ (by simp; omega)]
      rfl
  rw [e L, e M, h]

theorem sg_getD_data (S : List Sg) (k : Nat) :
    (S.getD k ⟨[], true⟩).data = (S.map Sg.data).getD k [] := by
  by_cases hk : k < S.length
  · rw [List.getD_eq_getElem _ _ hk, List.getD_eq_getElem _ _ (by simpa using hk)]
    simp
  · rw [List.getD_eq_default _ _ (by omega), List.getD_eq_default _ _ (by simp; omega)]

theorem with_data_map (dst : List Sg) (mem : List (List Nat)) (h : mem.length = dst.length) :
    (with_data dst mem).map Sg.data = mem := by
  unfold with_data
  induction dst generalizing mem with
  | nil =>
    cases mem with
    | nil => rfl
    | cons _ _ => simp at h
  | cons d ds ih =>
    cases mem with
    | nil => simp at h
    | cons m ms =>
      simp only [List.zipWith_cons_cons, List.map_cons]
      rw [ih ms (by simpa using h)]


theorem skip_empty (S : List Sg) (k : Nat) :
    preB (S.map Sg.data)
        (if k < S.length ∧ (S.getD k ⟨[], true⟩).data.length = 0 then k + 1 else k) =
      preB (S.map Sg.data) k := by
  split
  · rename_i h
    rw [preB_succ _ _ (by simpa using h.1), ← sg_getD_data, h.2]
    rfl
  · rfl

theorem seg_input_spec (src : List Sg) (n rx : Nat) (s : SegState) (W : Nat)
    (r : SegState × List Ev × Bool)
    (hmap : ∀ sg ∈ src, sg.mapped = true) (h4 : ∀ sg ∈ src, sg.data.length % 4 = 0)
    (htot : ((src.map Sg.data).flatten).length = 4 * n)
    (hinv : InInv (src.map Sg.data) n s W) (hr : seg_input src rx s = r) :
    ∃ a q, a ≤ s.ileft ∧ r.2.2 = false ∧
      InInv (src.map Sg.data) n r.1 (W + a) ∧
      r.2.1 =
        (List.range a).map
          (fun k => Ev.writel (load32 ((src.map Sg.data).flatten) (4 * (W + k))) SS_RXFIFO)
          ++ q ∧
      (∀ e ∈ q, e.isFifo = false) ∧
      r.1.oleft = s.oleft ∧ r.1.sgoleft = s.sgoleft ∧
      r.1.out_sg = s.out_sg ∧ r.1.dseg = s.dseg ∧
      r.1.di = s.di ∧ r.1.nt = s.nt ∧
      r.1.nf = s.nf ∧ r.1.mem = s.mem := by
  obtain ⟨i1, i2⟩ := hinv
  have ha1 : min3 rx s.ileft s.sgileft ≤ s.ileft := by unfold min3; omega
  have ha2 : min3 rx s.ileft s.sgileft ≤ s.sgileft := by unfold min3; omega
  unfold seg_input at hr
  generalize min3 rx s.ileft s.sgileft = a at ha1 ha2 hr
  have hs1 : (if a > 0 then { s with ileft := s.ileft - a, sgileft := s.sgileft - a } else s) =
      { s with ileft := s.ileft - a, sgileft := s.sgileft - a } := by
    split
    · rfl
    · have : a = 0 := by omega
      subst this
      rfl
  simp only [] at hr
  simp only [hs1] at hr
  have hpush : push_words (src.getD s.sseg ⟨[], true⟩).data s.si a =
      (List.range a).map
        (fun k => Ev.writel (load32 ((src.map Sg.data).flatten) (4 * (W + k))) SS_RXFIFO) := by
    unfold push_words
    apply List.map_congr_left
    intro k hk
    rw [List.mem_range] at hk
    obtain ⟨j1, j2, j3, j4⟩ := i2 (by omega)
    have e : 4 * (W + k) = preB (src.map Sg.data) s.in_sg + 4 * (s.si + k) := by omega
    rw [e, load32_flatten _ _ _ j1 (by omega), j2, sg_getD_data]
  rw [hpush] at hr
  generalize hP : (List.range a).map
        (fun k => Ev.writel (load32 ((src.map Sg.data).flatten) (4 * (W + k))) SS_RXFIFO) = P
        at hr
  have k1 := skip_empty src (s.in_sg + 1)
  generalize (if s.in_sg + 1 < src.length ∧
      (src.getD (s.in_sg + 1) ⟨[], true⟩).data.length = 0 then s.in_sg + 1 + 1
    else s.in_sg + 1) = n1 at hr k1
  have k2 := skip_empty src n1
  generalize (if n1 < src.length ∧
      (src.getD n1 ⟨[], true⟩).data.length = 0 then n1 + 1 else n1) = n2 at hr k2
  have hlen : (src.map Sg.data).length = src.length := List.length_map _ _
  by_cases c1 : s.in_sg < src.length ∧ s.sgileft - a = 0 ∧ s.ileft - a > 0
  · rw [if_pos c1] at hr
    obtain ⟨j1, j2, j3, j4⟩ := i2 (by omega)
    have hp1 := preB_succ (src.map Sg.data) s.in_sg j1
    have hn2 : n2 < src.length := by
      rw [← hlen]
      apply preB_lt
      rw [k2, k1, hp1, htot]
      omega
    rw [if_pos ⟨hn2, c1.2.2⟩] at hr
    have hm : (src.getD n2 ⟨[], true⟩).mapped = true := by
      rw [List.getD_eq_getElem _ _ hn2]
      exact hmap _ (List.getElem_mem _)
    have h4n : (src.getD n2 ⟨[], true⟩).data.length % 4 = 0 := by
      rw [List.getD_eq_getElem _ _ hn2]
      exact h4 _ (List.getElem_mem _)
    rw [if_neg (by rw [hm]; decide)] at hr
    subst hr
    refine ⟨a, [Ev.kunmap true s.in_sg, Ev.kmap true n2], ha1, rfl, ⟨?_, ?_⟩, ?_, ?_,
      rfl, rfl, rfl, rfl, rfl, rfl, rfl, rfl⟩
    · simp only []
      omega
    · intro _
      simp only []
      refine ⟨by omega, trivial, ?_, ?_⟩
      · rw [← sg_getD_data]
        omega
      · rw [k2, k1, hp1]
        omega
    · rw [← hP]
      simp
    · intro e he
      simp only [List.mem_cons, List.mem_singleton, List.not_mem_nil, or_false] at he
      rcases he with h | h <;> rw [h] <;> rfl
  · rw [if_neg c1] at hr
    subst hr
    refine ⟨a, [], ha1, rfl, ⟨?_, ?_⟩, ?_, ?_, rfl, rfl, rfl, rfl, rfl, rfl, rfl, rfl⟩
    · simp only []
      omega
    · intro h0
      simp only [] at h0 ⊢
      obtain ⟨j1, j2, j3, j4⟩ := i2 (by omega)
      rw [hlen] at j1
      refine ⟨by omega, j2, ?_, ?_⟩
      · have : ¬ (s.sgileft - a = 0) := fun h => c1 ⟨j1, h, h0⟩
        omega
      · omega
    · rw [← hP]
      simp
    · intro e he
      simp at he


theorem modify_id_eq (L : List (List Nat)) (j : Nat) : L.modify id j = L := by
  induction L generalizing j with
  | nil => cases j <;> rfl
  | cons x xs ih =>
    cases j with
    | zero => rfl
    | succ j => simp [ih]

theorem seg_output_spec (hw : Device) (dst : List Sg) (n txc : Nat) (s : SegState) (R : Nat)
    (r : SegState × List Ev × Bool)
    (hmap : ∀ sg ∈ dst, sg.mapped = true) (h4 : ∀ sg ∈ dst, sg.data.length % 4 = 0)
    (htot : ((dst.map Sg.data).flatten).length = 4 * n)
    (hinv : OutInv (dst.map Sg.data) hw.tx n s R) (hr : seg_output hw dst txc s = r) :
    ∃ b q, b ≤ s.oleft ∧ b ≤ txc ∧ r.2.2 = false ∧
      OutInv (dst.map Sg.data) hw.tx n r.1 (R + b) ∧
      r.2.1 = pop_events hw.tx R b ++ q ∧
      (∀ e ∈ q, e.isFifo = false) ∧
      r.1.ileft = s.ileft ∧ r.1.sgileft = s.sgileft ∧
      r.1.in_sg = s.in_sg ∧ r.1.sseg = s.sseg ∧
      r.1.si = s.si ∧ r.1.nf = s.nf := by
  obtain ⟨i0, i1, i5, i6, i2⟩ := hinv
  have hb0 : min3 txc s.oleft s.sgoleft ≤ txc := by unfold min3; omega
  have hb1 : min3 txc s.oleft s.sgoleft ≤ s.oleft := by unfold min3; omega
  have hb2 : min3 txc s.oleft s.sgoleft ≤ s.sgoleft := by unfold min3; omega
  unfold seg_output at hr
  generalize min3 txc s.oleft s.sgoleft = b at hb0 hb1 hb2 hr
  have hs1 : (if b > 0 then { s with oleft := s.oleft - b, sgoleft := s.sgoleft - b } else s) =
      { s with oleft := s.oleft - b, sgoleft := s.sgoleft - b } := by
    split
    · rfl
    · have : b = 0 := by omega
      subst this
      rfl
  simp only [] at hr
  simp only [hs1] at hr
  have hmem : (s.mem.modify (pop_store hw.tx b s.nt s.di) s.dseg).map List.length =
        (dst.map Sg.data).map List.length ∧
      (s.mem.modify (pop_store hw.tx b s.nt s.di) s.dseg).flatten =
        pop_store hw.tx (R + b) 0 0 (dst.map Sg.data).flatten := by
    refine ⟨?_, ?_⟩
    · rw [modify_lengths _ (fun m => length_pop_store hw.tx b s.nt s.di m), i5]
    · by_cases hb : b = 0
      · subst hb
        rw [pop_store_zero, modify_id_eq, i6]
        rfl
      · obtain ⟨j1, j2, j3, j4⟩ := i2 (by omega)
        have hl : s.mem.length = (dst.map Sg.data).length := by
          have := congrArg List.length i5
          simpa using this
        have hp : preB s.mem s.dseg = 4 * (R - s.di) := by
          rw [preB_congr _ _ i5, j2]
          omega
        rw [pop_store_modify hw.tx s.mem s.dseg b s.nt s.di (R - s.di) (by omega)
          (by rw [getD_length_congr _ _ i5, j2]; omega) hp, i6, i0]
        have e : R - s.di + s.di = 0 + R := by omega
        rw [e]
        have := pop_store_add hw.tx R b 0 0 (dst.map Sg.data).flatten
        rw [Nat.zero_add] at this ⊢
        exact this
  generalize s.mem.modify (pop_store hw.tx b s.nt s.di) s.dseg = mem1 at hr hmem
  have k1 := skip_empty dst (s.out_sg + 1)
  generalize (if s.out_sg + 1 < dst.length ∧
      (dst.getD (s.out_sg + 1) ⟨[], true⟩).data.length = 0 then s.out_sg + 1 + 1
    else s.out_sg + 1) = n1 at hr k1
  have hlen : (dst.map Sg.data).length = dst.length := List.length_map _ _
  rw [i0] at hr
  by_cases c1 : s.out_sg < dst.length ∧ s.sgoleft - b = 0
  · rw [if_pos c1] at hr
    by_cases c2 : s.oleft - b > 0
    · obtain ⟨j1, j2, j3, j4⟩ := i2 (by omega)
      have hp1 := preB_succ (dst.map Sg.data) s.out_sg j1
      have hn1 : n1 < dst.length := by
        rw [← hlen]
        apply preB_lt
        rw [k1, hp1, htot]
        omega
      rw [if_pos ⟨hn1, c2⟩] at hr
      have hm : (dst.getD n1 ⟨[], true⟩).mapped = true := by
        rw [List.getD_eq_getElem _ _ hn1]
        exact hmap _ (List.getElem_mem _)
      have h4n : (dst.getD n1 ⟨[], true⟩).data.length % 4 = 0 := by
        rw [List.getD_eq_getElem _ _ hn1]
        exact h4 _ (List.getElem_mem _)
      rw [if_neg (by rw [hm]; decide)] at hr
      subst hr
      refine ⟨b, [Ev.kunmap false s.out_sg, Ev.kmap false n1], hb1, hb0, rfl,
        ⟨rfl, ?_, hmem.1, hmem.2, ?_⟩, ?_, ?_, rfl, rfl, rfl, rfl, rfl, rfl⟩
      · simp only []
        omega
      · intro _
        simp only []
        refine ⟨by omega, trivial, ?_, ?_⟩
        · rw [← sg_getD_data]
          omega
        · rw [k1, hp1]
          omega
      · simp
      · intro e he
        simp only [List.mem_cons, List.mem_singleton, List.not_mem_nil, or_false] at he
        rcases he with h | h <;> rw [h] <;> rfl
    · rw [if_neg (fun h => c2 h.2)] at hr
      subst hr
      refine ⟨b, [Ev.kunmap false s.out_sg], hb1, hb0, rfl,
        ⟨rfl, ?_, hmem.1, hmem.2, ?_⟩, ?_, ?_, rfl, rfl, rfl, rfl, rfl, rfl⟩
      · simp only []
        omega
      · intro h0
        exact absurd h0 c2
      · simp
      · intro e he
        simp only [List.mem_singleton] at he
        rw [he]
        rfl
  · rw [if_neg c1] at hr
    subst hr
    refine ⟨b, [], hb1, hb0, rfl, ⟨rfl, ?_, hmem.1, hmem.2, ?_⟩, ?_, ?_,
      rfl, rfl, rfl, rfl, rfl, rfl⟩
    · simp only []
      omega
    · intro h0
      simp only [] at h0 ⊢
      obtain ⟨j1, j2, j3, j4⟩ := i2 (by omega)
      rw [hlen] at j1
      refine ⟨by omega, j2, ?_, ?_⟩
      · have : ¬ (s.sgoleft - b = 0) := fun h => c1 ⟨j1, h⟩
        omega
      · omega
    · simp
    · intro e he
      simp at he


theorem seg_turn_facts (mem : List Nat) (tx : Nat → Nat) (W R a b v : Nat) (q1 q2 : List Ev)
    (h1 : ∀ e ∈ q1, e.isFifo = false) (h2 : ∀ e ∈ q2, e.isFifo = false) :
    (∀ x, causal W R
        (Ev.readl SS_FCSR v :: (push_words mem W a ++ q1) ++ (pop_events tx R b ++ q2) ++ x) =
      (decide (SS_TXFIFO_SPACES v ≤ W - R) && causal (W + a) (R + b) x)) ∧
    rxWords (Ev.readl SS_FCSR v :: (push_words mem W a ++ q1) ++ (pop_events tx R b ++ q2)) =
      ((List.range a).map fun k => load32 mem (4 * (W + k))) ∧
    txWords (Ev.readl SS_FCSR v :: (push_words mem W a ++ q1) ++ (pop_events tx R b ++ q2)) =
      ((List.range b).map fun k => tx (R + k)) := by
  obtain ⟨a1, a2, a3⟩ := quiet_facts q1 h1
  obtain ⟨b1, b2, b3⟩ := quiet_facts q2 h2
  have hne : ¬ SS_FCSR = SS_TXFIFO := by decide
  have hf1 : rxWords [Ev.readl SS_FCSR v] = [] := rfl
  have hf2 : txWords [Ev.readl SS_FCSR v] = [] := by
    simp [txWords, readsFrom, hne]
  have e : ∀ y : List Ev, Ev.readl SS_FCSR v :: y = [Ev.readl SS_FCSR v] ++ y := fun _ => rfl
  refine ⟨?_, ?_, ?_⟩
  · intro x
    rw [List.cons_append, List.cons_append, e, causal_append, hf1, hf2]
    simp only [List.append_assoc]
    rw [causal_append, causal_push, rxWords_push, txWords_push, a3, causal_append, causal_pop,
      rxWords_pop, txWords_pop, b3]
    simp [causal, hne]
  · rw [List.cons_append, e, rxWords_append, rxWords_append, rxWords_append, rxWords_append,
      rxWords_push, rxWords_pop, a1, b1, hf1]
    simp
  · rw [List.cons_append, e, txWords_append, txWords_append, txWords_append, txWords_append,
      txWords_push, txWords_pop, a2, b2, hf2]
    simp

theorem seg_iter_spec (hw : Device) (src dst : List Sg) (n : Nat) (s : SegState) (W R : Nat)
    (r : SegState × List Ev × Bool)
    (hmi : ∀ sg ∈ src, sg.mapped = true) (h4i : ∀ sg ∈ src, sg.data.length % 4 = 0)
    (hti : ((src.map Sg.data).flatten).length = 4 * n)
    (hmo : ∀ sg ∈ dst, sg.mapped = true) (h4o : ∀ sg ∈ dst, sg.data.length % 4 = 0)
    (hto : ((dst.map Sg.data).flatten).length = 4 * n)
    (hin : InInv (src.map Sg.data) n s W) (hout : OutInv (dst.map Sg.data) hw.tx n s R)
    (hRW : R ≤ W) (hr : seg_iter hw src dst s = r) :
    ∃ a b, a ≤ s.ileft ∧ b ≤ s.oleft ∧ r.2.2 = false ∧
      InInv (src.map Sg.data) n r.1 (W + a) ∧ OutInv (dst.map Sg.data) hw.tx n r.1 (R + b) ∧
      rxWords r.2.1 =
        ((List.range a).map fun k => load32 ((src.map Sg.data).flatten) (4 * (W + k))) ∧
      txWords r.2.1 = ((List.range b).map fun k => hw.tx (R + k)) ∧
      (∀ x, causal W R (r.2.1 ++ x) = true → R + b ≤ W ∧ causal (W + a) (R + b) x = true) := by
  unfold seg_iter at hr
  simp only [] at hr
  have hin0 : InInv (src.map Sg.data) n { s with nf := s.nf + 1 } W := hin
  have hout0 : OutInv (dst.map Sg.data) hw.tx n { s with nf := s.nf + 1 } R := hout
  rcases hri : seg_input src (SS_RXFIFO_SPACES (hw.fcsr s.nf)) { s with nf := s.nf + 1 }
    with ⟨s1, e1, f1⟩
  obtain ⟨a, q1, p1, p2, p3, p4, p5, p6, p7, p8, p9, p10, p11, p12, p13⟩ :=
    seg_input_spec src n _ _ W _ hmi h4i hti hin0 hri
  simp only [] at p1 p2 p3 p4 p6 p7 p8 p9 p10 p11 p12 p13
  rw [hri] at hr
  simp only [] at hr
  subst p2
  simp only [Bool.false_eq_true, if_false] at hr
  have hout1 : OutInv (dst.map Sg.data) hw.tx n s1 R := by
    obtain ⟨o0, o1, o2, o3, o4⟩ := hout
    refine ⟨by rw [p11, o0], by rw [p6, o1], by rw [p13, o2], by rw [p13, o3], ?_⟩
    rw [p6, p7, p8, p9, p10]
    exact o4
  rcases hro : seg_output hw dst (SS_TXFIFO_SPACES (hw.fcsr s.nf)) s1 with ⟨s2, e2, f2⟩
  obtain ⟨b, q2, r1, r0, r2, r3, r4, r5, r6, r7, r8, r9, r10, r11⟩ :=
    seg_output_spec hw dst n _ s1 R _ hmo h4o hto hout1 hro
  simp only [] at r1 r2 r3 r4 r6 r7 r8 r9 r10 r11
  rw [hro] at hr
  simp only [] at hr
  subst hr
  subst r2
  have hin2 : InInv (src.map Sg.data) n s2 (W + a) := by
    obtain ⟨o0, o4⟩ := p3
    refine ⟨by rw [r6, o0], ?_⟩
    rw [r6, r7, r8, r9, r10]
    exact o4
  have hp4 : e1 = push_words ((src.map Sg.data).flatten) W a ++ q1 := p4
  obtain ⟨t1, t2, t3⟩ := seg_turn_facts ((src.map Sg.data).flatten) hw.tx W R a b
    (hw.fcsr s.nf) q1 q2 p5 r5
  simp only []
  rw [hp4, r4]
  refine ⟨a, b, p1, by rw [← p6]; exact r1, trivial, hin2, r3, t2, t3, ?_⟩
  intro x hx
  rw [t1 x, Bool.and_eq_true, decide_eq_true_eq] at hx
  exact ⟨by omega, hx.2⟩


theorem seg_loop_spec (hw : Device) (src dst : List Sg) (n : Nat)
    (hmi : ∀ sg ∈ src, sg.mapped = true) (h4i : ∀ sg ∈ src, sg.data.length % 4 = 0)
    (hti : ((src.map Sg.data).flatten).length = 4 * n)
    (hmo : ∀ sg ∈ dst, sg.mapped = true) (h4o : ∀ sg ∈ dst, sg.data.length % 4 = 0)
    (hto : ((dst.map Sg.data).flatten).length = 4 * n) :
    ∀ (fuel : Nat) (s s' : SegState) (W R : Nat) (e : List Ev) (f : Bool),
      seg_loop hw src dst fuel s = some (s', e, f) →
      InInv (src.map Sg.data) n s W → OutInv (dst.map Sg.data) hw.tx n s R → R ≤ W →
      causal W R e = true →
      f = false ∧
      rxWords e =
        ((List.range s.ileft).map fun k => load32 ((src.map Sg.data).flatten) (4 * (W + k))) ∧
      txWords e = ((List.range s.oleft).map fun k => hw.tx (R + k)) ∧
      s'.mem.map List.length = (dst.map Sg.data).map List.length ∧
      s'.mem.flatten = pop_store hw.tx n 0 0 (dst.map Sg.data).flatten := by
  intro fuel
  induction fuel with
  | zero =>
    intro s s' W R e f h
    simp [seg_loop] at h
  | succ fuel ih =>
    intro s s' W R e f h hin hout hRW hc
    unfold seg_loop at h
    rcases hit : seg_iter hw src dst s with ⟨s1, e1, f1⟩
    obtain ⟨a, b, p1, p2, p3, p4, p5, p6, p7, p8⟩ :=
      seg_iter_spec hw src dst n s W R _ hmi h4i hti hmo h4o hto hin hout hRW hit
    simp only [] at p3 p4 p5 p6 p7 p8
    rw [hit] at h
    simp only [] at h
    subst p3
    simp only [Bool.false_eq_true, if_false] at h
    by_cases hol : s1.oleft > 0
    · rw [if_pos hol] at h
      rcases hrec : seg_loop hw src dst fuel s1 with _ | ⟨s2, e2, f2⟩
      · rw [hrec] at h
        simp at h
      · rw [hrec] at h
        simp only [Option.some.injEq, Prod.mk.injEq] at h
        obtain ⟨hs, he, hf⟩ := h
        subst hs he hf
        obtain ⟨c1, c2⟩ := p8 e2 hc
        obtain ⟨q1, q2, q3, q4, q5⟩ := ih s1 s2 (W + a) (R + b) e2 f2 hrec p4 p5 (by omega) c2
        have hil : s1.ileft = s.ileft - a := by
          have := p4.1
          have := hin.1
          omega
        have hol2 : s1.oleft = s.oleft - b := by
          have := p5.2.1
          have := hout.2.1
          omega
        refine ⟨q1, ?_, ?_, q4, q5⟩
        · rw [rxWords_append, p6, q2, hil, range_map_split _ a s.ileft p1]
          simp [Nat.add_assoc]
        · rw [txWords_append, p7, q3, hol2, range_map_split _ b s.oleft p2]
          simp [Nat.add_assoc]
    · rw [if_neg hol] at h
      simp only [Option.some.injEq, Prod.mk.injEq] at h
      obtain ⟨hs, he, hf⟩ := h
      subst hs he hf
      have hc2 : causal W R (e1 ++ []) = true := by rw [List.append_nil]; exact hc
      obtain ⟨c1, c2⟩ := p8 [] hc2
      obtain ⟨o0, o1, o2, o3, o4⟩ := p5
      have hb : R + b = n := by omega
      have hi1 := p4.1
      have hi0 := hin.1
      have ho0 := hout.2.1
      have ha : a = s.ileft := by omega
      have hb2 : b = s.oleft := by omega
      refine ⟨rfl, ?_, ?_, o2, ?_⟩
      · rw [p6, ha]
      · rw [p7, hb2]
      · rw [o3, hb]


theorem flatten_length_mod4 (S : List Sg) (h4 : ∀ sg ∈ S, sg.data.length % 4 = 0) :
    ((S.map Sg.data).flatten).length % 4 = 0 := by
  induction S with
  | nil => rfl
  | cons x xs ih =>
    have h1 := h4 x (by simp)
    have h2 := ih (fun sg hsg => h4 sg (by simp [hsg]))
    simp only [List.map_cons, List.flatten_cons, List.length_append]
    omega

/-- The segmented path of `sunxi_aes_poll` under a causal device: what is
pushed, what is popped and where the popped words land. -/
theorem seg_path_run (fuel : Nat) (hw : Device) (ss : sunxi_ss_ctx) (op : sunxi_req_ctx)
    (ivsize : Nat) (areq : ablkcipher_request) (r : CipherRet)
    (hk : op.keylen ≤ 32) (hs : areq.src ≠ []) (hd : areq.dst ≠ [])
    (hseg : 2 ≤ areq.src.length ∨ 2 ≤ areq.dst.length)
    (hmi : ∀ sg ∈ areq.src, sg.mapped = true)
    (h4i : ∀ sg ∈ areq.src, sg.data.length % 4 = 0)
    (hmo : ∀ sg ∈ areq.dst, sg.mapped = true)
    (h4o : ∀ sg ∈ areq.dst, sg.data.length % 4 = 0)
    (hsrc : ((areq.src.map Sg.data).flatten).length = areq.nbytes)
    (hdst : ((areq.dst.map Sg.data).flatten).length = areq.nbytes)
    (hrun : sunxi_aes_poll fuel hw ss op ivsize areq = some r)
    (hcausal : causal 0 0 r.trace = true) :
    r.exit = Exit.returned 0 ∧
      rxWords r.trace = words_of ((areq.src.map Sg.data).flatten) (areq.nbytes / 4) ∧
      txWords r.trace = (List.range (areq.nbytes / 4)).map hw.tx ∧
      (r.dst.map Sg.data).flatten = tx_bytes hw.tx (areq.nbytes / 4) := by
  obtain ⟨nbytes, src, dst, info⟩ := areq
  simp only [] at hs hd hseg hmi h4i hmo h4o hsrc hdst ⊢
  have hn4 : nbytes % 4 = 0 := by
    rw [← hsrc]
    exact flatten_length_mod4 src h4i
  have hti : ((src.map Sg.data).flatten).length = 4 * (nbytes / 4) := by omega
  have hto : ((dst.map Sg.data).flatten).length = 4 * (nbytes / 4) := by omega
  have hspec := seg_loop_spec hw src dst (nbytes / 4) hmi h4i hti hmo h4o hto fuel
  cases src with
  | nil => exact absurd rfl hs
  | cons i0 irest =>
  cases dst with
  | nil => exact absurd rfl hd
  | cons o0 orest =>
  have hnot : ¬ (irest = [] ∧ orest = []) := by
    rintro ⟨rfl, rfl⟩
    simp at hseg
  have hm0 : i0.mapped = true := hmi i0 (by simp)
  have hm1 : o0.mapped = true := hmo o0 (by simp)
  unfold sunxi_aes_poll at hrun
  simp only [if_neg hnot, hm0, hm1, Bool.true_eq_false, if_false] at hrun
  have q0 := prologue_quiet op ivsize info hk [Ev.kmap true 0, Ev.kmap false 0]
    (epilogue_quiet _ (by simp))
  have q1 : ∀ x ∈ [Ev.writel 0 SS_CTL, Ev.mutex_unlock Mutex.lock], x.isFifo = false :=
    epilogue_quiet _ (by simp)
  obtain ⟨a1, a2, a3⟩ := quiet_facts _ q0
  obtain ⟨b1, b2, b3⟩ := quiet_facts _ q1
  have hin0 : InInv (List.map Sg.data (i0 :: irest)) (nbytes / 4)
      { ileft := nbytes / 4, oleft := nbytes / 4,
        sgileft := i0.data.length / 4, sgoleft := o0.data.length / 4,
        in_sg := 0, out_sg := 0, sseg := 0, si := 0, dseg := 0, di := 0,
        nf := 0, nt := 0, mem := List.map Sg.data (o0 :: orest) } 0 := by
    refine ⟨rfl, fun _ => ⟨by simp, rfl, ?_, by simp [preB]⟩⟩
    have := h4i i0 (by simp)
    simp only [List.map_cons, List.getD_cons_zero]
    omega
  have hout0 : OutInv (List.map Sg.data (o0 :: orest)) hw.tx (nbytes / 4)
      { ileft := nbytes / 4, oleft := nbytes / 4,
        sgileft := i0.data.length / 4, sgoleft := o0.data.length / 4,
        in_sg := 0, out_sg := 0, sseg := 0, si := 0, dseg := 0, di := 0,
        nf := 0, nt := 0, mem := List.map Sg.data (o0 :: orest) } 0 := by
    refine ⟨rfl, rfl, rfl, rfl, fun _ => ⟨by simp, rfl, ?_, by simp [preB]⟩⟩
    have := h4o o0 (by simp)
    simp only [List.map_cons, List.getD_cons_zero]
    omega
  rcases hloop : seg_loop hw (i0 :: irest) (o0 :: orest) fuel
      { ileft := nbytes / 4, oleft := nbytes / 4,
        sgileft := i0.data.length / 4, sgoleft := o0.data.length / 4,
        in_sg := 0, out_sg := 0, sseg := 0, si := 0, dseg := 0, di := 0,
        nf := 0, nt := 0, mem := List.map Sg.data (o0 :: orest) } with _ | ⟨s, e, f⟩
  · rw [hloop] at hrun
    simp at hrun
  · rw [hloop] at hrun
    cases f with
    | true =>
      simp only [Option.some.injEq] at hrun
      subst hrun
      simp only [] at hcausal
      rw [a3] at hcausal
      have := (hspec _ _ 0 0 _ _ hloop hin0 hout0 (Nat.le_refl 0) hcausal).1
      simp at this
    | false =>
      simp only [Option.some.injEq] at hrun
      subst hrun
      simp only [] at hcausal ⊢
      rw [List.append_assoc _ e, a3, causal_append, Bool.and_eq_true] at hcausal
      obtain ⟨_, c2, c3, c4, c5⟩ := hspec _ _ 0 0 _ _ hloop hin0 hout0 (Nat.le_refl 0) hcausal.1
      simp only [] at c2 c3
      refine ⟨trivial, ?_, ?_, ?_⟩
      · rw [rxWords_append, rxWords_append, a1, b1, c2]
        simp [words_of]
      · rw [txWords_append, txWords_append, a2, b2, c3]
        simp
      · rw [with_data_map _ _ (by simpa using congrArg List.length c4), c5,
          pop_store_eq _ _ _ _ _ (by rw [hto]; omega), tx_bytes_eq]
        rw [List.drop_of_length_le (by rw [hto]; omega)]
        simp


/-- C4 (amended): path independence under a causal device.  For a request
whose source and destination are split into mapped segments of lengths
multiple of 4 (zero-length segments allowed) summing to `nbytes`, and for
runs that terminate under a device that never reports more transmit words
than words pushed and not yet popped, the segmented path of `sunxi_aes_poll`
pushes into `SS_RXFIFO` the same words as the fast path does for the
concatenation held in one segment, and the concatenation of the output
segments equals the single output buffer of the fast path. -/
theorem segmented_matches_fast_path (fuel fuel' : Nat) (hw hw' : Device)
    (ss ss' : sunxi_ss_ctx) (op : sunxi_req_ctx) (ivsize : Nat) (areq : ablkcipher_request)
    (r r' : CipherRet)
    (hk : op.keylen ≤ 32) (hs : areq.src ≠ []) (hd : areq.dst ≠ [])
    (hseg : 2 ≤ areq.src.length ∨ 2 ≤ areq.dst.length)
    (hmi : ∀ sg ∈ areq.src, sg.mapped = true)
    (h4i : ∀ sg ∈ areq.src, sg.data.length % 4 = 0)
    (hmo : ∀ sg ∈ areq.dst, sg.mapped = true)
    (h4o : ∀ sg ∈ areq.dst, sg.data.length % 4 = 0)
    (hsrc : ((areq.src.map Sg.data).flatten).length = areq.nbytes)
    (hdst : ((areq.dst.map Sg.data).flatten).length = areq.nbytes)
    (hrun : sunxi_aes_poll fuel hw ss op ivsize areq = some r)
    (hcausal : causal 0 0 r.trace = true)
    (hrun' : sunxi_aes_poll fuel' hw' ss' op ivsize
      { nbytes := areq.nbytes, src := [⟨(areq.src.map Sg.data).flatten, true⟩],
        dst := [⟨(areq.dst.map Sg.data).flatten, true⟩], info := areq.info } = some r')
    (hcausal' : causal 0 0 r'.trace = true) (htx : hw'.tx = hw.tx) :
    r.exit = Exit.returned 0 ∧ r'.exit = Exit.returned 0 ∧
      rxWords r.trace = rxWords r'.trace ∧
      (r.dst.map Sg.data).flatten = (r'.dst.map Sg.data).flatten ∧
      rxWords r.trace = words_of ((areq.src.map Sg.data).flatten) (areq.nbytes / 4) ∧
      txWords r.trace = (List.range (areq.nbytes / 4)).map hw.tx ∧
      (r.dst.map Sg.data).flatten = tx_bytes hw.tx (areq.nbytes / 4) := by
  obtain ⟨a0, a1, a2, a3⟩ := seg_path_run fuel hw ss op ivsize areq r hk hs hd hseg hmi h4i
    hmo h4o hsrc hdst hrun hcausal
  have hn4 : areq.nbytes % 4 = 0 := by
    rw [← hsrc]
    exact flatten_length_mod4 areq.src h4i
  obtain ⟨b0, b1, _, b3, _⟩ := fast_path_run fuel' hw' ss' op ivsize areq.nbytes _ _ areq.info
    r' hk hn4 (by omega) (by omega) hrun' hcausal'
  refine ⟨a0, b0, by rw [a1, b1], ?_, a1, a2, a3⟩
  rw [a3, b3, htx]
  simp only [List.map_cons, List.map_nil, List.flatten_cons, List.flatten_nil, List.append_nil]
  rw [List.drop_of_length_le (by omega), List.append_nil]

/-- Counterexample to C4 as stated: a device that reports two words ready at
every read of `SS_FCSR`.  Both paths terminate; the segmented path pushes no
word at all while the fast path pushes the two source words. -/
theorem segmented_differs_counterexample :
    ∃ r r', sunxi_aes_poll 2 (hw_eager 2) ss_empty sunxi_cipher_init 16 req_two_entries =
        some r ∧
      sunxi_aes_poll 2 (hw_eager 2) ss_empty sunxi_cipher_init 16 req_single = some r' ∧
      r.exit = Exit.returned 0 ∧ r'.exit = Exit.returned 0 ∧
      rxWords r.trace = [] ∧ rxWords r'.trace = [0x04030201, 0x08070605] ∧
      rxWords r.trace ≠ rxWords r'.trace := by
  refine ⟨_, _, rfl, rfl, ?_⟩
  decide

/-- Witness of C4: eight bytes in two segments against the same bytes in one
segment. -/
theorem segmented_matches_fast_path_witness :
    ∃ r r', sunxi_aes_poll 4 hw_alternate ss_empty sunxi_cipher_init 16 req_two_entries =
        some r ∧
      sunxi_aes_poll 5 hw_alternate ss_empty sunxi_cipher_init 16
        { nbytes := req_two_entries.nbytes,
          src := [⟨(req_two_entries.src.map Sg.data).flatten, true⟩],
          dst := [⟨(req_two_entries.dst.map Sg.data).flatten, true⟩],
          info := req_two_entries.info } = some r' ∧
      causal 0 0 r.trace = true ∧ causal 0 0 r'.trace = true ∧
      rxWords r.trace = rxWords r'.trace ∧
      (r.dst.map Sg.data).flatten = (r'.dst.map Sg.data).flatten :=
  ⟨_, _, rfl, rfl, by decide, by decide,
    (segmented_matches_fast_path 4 5 hw_alternate hw_alternate ss_empty ss_empty
      sunxi_cipher_init 16 req_two_entries _ _ (by decide) (by decide) (by decide) (by decide)
      (by decide) (by decide) (by decide) (by decide) (by decide) (by decide)
      rfl (by decide) rfl (by decide) rfl).2.2.1,
    (segmented_matches_fast_path 4 5 hw_alternate hw_alternate ss_empty ss_empty
      sunxi_cipher_init 16 req_two_entries _ _ (by decide) (by decide) (by decide) (by decide)
      (by decide) (by decide) (by decide) (by decide) (by decide) (by decide)
      rfl (by decide) rfl (by decide) rfl).2.2.2.1⟩

/-! ## C11: the digest read-out -/

theorem le32_cpu_to_be32 (r : Nat) : le32 (cpu_to_be32 r) = be32 r := by
  have h := le32_of_bytes (r / 16777216 % 256) (r / 65536 % 256) (r / 256 % 256) (r % 256)
    (Nat.mod_lt _ (by decide)) (Nat.mod_lt _ (by decide)) (Nat.mod_lt _ (by decide))
    (Nat.mod_lt _ (by decide))
  have e : cpu_to_be32 r = r / 16777216 % 256 + 256 * (r / 65536 % 256) +
      65536 * (r / 256 % 256) + 16777216 * (r % 256) := by
    unfold cpu_to_be32
    omega
  rw [e, h]
  rfl

theorem final_digest_eq (md : Nat → Nat) (sha1 : Bool) :
    ∀ (n i : Nat) (result : List Nat) (t : List Ev),
      final_digest md sha1 n i result t =
        (pop_store (fun k => if sha1 then cpu_to_be32 (md k) else md k) n i i result,
          t ++ (List.range n).map fun k => Ev.readl (SS_MD0 + 4 * (i + k)) (md (i + k))) := by
  intro n
  induction n with
  | zero => intro i result t; simp [final_digest, pop_store]
  | succ n ih =>
    intro i result t
    unfold final_digest pop_store
    simp only []
    rw [ih, range_succ_map, Nat.mul_comm i 4]
    simp [Nat.add_assoc, Nat.add_comm 1]

theorem final_zeros_mode (op : sunxi_req_ctx) : (final_zeros op).1.mode = op.mode := by
  unfold final_zeros
  simp only []
  split
  · split <;> rfl
  · rfl

theorem final_mode (op : sunxi_req_ctx) :
    (final_zeros (final_terminator op).1).1.mode = op.mode := by
  rw [final_zeros_mode]
  unfold final_terminator
  split <;> rfl

/-- C11: on success `sunxi_hash_final` reads the five words `SS_MD0 + 4 * i`
for SHA1 and stores each big-endian at bytes `4 * i .. 4 * i + 3` of the
result, twenty bytes in all; for MD5 it reads four words and stores each in
native (little-endian) order, sixteen bytes in all; the other bytes of the
result are left as they were. -/
theorem hash_final_digest (hw : HashHW) (op : sunxi_req_ctx) (res : List Nat)
    (hok : (sunxi_hash_final hw op res).ret = 0) :
    (op.mode = SS_OP_SHA1 → 20 ≤ res.length →
      (sunxi_hash_final hw op res).result =
        ((List.range 5).flatMap fun i => be32 (hw.md i)) ++ res.drop 20) ∧
    (op.mode = SS_OP_MD5 → 16 ≤ res.length →
      (sunxi_hash_final hw op res).result =
        ((List.range 4).flatMap fun i => le32 (hw.md i)) ++ res.drop 16) ∧
    (sunxi_hash_final hw op res).result.length = res.length ∧
    ∃ pre, (sunxi_hash_final hw op res).trace =
      pre ++ ((List.range (if op.mode = SS_OP_SHA1 then 5 else 4)).map
        fun i => Ev.readl (SS_MD0 + 4 * i) (hw.md i)) ++
        [Ev.writel 0 SS_CTL, Ev.mutex_unlock Mutex.lock] := by
  have hm := final_mode op
  unfold sunxi_hash_final at hok ⊢
  simp only [] at hok ⊢
  by_cases ht : (final_poll hw.ctl SS_TIMEOUT 0 []).1 ≥ SS_TIMEOUT
  · rw [if_pos ht] at hok
    simp at hok
  · rw [if_neg ht]
    rw [hm]
    by_cases hs : op.mode = SS_OP_SHA1
    · simp only [hs, if_true, final_digest_eq]
      refine ⟨?_, ?_, ?_, ⟨(final_terminator op).2 ++
        List.replicate (final_zeros (final_terminator op).1).2 (Ev.writel 0 SS_RXFIFO) ++
        final_length (final_zeros (final_terminator op).1).1 ++
        [Ev.readl SS_CTL (hw.ctl 0), Ev.writel (hw.ctl 0 ||| SS_DATA_END) SS_CTL] ++
        (final_poll hw.ctl SS_TIMEOUT 0 []).2, by simp⟩⟩
      · intro _ hl
        rw [pop_store_eq _ _ _ _ _ (by omega)]
        simp [le32_cpu_to_be32]
      · intro h
        exact absurd h (by decide)
      · rw [length_pop_store]
    · simp only [hs, if_false, final_digest_eq]
      refine ⟨?_, ?_, ?_, ⟨(final_terminator op).2 ++
        List.replicate (final_zeros (final_terminator op).1).2 (Ev.writel 0 SS_RXFIFO) ++
        final_length (final_zeros (final_terminator op).1).1 ++
        [Ev.readl SS_CTL (hw.ctl 0), Ev.writel (hw.ctl 0 ||| SS_DATA_END) SS_CTL] ++
        (final_poll hw.ctl SS_TIMEOUT 0 []).2, by simp⟩⟩
      · intro h
        exact h.elim
      · intro _ hl
        rw [pop_store_eq _ _ _ _ _ (by omega)]
        simp
      · rw [length_pop_store]

/-- Witness of C11: a SHA1 digest of five words. -/
theorem hash_final_digest_witness :
    (sunxi_hash_final hw_digest (sunxi_hash_init "sha1" sunxi_cipher_init []).op
        (List.replicate 24 0xff)).result =
      ((List.range 5).flatMap fun i => be32 (hw_digest.md i)) ++
        (List.replicate 24 0xff).drop 20 :=
  (hash_final_digest hw_digest (sunxi_hash_init "sha1" sunxi_cipher_init []).op
    (List.replicate 24 0xff) (by decide)).1 (by decide) (by decide)

/-! ## C12 to C16: the PRNG -/

/-- C12: asked for 25 bytes, `sunxi_ss_rng_get_random` returns 25, not 20,
although it has written only the first 20 bytes of the output. -/
theorem rng_get_random_returns_dlen :
    (sunxi_ss_rng_get_random hw_rng prng_blank (some (List.replicate 32 0xff)) 25).ret = 25 ∧
      min 25 20 = 20 ∧
      ((sunxi_ss_rng_get_random hw_rng prng_blank (some (List.replicate 32 0xff)) 25).rdata.map
        fun b => b.drop 20) = some (List.replicate 12 0xff) ∧
      ((sunxi_ss_rng_get_random hw_rng prng_blank (some (List.replicate 32 0xff)) 25).rdata.map
        fun b => b.take 20) = some ((List.range 20).map fun k => k + 1) := by
  decide

/-- C13: asked for 1 byte, `sunxi_ss_rng_get_random` writes the four bytes of
the word read from `SS_MD0`: bytes 1, 2 and 3 of the output buffer, past the
byte asked for, are overwritten. -/
theorem rng_get_random_writes_past_dlen :
    (sunxi_ss_rng_get_random hw_rng prng_blank (some (List.replicate 8 0xff)) 1).rdata =
        some [1, 2, 3, 4, 0xff, 0xff, 0xff, 0xff] ∧
      ((sunxi_ss_rng_get_random hw_rng prng_blank (some (List.replicate 8 0xff)) 1).rdata.map
        fun b => b.drop (min 1 20)) ≠ some ((List.replicate 8 0xff).drop (min 1 20)) := by
  decide

/-- C14: with a seed of 8 bytes, the value written to `SS_KEY0 + 4` is word 4
of the stored seed, not word 1: the loop index counts bytes and is used as a
word index. -/
theorem rng_seed_word_misindexed :
    writesTo (SS_KEY0 + 4)
        (sunxi_ss_rng_get_random hw_rng prng_two_words (some (List.replicate 8 0)) 8).trace =
        [0x55555555] ∧
      prng_two_words.ctx.seed.getD 4 0 = 0x55555555 ∧
      prng_two_words.ctx.seed.getD 1 0 = 0x22222222 := by
  decide

/-- C16: after a successful reset with the two seed bytes `1, 2`, the first
two bytes of the seed storage are `1, 0`: each seed byte has been stored in a
32-bit word of its own. -/
theorem rng_reset_spreads_seed_bytes :
    (sunxi_ss_rng_reset prng_blank [1, 2] 2).1 = 0 ∧
      (sunxi_ss_rng_reset prng_blank [1, 2] 2).2.ctx.seed = [1, 2, 0, 0, 0, 0] ∧
      (seed_bytes (sunxi_ss_rng_reset prng_blank [1, 2] 2).2.ctx).take 2 = [1, 0] ∧
      (seed_bytes (sunxi_ss_rng_reset prng_blank [1, 2] 2).2.ctx).take 2 ≠ [1, 2] := by
  decide

/-- C15: `sunxi_ss_rng_reset` returns `-EINVAL` exactly when `slen > 24`, and
then leaves the context (seed and seed length) as it was; with `slen = 0` it
returns `0` and sets the stored length to `0`; with `0 < slen <= 24` it
returns `0` and records `slen`. -/
theorem rng_reset_return (m : PrngMem) (seed : List Nat) (slen : Nat) :
    ((sunxi_ss_rng_reset m seed slen).1 = -EINVAL ↔ slen > 24) ∧
      (slen > 24 → (sunxi_ss_rng_reset m seed slen).2 = m) ∧
      (slen = 0 → (sunxi_ss_rng_reset m seed slen).1 = 0 ∧
        (sunxi_ss_rng_reset m seed slen).2.ctx.slen = 0 ∧
        (sunxi_ss_rng_reset m seed slen).2.ctx.seed = m.ctx.seed) ∧
      (0 < slen → slen ≤ 24 → (sunxi_ss_rng_reset m seed slen).1 = 0 ∧
        (sunxi_ss_rng_reset m seed slen).2.ctx.slen = slen) := by
  have hE : (0 : Int) ≠ -EINVAL := by decide
  have h24 : SS_SEED_LEN = 24 := rfl
  unfold sunxi_ss_rng_reset
  rw [h24]
  by_cases h0 : slen = 0
  · subst h0
    simp [hE]
  · by_cases h1 : slen > 24
    · simp [h0, h1]
    · simp only [h0, h1, if_false]
      refine ⟨?_, ?_, ?_, ?_⟩
      · simp [hE, h1]
      · intro h
        exact h.elim
      · intro h
        exact h.elim
      · intro _ _
        simp

/-- Witness of C15: a seed of two bytes is accepted and its length recorded. -/
theorem rng_reset_return_witness :
    (sunxi_ss_rng_reset prng_blank [1, 2] 2).1 = 0 ∧
      (sunxi_ss_rng_reset prng_blank [1, 2] 2).2.ctx.slen = 2 :=
  (rng_reset_return prng_blank [1, 2] 2).2.2.2 (by decide) (by decide)

/-! ## C17 to C19: staging buffers and null lists -/

theorem stage_in_grow (hw : Device) (ss : sunxi_ss_ctx) (n : Nat)
    (h : ss.buf_in = none ∨ n > ss.buf_in_size) :
    stage_in hw ss n = ({ ss with buf_in := kmalloc hw 0 n, buf_in_size := n }, 1) := by
  unfold stage_in
  cases hb : ss.buf_in with
  | none => rfl
  | some b =>
    rw [hb] at h
    simp only []
    rw [if_pos (by simpa using h)]

theorem stage_in_keep (hw : Device) (ss : sunxi_ss_ctx) (n : Nat) (b : List Nat)
    (hb : ss.buf_in = some b) (h : n ≤ ss.buf_in_size) : stage_in hw ss n = (ss, 0) := by
  unfold stage_in
  rw [hb]
  simp only []
  rw [if_neg (by omega)]

theorem stage_out_grow (hw : Device) (ss : sunxi_ss_ctx) (n k : Nat)
    (h : ss.buf_out = none ∨ n > ss.buf_out_size) :
    stage_out hw ss n k =
      match kmalloc hw k n with
      | none =>
        ({ ss with buf_out := none, buf_out_size := 0 },
          [Ev.mutex_lock Mutex.bufout_lock, Ev.mutex_unlock Mutex.bufout_lock], true)
      | some b =>
        ({ ss with buf_out := some b, buf_out_size := n },
          [Ev.mutex_lock Mutex.bufout_lock, Ev.mutex_unlock Mutex.bufout_lock], false) := by
  unfold stage_out
  cases hb : ss.buf_out with
  | none => rfl
  | some b =>
    rw [hb] at h
    simp only []
    rw [if_pos (by simpa using h)]

theorem stage_out_keep (hw : Device) (ss : sunxi_ss_ctx) (n k : Nat) (b : List Nat)
    (hb : ss.buf_out = some b) (h : n ≤ ss.buf_out_size) :
    stage_out hw ss n k = (ss, [], false) := by
  unfold stage_out
  rw [hb]
  simp only []
  rw [if_neg (by omega)]

theorem kmalloc_fail (hw : Device) (k n : Nat) (h : hw.kmalloc_ok k = false) :
    kmalloc hw k n = none := by
  simp [kmalloc, h]

/-- C17 (amended): when `sunxi_des_poll` has to grow a staging buffer and the
allocation fails, it returns `-ENOMEM` without any register access, and the
buffer that was to grow is left absent with recorded size 0 (the buffer held
before has been freed); the other buffer is as the call found it (`buf_out`)
or as staged (`buf_in`). -/
theorem des_alloc_failure (fuel : Nat) (hw : Device) (ss : sunxi_ss_ctx)
    (op : sunxi_req_ctx) (ivsize : Nat) (areq : ablkcipher_request)
    (hchunk : no_chunk areq = false) :
    ((ss.buf_in = none ∨ areq.nbytes > ss.buf_in_size) → hw.kmalloc_ok 0 = false →
      ∃ r, sunxi_des_poll fuel hw ss op ivsize areq = some r ∧
        r.exit = Exit.returned (-ENOMEM) ∧ (∀ e ∈ r.trace, e.isReg = false) ∧
        r.ss.buf_in = none ∧ r.ss.buf_in_size = 0 ∧
        r.ss.buf_out = ss.buf_out ∧ r.ss.buf_out_size = ss.buf_out_size) ∧
    (∀ b, (stage_in hw ss areq.nbytes).1.buf_in = some b →
      (ss.buf_out = none ∨ areq.nbytes > ss.buf_out_size) →
      hw.kmalloc_ok (stage_in hw ss areq.nbytes).2 = false →
      ∃ r, sunxi_des_poll fuel hw ss op ivsize areq = some r ∧
        r.exit = Exit.returned (-ENOMEM) ∧ (∀ e ∈ r.trace, e.isReg = false) ∧
        r.ss.buf_out = none ∧ r.ss.buf_out_size = 0 ∧ r.ss.buf_in = some b) := by
  have hc : ¬ (no_chunk areq = true) := by rw [hchunk]; decide
  refine ⟨?_, ?_⟩
  · intro hneed hfail
    unfold sunxi_des_poll
    rw [if_neg hc, stage_in_grow hw ss _ hneed, kmalloc_fail hw 0 _ hfail]
    exact ⟨_, rfl, rfl, by simp [Ev.isReg], rfl, rfl, rfl, rfl⟩
  · intro b hb hneed hfail
    have hso : (stage_in hw ss areq.nbytes).1.buf_out = ss.buf_out ∧
        (stage_in hw ss areq.nbytes).1.buf_out_size = ss.buf_out_size := by
      unfold stage_in
      split
      · exact ⟨rfl, rfl⟩
      · split <;> exact ⟨rfl, rfl⟩
    unfold sunxi_des_poll
    rw [if_neg hc]
    simp only []
    rw [hb]
    simp only []
    rw [stage_out_grow hw _ _ _ (by rw [hso.1, hso.2]; exact hneed), kmalloc_fail hw _ _ hfail]
    exact ⟨_, rfl, rfl, by simp [Ev.isReg], rfl, rfl, hb⟩

/-- Counterexample to C17 as stated: buffers of four bytes are held, a
request of eight bytes makes `buf_in` grow and the allocation fails; the
call returns `-ENOMEM` and the buffer held before is gone, its recorded size
reset to 0. -/
theorem des_alloc_failure_drops_buffer_counterexample :
    ∃ r, sunxi_des_poll 1 hw_nomem ss_held sunxi_cipher_init 8 req_chunked = some r ∧
      r.exit = Exit.returned (-ENOMEM) ∧
      ss_held.buf_in = some (List.replicate 4 0) ∧ ss_held.buf_in_size = 4 ∧
      r.ss.buf_in = none ∧ r.ss.buf_in_size = 0 ∧
      r.ss.buf_in ≠ ss_held.buf_in ∧ r.ss.buf_in_size ≠ ss_held.buf_in_size := by
  refine ⟨_, rfl, ?_⟩
  decide

/-- Witness of C17: the same request when the first allocation fails, and
when the second one does. -/
theorem des_alloc_failure_witness :
    (∃ r, sunxi_des_poll 1 hw_nomem ss_held sunxi_cipher_init 8 req_chunked = some r ∧
        r.exit = Exit.returned (-ENOMEM) ∧ (∀ e ∈ r.trace, e.isReg = false) ∧
        r.ss.buf_in = none ∧ r.ss.buf_in_size = 0 ∧
        r.ss.buf_out = ss_held.buf_out ∧ r.ss.buf_out_size = ss_held.buf_out_size) ∧
    (∃ r, sunxi_des_poll 1 hw_nomem_out ss_held sunxi_cipher_init 8 req_chunked = some r ∧
        r.exit = Exit.returned (-ENOMEM) ∧ (∀ e ∈ r.trace, e.isReg = false) ∧
        r.ss.buf_out = none ∧ r.ss.buf_out_size = 0 ∧
        r.ss.buf_in = some (List.replicate 8 0)) :=
  ⟨(des_alloc_failure 1 hw_nomem ss_held sunxi_cipher_init 8 req_chunked (by decide)).1
      (by decide) (by decide),
    (des_alloc_failure 1 hw_nomem_out ss_held sunxi_cipher_init 8 req_chunked (by decide)).2
      (List.replicate 8 0) (by decide) (by decide) (by decide)⟩

/-- C19: with a `NULL` source list, or a `NULL` destination list,
`sunxi_aes_poll` dereferences the list in its initialisers
(`areq->src->length`, `areq->dst->length`) before it tests it: the call does
not return `-EINVAL`. -/
theorem aes_poll_null_list_dereferenced :
    (∃ r, sunxi_aes_poll 1 hw_paced ss_empty sunxi_cipher_init 16
        { nbytes := 8, src := [], dst := [⟨List.replicate 8 0, true⟩],
          info := some (List.replicate 16 0) } = some r ∧
      r.exit = Exit.null_deref ∧ r.exit ≠ Exit.returned (-EINVAL)) ∧
    (∃ r, sunxi_aes_poll 1 hw_paced ss_empty sunxi_cipher_init 16
        { nbytes := 8, src := [⟨List.replicate 8 0, true⟩], dst := [],
          info := some (List.replicate 16 0) } = some r ∧
      r.exit = Exit.null_deref ∧ r.exit ≠ Exit.returned (-EINVAL)) := by
  refine ⟨⟨_, rfl, ?_⟩, ⟨_, rfl, ?_⟩⟩ <;> decide

theorem aes_poll_ss (fuel : Nat) (hw : Device) (ss : sunxi_ss_ctx) (op : sunxi_req_ctx)
    (ivsize : Nat) (areq : ablkcipher_request) (r : CipherRet)
    (h : sunxi_aes_poll fuel hw ss op ivsize areq = some r) : r.ss = ss := by
  unfold sunxi_aes_poll at h
  split at h
  · simp only [Option.some.injEq] at h; rw [← h]
  · simp only [Option.some.injEq] at h; rw [← h]
  · simp only [] at h
    split at h
    · split at h
      · simp only [Option.some.injEq] at h; rw [← h]
      · split at h
        · simp only [Option.some.injEq] at h; rw [← h]
        · split at h
          · simp at h
          · simp only [Option.some.injEq] at h; rw [← h]
    · split at h
      · simp only [Option.some.injEq] at h; rw [← h]
      · split at h
        · simp only [Option.some.injEq] at h; rw [← h]
        · split at h
          · simp at h
          · simp only [Option.some.injEq] at h; rw [← h]
          · simp only [Option.some.injEq] at h; rw [← h]

/-- In a state of the staging buffers where an absent buffer has recorded
size 0, what a call of `sunxi_des_poll` leaves: the same property, and after
a completed linearization both sizes are the maximum of the former size and
`nbytes`. -/
theorem des_poll_sizes (fuel : Nat) (hw : Device) (ss : sunxi_ss_ctx) (op : sunxi_req_ctx)
    (ivsize : Nat) (areq : ablkcipher_request) (r : CipherRet)
    (j1 : ss.buf_in = none → ss.buf_in_size = 0) (j2 : ss.buf_out = none → ss.buf_out_size = 0)
    (hrun : sunxi_des_poll fuel hw ss op ivsize areq = some r) :
    (r.ss.buf_in = none → r.ss.buf_in_size = 0) ∧
      (r.ss.buf_out = none → r.ss.buf_out_size = 0) ∧
      (no_chunk areq = false → r.exit = Exit.returned 0 →
        r.ss.buf_in_size = max ss.buf_in_size areq.nbytes ∧
        r.ss.buf_out_size = max ss.buf_out_size areq.nbytes ∧
        r.ss.buf_in ≠ none ∧ r.ss.buf_out ≠ none) := by
  unfold sunxi_des_poll at hrun
  by_cases hc : no_chunk areq = true
  · rw [if_pos hc] at hrun
    rw [aes_poll_ss _ _ _ _ _ _ _ hrun]
    refine ⟨j1, j2, ?_⟩
    intro h
    rw [hc] at h
    exact absurd h (by decide)
  · rw [if_neg hc] at hrun
    simp only [] at hrun
    have hsi : (stage_in hw ss areq.nbytes).1.buf_out = ss.buf_out ∧
        (stage_in hw ss areq.nbytes).1.buf_out_size = ss.buf_out_size ∧
        ((stage_in hw ss areq.nbytes).1.buf_in ≠ none →
          (stage_in hw ss areq.nbytes).1.buf_in_size = max ss.buf_in_size areq.nbytes) := by
      unfold stage_in
      cases hb : ss.buf_in with
      | none =>
        refine ⟨rfl, rfl, fun _ => ?_⟩
        simp only []
        rw [j1 hb]
        omega
      | some b =>
        simp only []
        split
        · refine ⟨rfl, rfl, fun _ => ?_⟩
          simp only []
          omega
        · rename_i hg
          refine ⟨rfl, rfl, fun _ => ?_⟩
          simp only []
          omega
    obtain ⟨s1, s2, s3⟩ := hsi
    generalize stage_in hw ss areq.nbytes = si at hrun s1 s2 s3
    obtain ⟨ss1, k⟩ := si
    simp only [] at hrun s1 s2 s3
    cases hb1 : ss1.buf_in with
    | none =>
      rw [hb1] at hrun
      simp only [Option.some.injEq] at hrun
      subst hrun
      refine ⟨fun _ => rfl, ?_, ?_⟩
      · simp only []
        rw [s1, s2]
        exact j2
      · intro _ h
        simp at h
        exact absurd h (by decide)
    | some b1 =>
      rw [hb1] at hrun
      simp only [] at hrun
      have hso : (stage_out hw ss1 areq.nbytes k).1.buf_in = ss1.buf_in ∧
          (stage_out hw ss1 areq.nbytes k).1.buf_in_size = ss1.buf_in_size ∧
          ((stage_out hw ss1 areq.nbytes k).1.buf_out = none →
            (stage_out hw ss1 areq.nbytes k).1.buf_out_size = 0) ∧
          ((stage_out hw ss1 areq.nbytes k).2.2 = false →
            (stage_out hw ss1 areq.nbytes k).1.buf_out ≠ none ∧
            (stage_out hw ss1 areq.nbytes k).1.buf_out_size =
              max ss.buf_out_size areq.nbytes) := by
        unfold stage_out
        cases hb : ss1.buf_out with
        | none =>
          have hz : ss.buf_out_size = 0 := j2 (by rw [← s1]; exact hb)
          simp only []
          cases kmalloc hw k areq.nbytes with
          | none => exact ⟨rfl, rfl, fun _ => rfl, fun h => by simp at h⟩
          | some b =>
            refine ⟨rfl, rfl, fun h => by simp at h, fun _ => ⟨by simp, ?_⟩⟩
            simp only []
            omega
        | some b0 =>
          simp only []
          split
          · cases kmalloc hw k areq.nbytes with
            | none => exact ⟨rfl, rfl, fun _ => rfl, fun h => by simp at h⟩
            | some b =>
              refine ⟨rfl, rfl, fun h => by simp at h, fun _ => ⟨by simp, ?_⟩⟩
              simp only []
              omega
          · refine ⟨rfl, rfl, fun h => ?_, fun _ => ⟨?_, ?_⟩⟩
            · simp only [] at h
              rw [hb] at h
              simp at h
            · simp only []
              rw [hb]
              simp
            · simp only []
              omega
      obtain ⟨o1, o2, o3, o4⟩ := hso
      generalize stage_out hw ss1 areq.nbytes k = so at hrun o1 o2 o3 o4
      obtain ⟨ss2, e_out, failed⟩ := so
      simp only [] at hrun o1 o2 o3 o4
      cases failed with
      | true =>
        simp only [if_true, Option.some.injEq] at hrun
        subst hrun
        refine ⟨?_, o3, ?_⟩
        · intro h
          simp only [] at h
          rw [o1, hb1] at h
          simp at h
        · intro _ h
          simp at h
          exact absurd h (by decide)
      | false =>
        simp only [Bool.false_eq_true, if_false] at hrun
        split at hrun
        · simp at hrun
        · simp only [Option.some.injEq] at hrun
          subst hrun
          simp only []
          refine ⟨fun h => by simp at h, fun h => by simp at h,
            fun _ _ => ⟨?_, (o4 rfl).2, by simp, by simp⟩⟩
          rw [o2]
          exact s3 (by rw [hb1]; simp)

theorem reachable_sizes (ss : sunxi_ss_ctx) (h : Reachable ss) :
    (ss.buf_in = none → ss.buf_in_size = 0) ∧ (ss.buf_out = none → ss.buf_out_size = 0) := by
  induction h with
  | init => exact ⟨fun _ => rfl, fun _ => rfl⟩
  | step fuel hw ss op ivsize areq r _ hrun ih =>
    obtain ⟨a, b, _⟩ := des_poll_sizes fuel hw ss op ivsize areq r ih.1 ih.2 hrun
    exact ⟨a, b⟩

theorem des_pop_congr (hw hw' : Device) (htx : hw'.tx = hw.tx) (nbytes : Nat) :
    ∀ (fuel : Nat) (s : DesState), des_pop hw' nbytes fuel s = des_pop hw nbytes fuel s := by
  intro fuel
  induction fuel with
  | zero => intro s; rfl
  | succ fuel ih =>
    intro s
    unfold des_pop
    simp only [htx, ih]

theorem des_iter_congr (hw hw' : Device) (htx : hw'.tx = hw.tx) (hf : hw'.fcsr = hw.fcsr)
    (buf_in : List Nat) (nbytes : Nat) (s : DesState) :
    des_iter hw' buf_in nbytes s = des_iter hw buf_in nbytes s := by
  unfold des_iter
  simp only [hf, des_pop_congr hw hw' htx]

theorem des_loop_congr (hw hw' : Device) (htx : hw'.tx = hw.tx) (hf : hw'.fcsr = hw.fcsr)
    (buf_in : List Nat) (nbytes : Nat) :
    ∀ (fuel : Nat) (s : DesState),
      des_loop hw' buf_in nbytes fuel s = des_loop hw buf_in nbytes fuel s := by
  intro fuel
  induction fuel with
  | zero => intro s; rfl
  | succ fuel ih =>
    intro s
    unfold des_loop
    simp only [des_iter_congr hw hw' htx hf, ih]

/-- C18: in every state of the staging buffers reachable from the initial
one, a call of `sunxi_des_poll` that completes the linearization path for a
request of `nbytes` bytes leaves `buf_in_size` and `buf_out_size` equal to the
maximum of their former value and `nbytes`, so that neither decreases, and
leaves both buffers present; a request that is not larger than the buffers
present leaves the sizes as they are and makes no allocation at all (the call
gives the same result when every `kmalloc` would fail). -/
theorem staging_never_shrinks (ss : sunxi_ss_ctx) (hreach : Reachable ss) (fuel : Nat)
    (hw : Device) (op : sunxi_req_ctx) (ivsize : Nat) (areq : ablkcipher_request)
    (r : CipherRet) (hchunk : no_chunk areq = false)
    (hrun : sunxi_des_poll fuel hw ss op ivsize areq = some r)
    (hok : r.exit = Exit.returned 0) :
    r.ss.buf_in_size = max ss.buf_in_size areq.nbytes ∧
      r.ss.buf_out_size = max ss.buf_out_size areq.nbytes ∧
      ss.buf_in_size ≤ r.ss.buf_in_size ∧ ss.buf_out_size ≤ r.ss.buf_out_size ∧
      Reachable r.ss ∧ r.ss.buf_in ≠ none ∧ r.ss.buf_out ≠ none ∧
      (ss.buf_in ≠ none → ss.buf_out ≠ none →
        areq.nbytes ≤ ss.buf_in_size → areq.nbytes ≤ ss.buf_out_size →
        r.ss.buf_in_size = ss.buf_in_size ∧ r.ss.buf_out_size = ss.buf_out_size ∧
        sunxi_des_poll fuel { hw with kmalloc_ok := fun _ => false } ss op ivsize areq =
          some r) := by
  obtain ⟨j1, j2⟩ := reachable_sizes ss hreach
  obtain ⟨_, _, h3⟩ := des_poll_sizes fuel hw ss op ivsize areq r j1 j2 hrun
  obtain ⟨a, b, p1, p2⟩ := h3 hchunk hok
  refine ⟨a, b, by omega, by omega, Reachable.step fuel hw ss op ivsize areq r hreach hrun,
    p1, p2, ?_⟩
  intro hni hno hi ho
  refine ⟨by omega, by omega, ?_⟩
  have hc : ¬ (no_chunk areq = true) := by rw [hchunk]; decide
  obtain ⟨bi, hbi⟩ : ∃ bi, ss.buf_in = some bi := by
    cases hb : ss.buf_in with
    | none => exact absurd hb hni
    | some bi => exact ⟨bi, rfl⟩
  obtain ⟨bo, hbo⟩ : ∃ bo, ss.buf_out = some bo := by
    cases hb : ss.buf_out with
    | none => exact absurd hb hno
    | some bo => exact ⟨bo, rfl⟩
  rw [← hrun]
  unfold sunxi_des_poll
  rw [if_neg hc, if_neg hc, stage_in_keep hw ss _ bi hbi hi, stage_in_keep _ ss _ bi hbi hi]
  simp only []
  rw [hbi]
  simp only []
  rw [stage_out_keep hw ss _ _ bo hbo ho, stage_out_keep _ ss _ _ bo hbo ho]
  simp only [Bool.false_eq_true, if_false]
  rw [des_loop_congr hw { hw with kmalloc_ok := fun _ => false } rfl rfl]

/-- Witness of C18: from the initial state, a request of eight bytes brings
both sizes to 8. -/
theorem staging_never_shrinks_witness :
    ∃ r, sunxi_des_poll 3 hw_two ss_empty sunxi_cipher_init 8 req_chunked = some r ∧
      r.ss.buf_in_size = max ss_empty.buf_in_size req_chunked.nbytes ∧
      r.ss.buf_out_size = max ss_empty.buf_out_size req_chunked.nbytes ∧
      r.ss.buf_in_size = 8 ∧ r.ss.buf_out_size = 8 :=
  ⟨_, rfl,
    (staging_never_shrinks ss_empty Reachable.init 3 hw_two sunxi_cipher_init 8 req_chunked _
      (by decide) rfl (by decide)).1,
    (staging_never_shrinks ss_empty Reachable.init 3 hw_two sunxi_cipher_init 8 req_chunked _
      (by decide) rfl (by decide)).2.1, by decide, by decide⟩

/-! ## The key and IV writes over a whole trace -/

theorem keyIvWrites_append (a b : List Ev) :
    keyIvWrites (a ++ b) = keyIvWrites a ++ keyIvWrites b := by
  simp [keyIvWrites]

theorem keyIvWrites_nil : keyIvWrites [] = [] := rfl

theorem keyIvWrites_cons_kmap (a : Bool) (k : Nat) (t : List Ev) :
    keyIvWrites (Ev.kmap a k :: t) = keyIvWrites t := by
  simp [keyIvWrites]

theorem keyIvWrites_cons_kunmap (a : Bool) (k : Nat) (t : List Ev) :
    keyIvWrites (Ev.kunmap a k :: t) = keyIvWrites t := by
  simp [keyIvWrites]

theorem keyIvWrites_cons_lock (m : Mutex) (t : List Ev) :
    keyIvWrites (Ev.mutex_lock m :: t) = keyIvWrites t := by
  simp [keyIvWrites]

theorem keyIvWrites_cons_unlock (m : Mutex) (t : List Ev) :
    keyIvWrites (Ev.mutex_unlock m :: t) = keyIvWrites t := by
  simp [keyIvWrites]

theorem keyIvWrites_cons_ctl (v : Nat) (t : List Ev) :
    keyIvWrites (Ev.writel v SS_CTL :: t) = keyIvWrites t := by
  have hrx : ¬ (SS_KEY0 ≤ SS_CTL ∧ SS_CTL ≤ SS_IV3) := by decide
  simp [keyIvWrites, hrx]

theorem keyIvWrites_cons_readl (reg v : Nat) (t : List Ev) :
    keyIvWrites (Ev.readl reg v :: t) = keyIvWrites t := by
  simp [keyIvWrites]

theorem keyIvWrites_cons_rx (v : Nat) (t : List Ev) :
    keyIvWrites (Ev.writel v SS_RXFIFO :: t) = keyIvWrites t := by
  have hrx : ¬ (SS_KEY0 ≤ SS_RXFIFO ∧ SS_RXFIFO ≤ SS_IV3) := by decide
  simp [keyIvWrites, hrx]

theorem keyIvWrites_push (mem : List Nat) (si n : Nat) :
    keyIvWrites (push_words mem si n) = [] := by
  have hrx : ¬ (SS_KEY0 ≤ SS_RXFIFO ∧ SS_RXFIFO ≤ SS_IV3) := by decide
  simp [keyIvWrites, push_words, List.filterMap_map, Function.comp_def, hrx]

theorem keyIvWrites_pop (tx : Nat → Nat) (nt n : Nat) :
    keyIvWrites (pop_events tx nt n) = [] := by
  simp [keyIvWrites, pop_events, List.filterMap_map, Function.comp_def]

theorem keyIvWrites_fast_iter (hw : Device) (src : List Nat) (s : FastState) :
    keyIvWrites (fast_iter hw src s).2 = [] := by
  unfold fast_iter
  simp only []
  split <;> split <;>
    simp only [keyIvWrites_append, keyIvWrites_push, keyIvWrites_pop,
      keyIvWrites_cons_readl, keyIvWrites_cons_kmap,
      keyIvWrites_cons_kunmap, keyIvWrites_cons_lock, keyIvWrites_cons_unlock,
      keyIvWrites_nil, List.append_nil, List.nil_append]

theorem keyIvWrites_fast_loop (hw : Device) (src : List Nat) :
    ∀ (fuel : Nat) (s s' : FastState) (e : List Ev),
      fast_loop hw src fuel s = some (s', e) → keyIvWrites e = [] := by
  intro fuel
  induction fuel with
  | zero => intro s s' e h; simp [fast_loop] at h
  | succ fuel ih =>
    intro s s' e h
    unfold fast_loop at h
    have hi := keyIvWrites_fast_iter hw src s
    rcases hit : fast_iter hw src s with ⟨s1, e1⟩
    rw [hit] at h hi
    simp only [] at h hi
    split at h
    · split at h
      · simp at h
      · rename_i s2 e2 hrec
        simp only [Option.some.injEq, Prod.mk.injEq] at h
        rw [← h.2, keyIvWrites_append, hi, ih _ _ _ hrec]
        rfl
    · simp only [Option.some.injEq, Prod.mk.injEq] at h
      rw [← h.2, hi]

theorem keyIvWrites_seg_input (src : List Sg) (rx : Nat) (s : SegState) :
    keyIvWrites (seg_input src rx s).2.1 = [] := by
  unfold seg_input
  simp only []
  repeat' split
  all_goals simp only [keyIvWrites_append, keyIvWrites_push, keyIvWrites_pop,
      keyIvWrites_cons_readl, keyIvWrites_cons_kmap,
      keyIvWrites_cons_kunmap, keyIvWrites_cons_lock, keyIvWrites_cons_unlock,
      keyIvWrites_nil, List.append_nil, List.nil_append]

theorem keyIvWrites_seg_output (hw : Device) (dst : List Sg) (tx : Nat) (s : SegState) :
    keyIvWrites (seg_output hw dst tx s).2.1 = [] := by
  unfold seg_output
  simp only []
  repeat' split
  all_goals simp only [keyIvWrites_append, keyIvWrites_push, keyIvWrites_pop,
      keyIvWrites_cons_readl, keyIvWrites_cons_kmap,
      keyIvWrites_cons_kunmap, keyIvWrites_cons_lock, keyIvWrites_cons_unlock,
      keyIvWrites_nil, List.append_nil, List.nil_append]

theorem keyIvWrites_seg_iter (hw : Device) (src dst : List Sg) (s : SegState) :
    keyIvWrites (seg_iter hw src dst s).2.1 = [] := by
  unfold seg_iter
  simp only []
  have h1 := keyIvWrites_seg_input src (SS_RXFIFO_SPACES (hw.fcsr s.nf)) { s with nf := s.nf + 1 }
  rcases hri : seg_input src (SS_RXFIFO_SPACES (hw.fcsr s.nf)) { s with nf := s.nf + 1 }
    with ⟨s1, e1, f1⟩
  rw [hri] at h1
  simp only [] at h1 ⊢
  split
  · simp [keyIvWrites_cons_readl, h1]
  · have h2 := keyIvWrites_seg_output hw dst (SS_TXFIFO_SPACES (hw.fcsr s.nf)) s1
    rcases hro : seg_output hw dst (SS_TXFIFO_SPACES (hw.fcsr s.nf)) s1 with ⟨s2, e2, f2⟩
    rw [hro] at h2
    simp only [] at h2 ⊢
    rw [List.cons_append, keyIvWrites_cons_readl, keyIvWrites_append, h1, h2]
    rfl

theorem keyIvWrites_seg_loop (hw : Device) (src dst : List Sg) :
    ∀ (fuel : Nat) (s s' : SegState) (e : List Ev) (f : Bool),
      seg_loop hw src dst fuel s = some (s', e, f) → keyIvWrites e = [] := by
  intro fuel
  induction fuel with
  | zero => intro s s' e f h; simp [seg_loop] at h
  | succ fuel ih =>
    intro s s' e f h
    unfold seg_loop at h
    have hi := keyIvWrites_seg_iter hw src dst s
    rcases hit : seg_iter hw src dst s with ⟨s1, e1, f1⟩
    rw [hit] at h hi
    simp only [] at h hi
    split at h
    · simp only [Option.some.injEq, Prod.mk.injEq] at h
      rw [← h.2.1, hi]
    · split at h
      · split at h
        · simp at h
        · rename_i s2 e2 f2 hrec
          simp only [Option.some.injEq, Prod.mk.injEq] at h
          rw [← h.2.1, keyIvWrites_append, hi, ih _ _ _ _ hrec]
          rfl
      · simp only [Option.some.injEq, Prod.mk.injEq] at h
        rw [← h.2.1, hi]

theorem keyIvWrites_des_push (buf_in : List Nat) (nbytes : Nat) :
    ∀ (fuel : Nat) (s : DesState), keyIvWrites (des_push buf_in nbytes fuel s).2 = [] := by
  intro fuel
  induction fuel with
  | zero => intro s; rfl
  | succ fuel ih =>
    intro s
    unfold des_push
    simp only []
    split
    · rw [keyIvWrites_cons_rx]
      exact ih _
    · rw [keyIvWrites_cons_rx]
      rfl

theorem keyIvWrites_des_pop (hw : Device) (nbytes : Nat) :
    ∀ (fuel : Nat) (s : DesState), keyIvWrites (des_pop hw nbytes fuel s).2 = [] := by
  intro fuel
  induction fuel with
  | zero => intro s; rfl
  | succ fuel ih =>
    intro s
    unfold des_pop
    simp only []
    split
    · rw [keyIvWrites_cons_readl]
      exact ih _
    · rw [keyIvWrites_cons_readl]
      rfl

theorem keyIvWrites_des_iter (hw : Device) (buf_in : List Nat) (nbytes : Nat) (s : DesState) :
    keyIvWrites (des_iter hw buf_in nbytes s).2 = [] := by
  unfold des_iter
  simp only []
  split <;> split <;> split <;> split <;>
    simp only [keyIvWrites_append, keyIvWrites_des_push, keyIvWrites_des_pop,
      keyIvWrites_cons_readl, keyIvWrites_cons_unlock, keyIvWrites_nil, List.append_nil,
      List.nil_append]

theorem keyIvWrites_des_loop (hw : Device) (buf_in : List Nat) (nbytes : Nat) :
    ∀ (fuel : Nat) (s s' : DesState) (e : List Ev),
      des_loop hw buf_in nbytes fuel s = some (s', e) → keyIvWrites e = [] := by
  intro fuel
  induction fuel with
  | zero => intro s s' e h; simp [des_loop] at h
  | succ fuel ih =>
    intro s s' e h
    unfold des_loop at h
    have hi := keyIvWrites_des_iter hw buf_in nbytes s
    rcases hit : des_iter hw buf_in nbytes s with ⟨s1, e1⟩
    rw [hit] at h hi
    simp only [] at h hi
    split at h
    · split at h
      · simp at h
      · rename_i s2 e2 hrec
        simp only [Option.some.injEq, Prod.mk.injEq] at h
        rw [← h.2, keyIvWrites_append, hi, ih _ _ _ hrec]
        rfl
    · simp only [Option.some.injEq, Prod.mk.injEq] at h
      rw [← h.2, hi]

theorem keyIvWrites_map (v g : Nat → Nat) :
    ∀ n : Nat, (∀ k, k < n → SS_KEY0 ≤ g k ∧ g k ≤ SS_IV3) →
      keyIvWrites ((List.range n).map fun k => Ev.writel (v k) (g k)) =
        (List.range n).map fun k => (g k, v k) := by
  intro n
  induction n with
  | zero => intro _; rfl
  | succ n ih =>
    intro h
    rw [List.range_succ, List.map_append, List.map_append, keyIvWrites_append,
      ih (fun k hk => h k (by omega))]
    simp [keyIvWrites, h n (by omega)]

theorem keyIvWrites_load (op : sunxi_req_ctx) (ivsize : Nat) (iv : List Nat)
    (hk : op.keylen ≤ 32) :
    keyIvWrites (load_key_iv op ivsize (some iv)) =
      ((List.range ((op.keylen + 3) / 4)).map fun k => (SS_KEY0 + 4 * k, load32 op.key (4 * k)))
        ++ (List.range (min 4 (ivsize / 4))).map fun j => (SS_IV0 + j * 4, load32 iv (j * 4)) := by
  unfold load_key_iv
  simp only []
  rw [keyIvWrites_append, keyIvWrites_map (fun k => load32 op.key (4 * k)) (fun k => SS_KEY0 + 4 * k),
    keyIvWrites_map (fun j => load32 iv (j * 4)) (fun j => SS_IV0 + j * 4)]
  · intro k hk2
    simp only [SS_KEY0, SS_IV0, SS_IV3]
    omega
  · intro k hk2
    simp only [SS_KEY0, SS_IV3]
    omega

theorem aes_poll_key_iv (fuel : Nat) (hw : Device) (ss : sunxi_ss_ctx) (op : sunxi_req_ctx)
    (ivsize : Nat) (areq : ablkcipher_request) (r : CipherRet)
    (hrun : sunxi_aes_poll fuel hw ss op ivsize areq = some r)
    (hlock : Ev.mutex_lock Mutex.lock ∈ r.trace) :
    keyIvWrites r.trace = keyIvWrites (load_key_iv op ivsize areq.info) := by
  unfold sunxi_aes_poll at hrun
  split at hrun
  · simp only [Option.some.injEq] at hrun
    rw [← hrun] at hlock
    simp at hlock
  · simp only [Option.some.injEq] at hrun
    rw [← hrun] at hlock
    simp at hlock
  · simp only [] at hrun
    split at hrun
    · split at hrun
      · simp only [Option.some.injEq] at hrun
        rw [← hrun]
        simp only [keyIvWrites_append, keyIvWrites_cons_readl, keyIvWrites_cons_kmap,
          keyIvWrites_cons_kunmap, keyIvWrites_cons_lock, keyIvWrites_cons_unlock,
          keyIvWrites_cons_ctl, keyIvWrites_nil, List.append_nil, List.nil_append]
      · split at hrun
        · simp only [Option.some.injEq] at hrun
          rw [← hrun]
          simp only [keyIvWrites_append, keyIvWrites_cons_readl, keyIvWrites_cons_kmap,
            keyIvWrites_cons_kunmap, keyIvWrites_cons_lock, keyIvWrites_cons_unlock,
            keyIvWrites_cons_ctl, keyIvWrites_nil, List.append_nil, List.nil_append]
        · split at hrun
          · simp at hrun
          · rename_i s e hloop
            simp only [Option.some.injEq] at hrun
            rw [← hrun]
            simp only [keyIvWrites_append, keyIvWrites_cons_readl, keyIvWrites_cons_kmap,
              keyIvWrites_cons_kunmap, keyIvWrites_cons_lock, keyIvWrites_cons_unlock,
              keyIvWrites_cons_ctl, keyIvWrites_nil, List.append_nil, List.nil_append,
              keyIvWrites_fast_loop hw _ _ _ _ _ hloop]
    · split at hrun
      · simp only [Option.some.injEq] at hrun
        rw [← hrun]
        simp only [keyIvWrites_append, keyIvWrites_cons_readl, keyIvWrites_cons_kmap,
          keyIvWrites_cons_kunmap, keyIvWrites_cons_lock, keyIvWrites_cons_unlock,
          keyIvWrites_cons_ctl, keyIvWrites_nil, List.append_nil, List.nil_append]
      · split at hrun
        · simp only [Option.some.injEq] at hrun
          rw [← hrun]
          simp only [keyIvWrites_append, keyIvWrites_cons_readl, keyIvWrites_cons_kmap,
            keyIvWrites_cons_kunmap, keyIvWrites_cons_lock, keyIvWrites_cons_unlock,
            keyIvWrites_cons_ctl, keyIvWrites_nil, List.append_nil, List.nil_append]
        · split at hrun
          · simp at hrun
          · rename_i s e hloop
            simp only [Option.some.injEq] at hrun
            rw [← hrun]
            simp only [keyIvWrites_append, keyIvWrites_cons_readl, keyIvWrites_cons_kmap,
              keyIvWrites_cons_kunmap, keyIvWrites_cons_lock, keyIvWrites_cons_unlock,
              keyIvWrites_cons_ctl, keyIvWrites_nil, List.append_nil, List.nil_append,
              keyIvWrites_seg_loop hw _ _ _ _ _ _ _ hloop]
          · rename_i s e hloop
            simp only [Option.some.injEq] at hrun
            rw [← hrun]
            simp only [keyIvWrites_append, keyIvWrites_cons_readl, keyIvWrites_cons_kmap,
              keyIvWrites_cons_kunmap, keyIvWrites_cons_lock, keyIvWrites_cons_unlock,
              keyIvWrites_cons_ctl, keyIvWrites_nil, List.append_nil, List.nil_append,
              keyIvWrites_seg_loop hw _ _ _ _ _ _ _ hloop]

theorem keyIvWrites_stage_out (hw : Device) (ss : sunxi_ss_ctx) (n k : Nat) :
    keyIvWrites (stage_out hw ss n k).2.1 = [] := by
  unfold stage_out
  repeat' split
  all_goals rfl

theorem des_poll_key_iv (fuel : Nat) (hw : Device) (ss : sunxi_ss_ctx) (op : sunxi_req_ctx)
    (ivsize : Nat) (areq : ablkcipher_request) (r : CipherRet)
    (hrun : sunxi_des_poll fuel hw ss op ivsize areq = some r)
    (hlock : Ev.mutex_lock Mutex.lock ∈ r.trace) :
    keyIvWrites r.trace = keyIvWrites (load_key_iv op ivsize areq.info) := by
  unfold sunxi_des_poll at hrun
  split at hrun
  · exact aes_poll_key_iv fuel hw ss op ivsize areq r hrun hlock
  · simp only [] at hrun
    split at hrun
    · simp only [Option.some.injEq] at hrun
      rw [← hrun] at hlock
      simp at hlock
    · rename_i buf_in hb
      have ho := keyIvWrites_stage_out hw (stage_in hw ss areq.nbytes).1 areq.nbytes
        (stage_in hw ss areq.nbytes).2
      have hm : Ev.mutex_lock Mutex.lock ∉
          (stage_out hw (stage_in hw ss areq.nbytes).1 areq.nbytes
            (stage_in hw ss areq.nbytes).2).2.1 := by
        unfold stage_out
        repeat' split
        all_goals simp
      rcases hso : stage_out hw (stage_in hw ss areq.nbytes).1 areq.nbytes
        (stage_in hw ss areq.nbytes).2 with ⟨ss2, e_out, failed⟩
      rw [hso] at hrun ho hm
      simp only [] at hrun ho hm
      split at hrun
      · simp only [Option.some.injEq] at hrun
        rw [← hrun] at hlock
        simp [hm] at hlock
      · split at hrun
        · simp at hrun
        · rename_i s e hloop
          simp only [Option.some.injEq] at hrun
          rw [← hrun]
          simp only [keyIvWrites_append, keyIvWrites_cons_readl, keyIvWrites_cons_kmap,
            keyIvWrites_cons_kunmap, keyIvWrites_cons_lock, keyIvWrites_cons_unlock,
            keyIvWrites_cons_ctl, keyIvWrites_nil, List.append_nil, List.nil_append, ho,
            keyIvWrites_des_loop hw _ _ _ _ _ _ hloop]

/-! ## C25: the zero words of `sunxi_hash_final` -/

theorem final_zeros_words (op : sunxi_req_ctx) (q : Nat) (hq : op.byte_count = 4 * q)
    (hr : op.nbwait ≤ 3) :
    (final_zeros op).2 = (29 - q % 16) % 16 := by
  unfold final_zeros
  by_cases hm : op.mode = SS_OP_MD5
  · rw [if_pos hm]
    simp only [and_mask6]
    split
    · show (120 - (op.byte_count + 4) % 2 ^ 64 % 64) / 4 = _
      rename_i h
      omega
    · show (56 - (op.byte_count + 4) % 2 ^ 64 % 64) / 4 = _
      rename_i h
      omega
  · rw [if_neg hm]
    simp only [and_mask6]
    split <;> omega

theorem final_length_words (op : sunxi_req_ctx) : (rxWords (final_length op)).length = 2 := by
  unfold final_length
  split <;> simp [rxWords, writesTo]

theorem final_terminator_words (op : sunxi_req_ctx) :
    (rxWords (final_terminator op).2).length = 1 := by
  unfold final_terminator
  split <;> simp [rxWords, writesTo]

/-- C25: for a hash state with `byte_count = 4 * q` and `nbwait <= 3`, whatever
the mode (the MD5 branch or the other one, taken for SHA1), the number `z` of
zero words written by `sunxi_hash_final` after the terminator word is at most
15 and satisfies `4 * q + 4 + 4 * z = 56 (mod 64)`; it is `(29 - q % 16) % 16`
in both branches; `sunxi_hash_final` pushes `1 + z + 2` words, and with the
`q` data words the total is a multiple of 16. -/
theorem final_zero_words (hw : HashHW) (op : sunxi_req_ctx) (res : List Nat) (q : Nat)
    (hq : op.byte_count = 4 * q) (hr : op.nbwait ≤ 3) :
    (final_zeros (final_terminator op).1).2 ≤ 15 ∧
      (4 * q + 4 + 4 * (final_zeros (final_terminator op).1).2) % 64 = 56 ∧
      (final_zeros (final_terminator op).1).2 = (29 - q % 16) % 16 ∧
      (final_zeros (final_terminator { op with mode := SS_OP_MD5 }).1).2 =
        (final_zeros (final_terminator { op with mode := SS_OP_SHA1 }).1).2 ∧
      rxWords (sunxi_hash_final hw op res).trace =
        rxWords (final_terminator op).2 ++
          List.replicate (final_zeros (final_terminator op).1).2 0 ++
          rxWords (final_length (final_zeros (final_terminator op).1).1) ∧
      (rxWords (sunxi_hash_final hw op res).trace).length =
        1 + (final_zeros (final_terminator op).1).2 + 2 ∧
      (q + (rxWords (sunxi_hash_final hw op res).trace).length) % 16 = 0 := by
  obtain ⟨f1, f2, _⟩ := final_terminator_frame op
  have hz := final_zeros_words (final_terminator op).1 q (by rw [f1, hq])
    (by rw [f2]; exact hr)
  have hz1 := final_zeros_words (final_terminator { op with mode := SS_OP_MD5 }).1 q
    (by rw [(final_terminator_frame _).1]; exact hq)
    (by rw [(final_terminator_frame _).2.1]; exact hr)
  have hz2 := final_zeros_words (final_terminator { op with mode := SS_OP_SHA1 }).1 q
    (by rw [(final_terminator_frame _).1]; exact hq)
    (by rw [(final_terminator_frame _).2.1]; exact hr)
  have hl : (rxWords (sunxi_hash_final hw op res).trace).length =
      1 + (final_zeros (final_terminator op).1).2 + 2 := by
    rw [final_rxWords, List.length_append, List.length_append, List.length_replicate,
      final_terminator_words, final_length_words]
  refine ⟨by omega, by omega, hz, by rw [hz1, hz2], final_rxWords hw op res, hl, ?_⟩
  rw [hl, hz]
  omega

/-- Witness of C25: after 14 data words no zero word is needed; after 15, the
zero words fill a whole block. -/
theorem final_zero_words_witness :
    (final_zeros (final_terminator
        { sunxi_cipher_init with mode := SS_OP_SHA1, byte_count := 52 }).1).2 = (29 - 13 % 16) % 16 ∧
      (final_zeros (final_terminator
        { sunxi_cipher_init with mode := SS_OP_MD5, byte_count := 56, nbwait := 3 }).1).2 = 15 :=
  ⟨(final_zero_words hw_idle { sunxi_cipher_init with mode := SS_OP_SHA1, byte_count := 52 } []
      13 rfl (by decide)).2.2.1,
    (final_zero_words hw_idle
      { sunxi_cipher_init with mode := SS_OP_MD5, byte_count := 56, nbwait := 3 } []
      14 rfl (by decide)).2.2.1⟩

/-! ## C24: the residue invariant of the hash context -/

theorem waitbuf_bound_of_zero_bytes (w n : Nat) (hn : n ≤ 3) (hw : w < 2 ^ 32)
    (hz : ∀ k, n ≤ k → k < 4 → w / 256 ^ k % 256 = 0) : w < 256 ^ n := by
  have h0 := hz 0
  have h1 := hz 1
  have h2 := hz 2
  have h3 := hz 3
  norm_num at h0 h1 h2 h3
  have h4 : n = 0 ∨ n = 1 ∨ n = 2 ∨ n = 3 := by omega
  rcases h4 with h | h | h | h <;> subst h <;> norm_num at h0 h1 h2 h3 ⊢ <;> omega

theorem zero_bytes_of_waitbuf_bound (w n : Nat) (hw : w < 256 ^ n) :
    ∀ k, n ≤ k → k < 4 → w / 256 ^ k % 256 = 0 := by
  intro k hk _
  have : w < 256 ^ k := lt_of_lt_of_le hw (Nat.pow_le_pow_right (by norm_num) hk)
  rw [Nat.div_eq_of_lt this]

theorem update_sg_adv (nbytes k : Nat) (sg : List Nat) (hb : isBytes sg) (s : UpdState)
    (h0 : s.in_i = 0) (h2 : s.op.nbwait ≤ 3)
    (h3 : s.op.waitbuf < 256 ^ s.op.nbwait) (h4 : s.op.byte_count < 2 ^ 64) :
    ∃ j s3, update_sg nbytes k sg s =
        { s3 with in_i := 0, trace := s3.trace ++ [Ev.kunmap true k] } ∧
      Adv sg j { s with trace := s.trace ++ [Ev.kmap true k] } s3 ∧ s3.op.nbwait ≤ 3 := by
  obtain ⟨j1, s1, hs1, a1, n1, x1⟩ := update_step1_adv nbytes sg hb
    { s with trace := s.trace ++ [Ev.kmap true k] } (by simp [h0]) h2 h3 h4
  obtain ⟨j2, a2, n2, x2⟩ := update_words_adv nbytes sg hb sg.length s1
    (by have := a1.1; have := a1.2.2.1; omega) (by omega) a1.2.2.2.2.1 (adv_bc_lt a1) x1
  have key : ∃ j3 s3, s3 = (if (update_words nbytes sg sg.length s1).in_i < sg.length ∧
        sg.length - (update_words nbytes sg sg.length s1).in_i < 4 ∧
        (update_words nbytes sg sg.length s1).i < nbytes then
        update_tail nbytes sg sg.length (update_words nbytes sg sg.length s1)
        else update_words nbytes sg sg.length s1) ∧
      Adv sg j3 (update_words nbytes sg sg.length s1) s3 ∧ s3.op.nbwait ≤ 3 := by
    have i1 := a1.1
    have i2 := a1.2.1
    have i3 := a2.1
    have i4 := a2.2.1
    have i5 := a2.2.2.1
    simp only [] at i1 i2
    by_cases hc : (update_words nbytes sg sg.length s1).in_i < sg.length ∧
        sg.length - (update_words nbytes sg sg.length s1).in_i < 4 ∧
        (update_words nbytes sg sg.length s1).i < nbytes
    · obtain ⟨m, hm⟩ : ∃ m, sg.length = m + 1 := ⟨sg.length - 1, by omega⟩
      obtain ⟨j3, a3, n3, x3⟩ := update_tail_adv nbytes sg hb m
        (update_words nbytes sg sg.length s1) hc.1 (by omega) a2.2.2.2.2.1 (adv_bc_lt a2)
      refine ⟨j3, _, rfl, ?_, ?_⟩
      · simp only [hc, and_self, if_true]
        rw [hm] at a3 ⊢
        rw [← hm] at a3 ⊢
        exact a3
      · simp only [hc, and_self, if_true]
        rw [hm] at n3 ⊢
        rw [← hm] at n3 ⊢
        exact n3
    · refine ⟨0, _, rfl, ?_, ?_⟩
      · simp only [hc, if_false]
        exact adv_refl sg _ (by omega) (by omega) a2.2.2.2.2.1 (adv_bc_lt a2)
      · simp only [hc, if_false]
        omega
  obtain ⟨j3, s3, hs3, a3, n3⟩ := key
  refine ⟨j1 + j2 + j3, s3, ?_, adv_trans (adv_trans a1 a2) a3, n3⟩
  rw [hs3, hs1]
  rfl

/-- The facts about the context that every entry of an update preserves. -/
theorem update_sg_keeps (nbytes k : Nat) (sg : List Nat) (hb : isBytes sg) (s : UpdState)
    (h0 : s.in_i = 0) (h2 : s.op.nbwait ≤ 3)
    (h3 : s.op.waitbuf < 256 ^ s.op.nbwait) (h4 : s.op.byte_count < 2 ^ 64)
    (h5 : s.op.byte_count % 4 = 0) :
    (update_sg nbytes k sg s).in_i = 0 ∧ (update_sg nbytes k sg s).op.nbwait ≤ 3 ∧
      (update_sg nbytes k sg s).op.waitbuf < 256 ^ (update_sg nbytes k sg s).op.nbwait ∧
      (update_sg nbytes k sg s).op.byte_count < 2 ^ 64 ∧
      (update_sg nbytes k sg s).op.byte_count % 4 = 0 := by
  obtain ⟨j, s3, e, a, n⟩ := update_sg_adv nbytes k sg hb s h0 h2 h3 h4
  have hbc := adv_bc_lt a
  obtain ⟨_, _, _, _, a5, _, _, _, d, _, _, _, _, c⟩ := a
  simp only [] at c
  rw [e]
  refine ⟨rfl, n, a5, hbc, ?_⟩
  simp only []
  rw [c]
  omega

theorem update_loop_keeps (nbytes : Nat) :
    ∀ (rest : List (List Nat)) (sg : List Nat) (k : Nat) (s : UpdState),
      (∀ x ∈ sg :: rest, isBytes x) →
      s.in_i = 0 → s.op.nbwait ≤ 3 → s.op.waitbuf < 256 ^ s.op.nbwait →
      s.op.byte_count < 2 ^ 64 → s.op.byte_count % 4 = 0 →
      (update_loop nbytes sg rest k s).op.nbwait ≤ 3 ∧
        (update_loop nbytes sg rest k s).op.waitbuf <
          256 ^ (update_loop nbytes sg rest k s).op.nbwait ∧
        (update_loop nbytes sg rest k s).op.byte_count < 2 ^ 64 ∧
        (update_loop nbytes sg rest k s).op.byte_count % 4 = 0 := by
  intro rest
  induction rest with
  | nil =>
    intro sg k s hb h0 h2 h3 h4 h5
    obtain ⟨_, b2, b3, b4, b5⟩ := update_sg_keeps nbytes k sg (hb sg (by simp)) s h0 h2 h3 h4 h5
    simp only [update_loop]
    exact ⟨b2, b3, b4, b5⟩
  | cons sg2 rest2 ih =>
    intro sg k s hb h0 h2 h3 h4 h5
    obtain ⟨z1, b2, b3, b4, b5⟩ := update_sg_keeps nbytes k sg (hb sg (by simp)) s h0 h2 h3 h4 h5
    rw [update_loop]
    split
    · exact ih sg2 (k + 1) _ (fun x hx => hb x (List.mem_cons_of_mem _ hx)) z1 b2 b3 b4 b5
    · exact ⟨b2, b3, b4, b5⟩

theorem update_sg_took (nbytes k : Nat) (sg : List Nat) (hb : isBytes sg) (s : UpdState)
    (h0 : s.in_i = 0) (h2 : s.op.nbwait ≤ 3)
    (h3 : s.op.waitbuf < 256 ^ s.op.nbwait) (h4 : s.op.byte_count < 2 ^ 64) :
    ∃ j d, (update_sg nbytes k sg s).trace = s.trace ++ d ∧
      Fed (sg.take j) s.op (update_sg nbytes k sg s).op d ∧
      (update_sg nbytes k sg s).in_i = 0 := by
  obtain ⟨j, s3, e, a, n3⟩ := update_sg_adv nbytes k sg hb s h0 h2 h3 h4
  obtain ⟨t1, t2, t3, t4, t5, t6, t7, t8, d, td, te, tw, tr, tc⟩ := a
  simp only [] at t1 t2 t3 td tr tc t6 t7 t8
  rw [e]
  refine ⟨j, [Ev.kmap true k] ++ d ++ [Ev.kunmap true k], ?_,
    ⟨n3, t5, t6, t7, t8, ?_, ?_, ?_, ?_⟩, rfl⟩
  · simp only [td, List.append_assoc]
  · intro e he
    simp only [List.mem_append, List.mem_singleton] at he
    rcases he with (h | h) | h
    · rw [h]; rfl
    · exact te e h
    · rw [h]; rfl
  · intro w hw
    simp only [rxWords_append] at hw
    simp only [rxWords, writesTo, List.filterMap_cons, List.filterMap_nil, List.nil_append,
      List.append_nil] at hw
    exact tw w hw
  · simp only [rxBytes_append]
    have e1 : rxBytes [Ev.kmap true k] = [] := rfl
    have e2 : rxBytes [Ev.kunmap true k] = [] := rfl
    rw [e1, e2, List.nil_append, List.append_nil, tr, h0]
    simp
  · simp only [rxWords_append]
    have e1 : rxWords [Ev.kmap true k] = [] := rfl
    have e2 : rxWords [Ev.kunmap true k] = [] := rfl
    rw [e1, e2, List.nil_append, List.append_nil, tc]

/-- What the loop of `sunxi_hash_update` consumes, whatever `nbytes`: a
prefix of each entry visited, `js` giving the lengths of the prefixes. -/
theorem update_loop_took (nbytes : Nat) :
    ∀ (rest : List (List Nat)) (sg : List Nat) (k : Nat) (s : UpdState),
      (∀ x ∈ sg :: rest, isBytes x) →
      s.in_i = 0 → s.op.nbwait ≤ 3 →
      s.op.waitbuf < 256 ^ s.op.nbwait → s.op.byte_count < 2 ^ 64 →
      ∃ js d, js.length ≤ (sg :: rest).length ∧
        (update_loop nbytes sg rest k s).trace = s.trace ++ d ∧
        Fed (List.zipWith List.take js (sg :: rest)).flatten s.op
          (update_loop nbytes sg rest k s).op d := by
  intro rest
  induction rest with
  | nil =>
    intro sg k s hb h0 h2 h3 h4
    obtain ⟨j, d1, t1, f1, _⟩ := update_sg_took nbytes k sg (hb sg (by simp)) s h0 h2 h3 h4
    refine ⟨[j], d1, by simp, ?_, ?_⟩
    · simp only [update_loop]
      exact t1
    · simp only [update_loop, List.zipWith_cons_cons, List.zipWith_nil_left,
        List.flatten_cons, List.flatten_nil, List.append_nil]
      exact f1
  | cons sg2 rest2 ih =>
    intro sg k s hb h0 h2 h3 h4
    obtain ⟨j, d1, t1, f1, z1⟩ := update_sg_took nbytes k sg (hb sg (by simp)) s h0 h2 h3 h4
    by_cases hc : (update_sg nbytes k sg s).i < nbytes
    · obtain ⟨js, d2, l2, t2, f2⟩ := ih sg2 (k + 1) (update_sg nbytes k sg s)
        (fun x hx => hb x (List.mem_cons_of_mem _ hx)) z1 f1.1 f1.2.1 (fed_bc_lt f1)
      refine ⟨j :: js, d1 ++ d2, by simpa using l2, ?_, ?_⟩
      · rw [update_loop]
        simp only [hc, if_true]
        rw [t2, t1, List.append_assoc]
      · rw [update_loop]
        simp only [hc, if_true]
        rw [List.zipWith_cons_cons, List.flatten_cons]
        exact fed_trans f1 f2
    · refine ⟨[j], d1, by simp, ?_, ?_⟩
      · rw [update_loop]
        simp only [hc, if_false]
        exact t1
      · rw [update_loop]
        simp only [hc, if_false]
        simp only [List.zipWith_cons_cons, List.zipWith_nil_left,
          List.flatten_cons, List.flatten_nil, List.append_nil]
        exact f1

theorem fed_counts {m : List Nat} {op op2 : sunxi_req_ctx} {d : List Ev}
    (h : Fed m op op2 d) (h2 : op.nbwait ≤ 3) :
    4 * (rxWords d).length + op2.nbwait = op.nbwait + m.length := by
  have hr := congrArg List.length h.2.2.2.2.2.2.2.1
  rw [List.length_append, List.length_append, length_rxBytes,
    residue_length op2 (by have := h.1; omega), residue_length op (by omega)] at hr
  exact hr

/-- C24: `sunxi_hash_init` establishes the residue invariant (`nbwait <= 3`,
`byte_count` a multiple of 4, the bytes of `waitbuf` from position `nbwait` on
zero).  A call of `sunxi_hash_update` dereferences a null list exactly when
`nbytes > 0` and the list is null; every other call, whatever `nbytes` and the
list of entries, preserves the invariant, performs only pushes into
`SS_RXFIFO` and page mappings, and consumes a prefix of each entry it visits:
the bytes of the words pushed followed by the new residue are the old residue
followed by the bytes consumed, so that every group of four bytes has been
pushed as one word (`4 * words + nbwait` after the call is `nbwait` before
plus the number of bytes consumed) and each word pushed adds 4 to
`byte_count`.  When the entry lengths sum to `nbytes` the bytes consumed are
all the bytes of the entries. -/
theorem residue_invariant (hash_type : String) (op0 op : sunxi_req_ctx) (res : List Nat)
    (nbytes : Nat) (src : List (List Nat))
    (hb : ∀ sg ∈ src, isBytes sg) (hinv : ResidueInv op)
    (hw : op.waitbuf < 2 ^ 32) (hc : op.byte_count < 2 ^ 64) :
    ResidueInv (sunxi_hash_init hash_type op0 res).op ∧
      (sunxi_hash_init hash_type op0 res).op.waitbuf < 2 ^ 32 ∧
      (sunxi_hash_init hash_type op0 res).op.byte_count < 2 ^ 64 ∧
      ((sunxi_hash_update nbytes src op res).null_deref = true ↔ nbytes ≠ 0 ∧ src = []) ∧
      (nbytes = 0 ∨ src ≠ [] →
        (sunxi_hash_update nbytes src op res).ret = 0 ∧
        ResidueInv (sunxi_hash_update nbytes src op res).op ∧
        (sunxi_hash_update nbytes src op res).op.waitbuf < 2 ^ 32 ∧
        (sunxi_hash_update nbytes src op res).op.byte_count < 2 ^ 64 ∧
        (∀ e ∈ (sunxi_hash_update nbytes src op res).trace, e.isData = true) ∧
        ∃ js : List Nat, js.length ≤ src.length ∧
          rxBytes (sunxi_hash_update nbytes src op res).trace ++
              residue (sunxi_hash_update nbytes src op res).op =
            residue op ++ (List.zipWith List.take js src).flatten ∧
          4 * (rxWords (sunxi_hash_update nbytes src op res).trace).length +
              (sunxi_hash_update nbytes src op res).op.nbwait =
            op.nbwait + ((List.zipWith List.take js src).flatten).length ∧
          (sunxi_hash_update nbytes src op res).op.byte_count =
            (op.byte_count +
              4 * (rxWords (sunxi_hash_update nbytes src op res).trace).length) % 2 ^ 64) ∧
      (nbytes = (src.map List.length).sum →
        rxBytes (sunxi_hash_update nbytes src op res).trace ++
            residue (sunxi_hash_update nbytes src op res).op = residue op ++ src.flatten ∧
        4 * (rxWords (sunxi_hash_update nbytes src op res).trace).length +
            (sunxi_hash_update nbytes src op res).op.nbwait = op.nbwait + nbytes) := by
  obtain ⟨i1, i2, i3, _, _⟩ := hash_init_op hash_type op0 res
  obtain ⟨v1, v2, v3⟩ := hinv
  have hwb := waitbuf_bound_of_zero_bytes op.waitbuf op.nbwait v1 hw v3
  have hu32 : ∀ o : sunxi_req_ctx, o.nbwait ≤ 3 → o.waitbuf < 256 ^ o.nbwait →
      o.waitbuf < 2 ^ 32 := by
    intro o a b
    exact lt_of_lt_of_le b (by
      have : (256 : Nat) ^ o.nbwait ≤ 256 ^ 3 := Nat.pow_le_pow_right (by norm_num) a
      omega)
  refine ⟨⟨by rw [i1]; omega, by rw [i3], ?_⟩, by rw [i2]; norm_num, by rw [i3]; norm_num,
    ?_, ?_, ?_⟩
  · intro k _ _
    rw [i2]
    simp
  · unfold sunxi_hash_update
    split
    · rename_i hz
      simp [hz]
    · rename_i hz
      split
      · simp [hz]
      · simp
  · intro hok
    by_cases hz : nbytes = 0
    · simp only [sunxi_hash_update, hz, if_true]
      refine ⟨trivial, ⟨v1, v2, v3⟩, hw, hc, by simp, [], by simp, ?_, ?_, ?_⟩
      · simp [rxBytes, rxWords, writesTo]
      · simp [rxWords, writesTo]
      · simp only [rxWords, writesTo, List.filterMap_nil, List.length_nil]
        omega
    · cases src with
      | nil => rcases hok with h | h
               · exact absurd h hz
               · exact absurd rfl h
      | cons sg rest =>
        obtain ⟨u1, u2, u3, u4⟩ := update_loop_keeps nbytes rest sg 0
          { op := op, i := 0, in_i := 0, trace := [] } hb rfl v1 hwb hc v2
        obtain ⟨js, d, l, t, f⟩ := update_loop_took nbytes rest sg 0
          { op := op, i := 0, in_i := 0, trace := [] } hb rfl v1 hwb hc
        have hcnt := fed_counts f v1
        simp only [List.nil_append] at t
        simp only [sunxi_hash_update, hz, if_false]
        refine ⟨trivial, ⟨u1, u4, zero_bytes_of_waitbuf_bound _ _ u2⟩, hu32 _ u1 u2, u3, ?_,
          js, l, ?_, ?_, ?_⟩
        · rw [t]; exact f.2.2.2.2.2.1
        · rw [t]; exact f.2.2.2.2.2.2.2.1
        · rw [t]; exact hcnt
        · rw [t]; exact f.2.2.2.2.2.2.2.2
  · intro hsum
    rw [hsum]
    have f := hash_update_fed src op res hb v1 hwb hc
    refine ⟨f.2.2.2.2.2.2.2.1, ?_⟩
    have hcnt := fed_counts f v1
    rw [List.length_flatten] at hcnt
    exact hcnt

/-- Witness of C24: after `sunxi_hash_init`, an update of five bytes held in
entries of two and three bytes pushes one word and keeps one byte. -/
theorem residue_invariant_witness :
    rxBytes (sunxi_hash_update 5 [[1, 2], [3, 4, 5]]
        (sunxi_hash_init "md5" sunxi_cipher_init []).op []).trace ++
      residue (sunxi_hash_update 5 [[1, 2], [3, 4, 5]]
        (sunxi_hash_init "md5" sunxi_cipher_init []).op []).op =
      residue (sunxi_hash_init "md5" sunxi_cipher_init []).op ++ [[1, 2], [3, 4, 5]].flatten ∧
    4 * (rxWords (sunxi_hash_update 5 [[1, 2], [3, 4, 5]]
        (sunxi_hash_init "md5" sunxi_cipher_init []).op []).trace).length +
      (sunxi_hash_update 5 [[1, 2], [3, 4, 5]]
        (sunxi_hash_init "md5" sunxi_cipher_init []).op []).op.nbwait =
      (sunxi_hash_init "md5" sunxi_cipher_init []).op.nbwait + 5 :=
  (residue_invariant "md5" sunxi_cipher_init (sunxi_hash_init "md5" sunxi_cipher_init []).op []
    5 [[1, 2], [3, 4, 5]]
    (by decide) ⟨by decide, by decide, by decide⟩ (by decide) (by decide)).2.2.2.2.2 rfl

/-! ## C21, C23, C28, C29, C30: runs that show a defect -/

/-- C21: a successful run of the segmented path over two source entries and
two destination entries.  Both source entries are mapped and only the first
one is unmapped: the last source entry is still mapped when the call
returns.  The destination entries are each mapped and unmapped. -/
theorem segmented_last_source_left_mapped :
    ∃ r, sunxi_aes_poll 4 hw_alternate ss_empty sunxi_cipher_init 16 req_two_entries = some r ∧
      r.exit = Exit.returned 0 ∧
      kmapCount true r.trace = 2 ∧ kunmapCount true r.trace = 1 ∧
      Ev.kmap true 1 ∈ r.trace ∧ Ev.kunmap true 1 ∉ r.trace ∧
      kmapCount false r.trace = 2 ∧ kunmapCount false r.trace = 2 := by
  refine ⟨_, rfl, ?_⟩
  decide

/-- C23: a request of six bytes held in one entry of eight bytes, right
after `sunxi_hash_init`.  The first word is pushed and the two bytes that
remain are dropped: `byte_count + nbwait` has grown by 4, not by 6. -/
theorem hash_update_drops_tail :
    (sunxi_hash_update 6 [[1, 2, 3, 4, 5, 6, 7, 8]]
        (sunxi_hash_init "md5" sunxi_cipher_init []).op []).op.byte_count = 4 ∧
      (sunxi_hash_update 6 [[1, 2, 3, 4, 5, 6, 7, 8]]
        (sunxi_hash_init "md5" sunxi_cipher_init []).op []).op.nbwait = 0 ∧
      rxBytes (sunxi_hash_update 6 [[1, 2, 3, 4, 5, 6, 7, 8]]
        (sunxi_hash_init "md5" sunxi_cipher_init []).op []).trace ++
        residue (sunxi_hash_update 6 [[1, 2, 3, 4, 5, 6, 7, 8]]
          (sunxi_hash_init "md5" sunxi_cipher_init []).op []).op = [1, 2, 3, 4] ∧
      ([1, 2, 3, 4, 5, 6, 7, 8] : List Nat).take 6 ≠ [1, 2, 3, 4] := by
  decide

/-- C28: on one AES transform, a decrypt call followed by an encrypt call.
The control word written by the encrypt call still has the direction bit
`SS_DECRYPTION` set, as left in `op->mode` by the decrypt call. -/
theorem encrypt_after_decrypt_keeps_direction_bit :
    ∃ r1 r2, sunxi_aes_cbc_decrypt 3 hw_paced ss_empty op_aes128 16 req_single = some r1 ∧
      sunxi_aes_cbc_encrypt 3 hw_paced r1.ss r1.op 16 req_single = some r2 ∧
      r1.exit = Exit.returned 0 ∧ r2.exit = Exit.returned 0 ∧
      (writesTo SS_CTL r2.trace).head? = some 0x1081 ∧
      0x1081 &&& SS_DECRYPTION = SS_DECRYPTION ∧ SS_DECRYPTION = 0x80 := by
  refine ⟨_, _, rfl, rfl, ?_⟩
  decide

/-- C29: two returns of `sunxi_des_poll` with `bufin_lock` still held.  In
the first the allocation of `buf_out` fails; in the second the request
succeeds with `nbytes = 6`, which `ir` never equals as it moves by steps of
4. -/
theorem des_poll_leaves_bufin_lock_held :
    (∃ r, sunxi_des_poll 1 hw_nomem_out ss_held sunxi_cipher_init 8 req_chunked = some r ∧
      r.exit = Exit.returned (-ENOMEM) ∧
      lockCount Mutex.bufin_lock r.trace = 1 ∧ unlockCount Mutex.bufin_lock r.trace = 0 ∧
      heldAfter Mutex.bufin_lock r.trace) ∧
    (∃ r, sunxi_des_poll 4 hw_alternate ss_empty sunxi_cipher_init 8 req_six_bytes = some r ∧
      r.exit = Exit.returned 0 ∧
      lockCount Mutex.bufin_lock r.trace = 1 ∧ unlockCount Mutex.bufin_lock r.trace = 0 ∧
      heldAfter Mutex.bufin_lock r.trace) := by
  refine ⟨⟨_, rfl, ?_⟩, ⟨_, rfl, ?_⟩⟩ <;> decide

/-- C30: with a seed of 8 bytes `sunxi_ss_rng_reset` stores at word indices
0 to 7: index 6 is the field `slen` and index 7 the first word after the
structure, which now holds the last seed byte.  With a stored length of 12
`sunxi_ss_rng_get_random` loads word index 8, the second word after the
structure, and writes it to `SS_KEY0 + 8`. -/
theorem rng_seed_accesses_out_of_bounds :
    (sunxi_ss_rng_reset prng_marked [1, 2, 3, 4, 5, 6, 7, 8] 8).1 = 0 ∧
      prng_marked.after.getD 0 0 = 0xaf7e0007 ∧
      (sunxi_ss_rng_reset prng_marked [1, 2, 3, 4, 5, 6, 7, 8] 8).2.after.getD 0 0 = 8 ∧
      prng_marked.ctx.seed.length = 6 ∧
      writesTo (SS_KEY0 + 8)
        (sunxi_ss_rng_get_random hw_rng prng_marked (some (List.replicate 8 0)) 8).trace =
        [0xaf7e0008] ∧
      prng_marked.after.getD 1 0 = 0xaf7e0008 := by
  decide

/-! ## C22: order of the register accesses of the cipher paths -/

theorem all_push_xfer (mem : List Nat) (si n : Nat) :
    (push_words mem si n).all Ev.isXfer = true := by
  simp [push_words, Ev.isXfer]

theorem all_pop_xfer (tx : Nat → Nat) (nt n : Nat) :
    (pop_events tx nt n).all Ev.isXfer = true := by
  simp [pop_events, Ev.isXfer]

theorem all_fast_iter (hw : Device) (src : List Nat) (s : FastState) :
    (fast_iter hw src s).2.all Ev.isXfer = true := by
  have h1 := all_push_xfer
  have h2 := all_pop_xfer
  unfold fast_iter
  simp only []
  split <;> split <;>
    simp only [List.all_append, h1, h2, List.all_cons, List.all_nil, Bool.and_true,
      Bool.true_and, Ev.isXfer, decide_True, Bool.or_true]

theorem all_fast_loop (hw : Device) (src : List Nat) :
    ∀ (fuel : Nat) (s s' : FastState) (e : List Ev),
      fast_loop hw src fuel s = some (s', e) → e.all Ev.isXfer = true := by
  intro fuel
  induction fuel with
  | zero => intro s s' e h; simp [fast_loop] at h
  | succ fuel ih =>
    intro s s' e h
    unfold fast_loop at h
    have hi := all_fast_iter hw src s
    rcases hit : fast_iter hw src s with ⟨s1, e1⟩
    rw [hit] at h hi
    simp only [] at h hi
    split at h
    · split at h
      · simp at h
      · rename_i s2 e2 hrec
        simp only [Option.some.injEq, Prod.mk.injEq] at h
        rw [← h.2, List.all_append, hi, ih _ _ _ hrec]
        rfl
    · simp only [Option.some.injEq, Prod.mk.injEq] at h
      rw [← h.2, hi]

theorem all_seg_input (src : List Sg) (rx : Nat) (s : SegState) :
    (seg_input src rx s).2.1.all Ev.isXfer = true := by
  have h1 := all_push_xfer
  unfold seg_input
  simp only []
  repeat' split
  all_goals simp only [List.all_append, h1, List.all_cons, List.all_nil, Bool.and_true,
    Bool.true_and, Ev.isXfer]

theorem all_seg_output (hw : Device) (dst : List Sg) (tx : Nat) (s : SegState) :
    (seg_output hw dst tx s).2.1.all Ev.isXfer = true := by
  have h2 := all_pop_xfer
  unfold seg_output
  simp only []
  repeat' split
  all_goals simp only [List.all_append, h2, List.all_cons, List.all_nil, Bool.and_true,
    Bool.true_and, Ev.isXfer]

theorem all_seg_iter (hw : Device) (src dst : List Sg) (s : SegState) :
    (seg_iter hw src dst s).2.1.all Ev.isXfer = true := by
  unfold seg_iter
  simp only []
  have h1 := all_seg_input src (SS_RXFIFO_SPACES (hw.fcsr s.nf)) { s with nf := s.nf + 1 }
  rcases hri : seg_input src (SS_RXFIFO_SPACES (hw.fcsr s.nf)) { s with nf := s.nf + 1 }
    with ⟨s1, e1, f1⟩
  rw [hri] at h1
  simp only [] at h1 ⊢
  split
  · simp only [List.all_cons, h1, Ev.isXfer, decide_True, Bool.or_true, Bool.and_true]
  · have h2 := all_seg_output hw dst (SS_TXFIFO_SPACES (hw.fcsr s.nf)) s1
    rcases hro : seg_output hw dst (SS_TXFIFO_SPACES (hw.fcsr s.nf)) s1 with ⟨s2, e2, f2⟩
    rw [hro] at h2
    simp only [] at h2 ⊢
    simp only [List.cons_append, List.all_cons, List.all_append, h1, h2, Ev.isXfer, decide_True,
      Bool.or_true, Bool.and_true]

theorem all_seg_loop (hw : Device) (src dst : List Sg) :
    ∀ (fuel : Nat) (s s' : SegState) (e : List Ev) (f : Bool),
      seg_loop hw src dst fuel s = some (s', e, f) → e.all Ev.isXfer = true := by
  intro fuel
  induction fuel with
  | zero => intro s s' e f h; simp [seg_loop] at h
  | succ fuel ih =>
    intro s s' e f h
    unfold seg_loop at h
    have hi := all_seg_iter hw src dst s
    rcases hit : seg_iter hw src dst s with ⟨s1, e1, f1⟩
    rw [hit] at h hi
    simp only [] at h hi
    split at h
    · simp only [Option.some.injEq, Prod.mk.injEq] at h
      rw [← h.2.1, hi]
    · split at h
      · split at h
        · simp at h
        · rename_i s2 e2 f2 hrec
          simp only [Option.some.injEq, Prod.mk.injEq] at h
          rw [← h.2.1, List.all_append, hi, ih _ _ _ _ hrec]
          rfl
      · simp only [Option.some.injEq, Prod.mk.injEq] at h
        rw [← h.2.1, hi]

theorem all_des_push (buf_in : List Nat) (nbytes : Nat) :
    ∀ (fuel : Nat) (s : DesState), (des_push buf_in nbytes fuel s).2.all Ev.isPump = true := by
  intro fuel
  induction fuel with
  | zero => intro s; rfl
  | succ fuel ih =>
    intro s
    unfold des_push
    simp only []
    split
    · simp only [List.all_cons, ih, Ev.isPump, Ev.isXfer, decide_True, Bool.and_true]
    · simp only [List.all_cons, List.all_nil, Ev.isPump, Ev.isXfer, decide_True, Bool.and_true]

theorem all_des_pop (hw : Device) (nbytes : Nat) :
    ∀ (fuel : Nat) (s : DesState), (des_pop hw nbytes fuel s).2.all Ev.isPump = true := by
  intro fuel
  induction fuel with
  | zero => intro s; rfl
  | succ fuel ih =>
    intro s
    unfold des_pop
    simp only []
    split
    · simp only [List.all_cons, ih, Ev.isPump, Ev.isXfer, decide_True, Bool.and_true,
        Bool.true_or]
    · simp only [List.all_cons, List.all_nil, Ev.isPump, Ev.isXfer, decide_True, Bool.and_true,
        Bool.true_or]

theorem all_des_iter (hw : Device) (buf_in : List Nat) (nbytes : Nat) (s : DesState) :
    (des_iter hw buf_in nbytes s).2.all Ev.isPump = true := by
  have h1 := all_des_push buf_in nbytes
  have h2 := all_des_pop hw nbytes
  unfold des_iter
  simp only []
  split <;> split <;> split <;> split <;>
    simp only [List.all_append, h1, h2, List.all_cons, List.all_nil, Bool.and_true,
      Bool.true_and, Ev.isPump, Ev.isXfer, decide_True, Bool.or_true]

theorem all_des_loop (hw : Device) (buf_in : List Nat) (nbytes : Nat) :
    ∀ (fuel : Nat) (s s' : DesState) (e : List Ev),
      des_loop hw buf_in nbytes fuel s = some (s', e) → e.all Ev.isPump = true := by
  intro fuel
  induction fuel with
  | zero => intro s s' e h; simp [des_loop] at h
  | succ fuel ih =>
    intro s s' e h
    unfold des_loop at h
    have hi := all_des_iter hw buf_in nbytes s
    rcases hit : des_iter hw buf_in nbytes s with ⟨s1, e1⟩
    rw [hit] at h hi
    simp only [] at h hi
    split at h
    · split at h
      · simp at h
      · rename_i s2 e2 hrec
        simp only [Option.some.injEq, Prod.mk.injEq] at h
        rw [← h.2, List.all_append, hi, ih _ _ _ hrec]
        rfl
    · simp only [Option.some.injEq, Prod.mk.injEq] at h
      rw [← h.2, hi]

theorem xfer_is_pump (t : List Ev) (h : t.all Ev.isXfer = true) : t.all Ev.isPump = true := by
  rw [List.all_eq_true] at h ⊢
  intro e he
  have := h e he
  cases e <;> simp_all [Ev.isPump, Ev.isXfer]

theorem all_load_key_iv (op : sunxi_req_ctx) (ivsize : Nat) (info : Option (List Nat))
    (hk : op.keylen ≤ 32) : (load_key_iv op ivsize info).all Ev.isKeyIv = true := by
  rw [List.all_eq_true]
  intro e he
  unfold load_key_iv at he
  cases info with
  | none => simp at he
  | some iv =>
    simp only [List.mem_append, List.mem_map, List.mem_range] at he
    rcases he with ⟨k, hk1, rfl⟩ | ⟨i, hi1, rfl⟩
    · simp only [Ev.isKeyIv, decide_eq_true_eq, SS_KEY0, SS_IV3]
      omega
    · simp only [Ev.isKeyIv, decide_eq_true_eq, SS_KEY0, SS_IV0, SS_IV3]
      omega

theorem aes_trace_shape (fuel : Nat) (hw : Device) (ss : sunxi_ss_ctx) (op : sunxi_req_ctx)
    (ivsize : Nat) (areq : ablkcipher_request) (r : CipherRet)
    (hrun : sunxi_aes_poll fuel hw ss op ivsize areq = some r)
    (hok : r.exit = Exit.returned 0) :
    ∃ pump post,
      r.trace = [] ++ [Ev.mutex_lock Mutex.lock] ++ load_key_iv op ivsize areq.info ++
        [Ev.writel (op.mode ||| SS_ENABLED) SS_CTL] ++ pump ++
        [Ev.writel 0 SS_CTL, Ev.mutex_unlock Mutex.lock] ++ post ∧
      post.all Ev.isOutside = true ∧ pump.all Ev.isXfer = true := by
  have hne : Exit.returned (-1) ≠ Exit.returned 0 := by decide
  unfold sunxi_aes_poll at hrun
  split at hrun
  · simp only [Option.some.injEq] at hrun
    rw [← hrun] at hok
    simp at hok
  · simp only [Option.some.injEq] at hrun
    rw [← hrun] at hok
    simp at hok
  · simp only [] at hrun
    split at hrun
    · split at hrun
      · simp only [Option.some.injEq] at hrun
        rw [← hrun] at hok
        exact absurd hok hne
      · split at hrun
        · simp only [Option.some.injEq] at hrun
          rw [← hrun] at hok
          exact absurd hok hne
        · split at hrun
          · simp at hrun
          · rename_i s e hloop
            simp only [Option.some.injEq] at hrun
            rw [← hrun]
            refine ⟨[Ev.kmap true 0, Ev.kmap false 0] ++ e,
              [Ev.kunmap true 0, Ev.kunmap false 0], by simp, by decide, ?_⟩
            rw [List.all_append, all_fast_loop hw _ _ _ _ _ hloop]
            rfl
    · split at hrun
      · simp only [Option.some.injEq] at hrun
        rw [← hrun] at hok
        exact absurd hok hne
      · split at hrun
        · simp only [Option.some.injEq] at hrun
          rw [← hrun] at hok
          exact absurd hok hne
        · split at hrun
          · simp at hrun
          · simp only [Option.some.injEq] at hrun
            rw [← hrun] at hok
            exact absurd hok hne
          · rename_i s e hloop
            simp only [Option.some.injEq] at hrun
            rw [← hrun]
            refine ⟨[Ev.kmap true 0, Ev.kmap false 0] ++ e, [], by simp, by decide, ?_⟩
            rw [List.all_append, all_seg_loop hw _ _ _ _ _ _ _ hloop]
            rfl

theorem all_stage_out_outside (hw : Device) (ss : sunxi_ss_ctx) (n k : Nat) :
    (stage_out hw ss n k).2.1.all Ev.isOutside = true := by
  unfold stage_out
  repeat' split
  all_goals rfl

theorem des_trace_shape (fuel : Nat) (hw : Device) (ss : sunxi_ss_ctx) (op : sunxi_req_ctx)
    (ivsize : Nat) (areq : ablkcipher_request) (r : CipherRet)
    (hrun : sunxi_des_poll fuel hw ss op ivsize areq = some r)
    (hok : r.exit = Exit.returned 0) :
    ∃ pre pump post,
      r.trace = pre ++ [Ev.mutex_lock Mutex.lock] ++ load_key_iv op ivsize areq.info ++
        [Ev.writel (op.mode ||| SS_ENABLED) SS_CTL] ++ pump ++
        [Ev.writel 0 SS_CTL, Ev.mutex_unlock Mutex.lock] ++ post ∧
      pre.all Ev.isOutside = true ∧ post.all Ev.isOutside = true ∧
      pump.all Ev.isPump = true := by
  have hne : Exit.returned (-ENOMEM) ≠ Exit.returned 0 := by decide
  unfold sunxi_des_poll at hrun
  split at hrun
  · obtain ⟨pump, post, h1, h2, h3⟩ := aes_trace_shape fuel hw ss op ivsize areq r hrun hok
    exact ⟨[], pump, post, h1, rfl, h2, xfer_is_pump pump h3⟩
  · simp only [] at hrun
    split at hrun
    · simp only [Option.some.injEq] at hrun
      rw [← hrun] at hok
      exact absurd hok hne
    · have ho := all_stage_out_outside hw (stage_in hw ss areq.nbytes).1 areq.nbytes
        (stage_in hw ss areq.nbytes).2
      rcases hso : stage_out hw (stage_in hw ss areq.nbytes).1 areq.nbytes
        (stage_in hw ss areq.nbytes).2 with ⟨ss2, e_out, failed⟩
      rw [hso] at hrun ho
      simp only [] at hrun ho
      split at hrun
      · simp only [Option.some.injEq] at hrun
        rw [← hrun] at hok
        exact absurd hok hne
      · split at hrun
        · simp at hrun
        · rename_i s e hloop
          simp only [Option.some.injEq] at hrun
          rw [← hrun]
          refine ⟨[Ev.mutex_lock Mutex.bufin_lock] ++ e_out, e,
            [Ev.mutex_lock Mutex.bufout_lock, Ev.mutex_unlock Mutex.bufout_lock], by simp, ?_,
            by decide, all_des_loop hw _ _ _ _ _ _ hloop⟩
          rw [List.all_append, ho]
          rfl

/-- C22: in every successful run of `sunxi_aes_poll` (fast or segmented
path) or `sunxi_des_poll` (linearization path included), with a key of at
most 32 bytes, the trace is: events that access no register and leave
`ss->lock` alone; the acquisition of `ss->lock`; the key and IV writes, all
into `SS_KEY0 .. SS_IV3`; one write of `mode | SS_ENABLED` to `SS_CTL`; pump
events only (reads of `SS_FCSR`, pushes into `SS_RXFIFO`, pops from
`SS_TXFIFO`, page mappings, the release of `bufin_lock`); the write of `0` to
`SS_CTL` and right after it the release of `ss->lock`; then again events that
access no register and leave `ss->lock` alone.  So every register access lies
between the acquisition and the release of `ss->lock`. -/
theorem cipher_register_order (fuel : Nat) (hw : Device) (ss : sunxi_ss_ctx)
    (op : sunxi_req_ctx) (ivsize : Nat) (areq : ablkcipher_request) (r : CipherRet)
    (hk : op.keylen ≤ 32)
    (hrun : sunxi_aes_poll fuel hw ss op ivsize areq = some r ∨
      sunxi_des_poll fuel hw ss op ivsize areq = some r)
    (hok : r.exit = Exit.returned 0) :
    ∃ pre pump post,
      r.trace = pre ++ [Ev.mutex_lock Mutex.lock] ++ load_key_iv op ivsize areq.info ++
        [Ev.writel (op.mode ||| SS_ENABLED) SS_CTL] ++ pump ++
        [Ev.writel 0 SS_CTL, Ev.mutex_unlock Mutex.lock] ++ post ∧
      pre.all Ev.isOutside = true ∧ post.all Ev.isOutside = true ∧
      (load_key_iv op ivsize areq.info).all Ev.isKeyIv = true ∧
      pump.all Ev.isPump = true := by
  rcases hrun with h | h
  · obtain ⟨pump, post, h1, h2, h3⟩ := aes_trace_shape fuel hw ss op ivsize areq r h hok
    exact ⟨[], pump, post, h1, rfl, h2, all_load_key_iv op ivsize areq.info hk,
      xfer_is_pump pump h3⟩
  · obtain ⟨pre, pump, post, h1, h2, h3, h4⟩ := des_trace_shape fuel hw ss op ivsize areq r h hok
    exact ⟨pre, pump, post, h1, h2, h3, all_load_key_iv op ivsize areq.info hk, h4⟩

/-- Witness of C22: a linearization run of eight bytes. -/
theorem cipher_register_order_witness :
    ∃ r pre pump post,
      sunxi_des_poll 3 hw_two ss_empty sunxi_cipher_init 8 req_chunked = some r ∧
      r.trace = pre ++ [Ev.mutex_lock Mutex.lock] ++
        load_key_iv sunxi_cipher_init 8 req_chunked.info ++
        [Ev.writel (sunxi_cipher_init.mode ||| SS_ENABLED) SS_CTL] ++ pump ++
        [Ev.writel 0 SS_CTL, Ev.mutex_unlock Mutex.lock] ++ post ∧
      pre.all Ev.isOutside = true ∧ post.all Ev.isOutside = true ∧
      (load_key_iv sunxi_cipher_init 8 req_chunked.info).all Ev.isKeyIv = true ∧
      pump.all Ev.isPump = true :=
  ⟨_, (cipher_register_order 3 hw_two ss_empty sunxi_cipher_init 8 req_chunked _ (by decide)
    (Or.inr rfl) (by decide)).imp fun _ h => h.imp fun _ h => h.imp fun _ h => ⟨rfl, h⟩⟩

/-! ## C27: choice of path in `sunxi_des_poll` -/

theorem no_chunk_iff (areq : ablkcipher_request) :
    no_chunk areq = true ↔ ∀ sg ∈ areq.src ++ areq.dst, sg.data.length % 4 = 0 := by
  simp only [no_chunk, Bool.and_eq_true, List.all_eq_true, decide_eq_true_eq, List.mem_append]
  constructor
  · rintro ⟨h1, h2⟩ sg (h | h)
    · exact h1 sg h
    · exact h2 sg h
  · intro h
    exact ⟨fun sg hs => h sg (Or.inl hs), fun sg hs => h sg (Or.inr hs)⟩

theorem all_mono (p q : Ev → Bool) (h : ∀ e, p e = true → q e = true) (t : List Ev)
    (ht : t.all p = true) : t.all q = true := by
  rw [List.all_eq_true] at ht ⊢
  exact fun e he => h e (ht e he)

theorem xfer_not_buflock (e : Ev) (h : e.isXfer = true) : e.notBufLock = true := by
  cases e <;> simp_all [Ev.isXfer, Ev.notBufLock]

theorem load_key_iv_not_buflock (op : sunxi_req_ctx) (ivsize : Nat) (info : Option (List Nat)) :
    (load_key_iv op ivsize info).all Ev.notBufLock = true := by
  rw [List.all_eq_true]
  intro e he
  unfold load_key_iv at he
  cases info with
  | none => simp at he
  | some iv =>
    simp only [List.mem_append, List.mem_map, List.mem_range] at he
    rcases he with ⟨k, _, rfl⟩ | ⟨i, _, rfl⟩ <;> rfl

theorem aes_trace_no_buflock (fuel : Nat) (hw : Device) (ss : sunxi_ss_ctx)
    (op : sunxi_req_ctx) (ivsize : Nat) (areq : ablkcipher_request) (r : CipherRet)
    (hrun : sunxi_aes_poll fuel hw ss op ivsize areq = some r) :
    r.trace.all Ev.notBufLock = true := by
  have hl := load_key_iv_not_buflock op ivsize areq.info
  unfold sunxi_aes_poll at hrun
  split at hrun
  · simp only [Option.some.injEq] at hrun
    rw [← hrun]
    rfl
  · simp only [Option.some.injEq] at hrun
    rw [← hrun]
    rfl
  · simp only [] at hrun
    split at hrun
    · split at hrun
      · simp only [Option.some.injEq] at hrun
        rw [← hrun]
        simp only [List.all_append, hl, List.all_cons, List.all_nil, Ev.notBufLock,
          decide_True, Bool.and_true]
      · split at hrun
        · simp only [Option.some.injEq] at hrun
          rw [← hrun]
          simp only [List.all_append, hl, List.all_cons, List.all_nil, Ev.notBufLock,
            decide_True, Bool.and_true]
        · split at hrun
          · simp at hrun
          · rename_i s e hloop
            have he := all_mono _ _ xfer_not_buflock e (all_fast_loop hw _ _ _ _ _ hloop)
            simp only [Option.some.injEq] at hrun
            rw [← hrun]
            simp only [List.all_append, hl, he, List.all_cons, List.all_nil, Ev.notBufLock,
              decide_True, Bool.and_true]
    · split at hrun
      · simp only [Option.some.injEq] at hrun
        rw [← hrun]
        simp only [List.all_append, hl, List.all_cons, List.all_nil, Ev.notBufLock,
          decide_True, Bool.and_true]
      · split at hrun
        · simp only [Option.some.injEq] at hrun
          rw [← hrun]
          simp only [List.all_append, hl, List.all_cons, List.all_nil, Ev.notBufLock,
            decide_True, Bool.and_true]
        · split at hrun
          · simp at hrun
          · rename_i s e hloop
            have he := all_mono _ _ xfer_not_buflock e (all_seg_loop hw _ _ _ _ _ _ _ hloop)
            simp only [Option.some.injEq] at hrun
            rw [← hrun]
            simp only [List.all_append, hl, he, List.all_cons, List.all_nil, Ev.notBufLock,
              decide_True, Bool.and_true]
          · rename_i s e hloop
            have he := all_mono _ _ xfer_not_buflock e (all_seg_loop hw _ _ _ _ _ _ _ hloop)
            simp only [Option.some.injEq] at hrun
            rw [← hrun]
            simp only [List.all_append, hl, he, List.all_cons, List.all_nil, Ev.notBufLock,
              decide_True, Bool.and_true]

theorem des_chunk_head (fuel : Nat) (hw : Device) (ss : sunxi_ss_ctx) (op : sunxi_req_ctx)
    (ivsize : Nat) (areq : ablkcipher_request) (r : CipherRet)
    (hc : ¬ (no_chunk areq = true))
    (hrun : sunxi_des_poll fuel hw ss op ivsize areq = some r) :
    r.trace.head? = some (Ev.mutex_lock Mutex.bufin_lock) := by
  unfold sunxi_des_poll at hrun
  rw [if_neg hc] at hrun
  simp only [] at hrun
  split at hrun
  · simp only [Option.some.injEq] at hrun
    rw [← hrun]
    rfl
  · rcases hso : stage_out hw (stage_in hw ss areq.nbytes).1 areq.nbytes
      (stage_in hw ss areq.nbytes).2 with ⟨ss2, e_out, failed⟩
    rw [hso] at hrun
    simp only [] at hrun
    split at hrun
    · simp only [Option.some.injEq] at hrun
      rw [← hrun]
      rfl
    · split at hrun
      · simp at hrun
      · simp only [Option.some.injEq] at hrun
        rw [← hrun]
        rfl

/-- C27: a call of `sunxi_des_poll` takes the linearization path, which
starts by acquiring `bufin_lock`, exactly when some source or destination
entry has a length that is not a multiple of 4; when every entry length is a
multiple of 4 the call is the call of `sunxi_aes_poll`, the staging buffers
and their sizes stay as they were and neither `bufin_lock` nor `bufout_lock`
is acquired or released. -/
theorem des_path_choice (fuel : Nat) (hw : Device) (ss : sunxi_ss_ctx) (op : sunxi_req_ctx)
    (ivsize : Nat) (areq : ablkcipher_request) (r : CipherRet)
    (hrun : sunxi_des_poll fuel hw ss op ivsize areq = some r) :
    ((∃ sg ∈ areq.src ++ areq.dst, sg.data.length % 4 ≠ 0) ↔
        r.trace.head? = some (Ev.mutex_lock Mutex.bufin_lock)) ∧
      ((∀ sg ∈ areq.src ++ areq.dst, sg.data.length % 4 = 0) →
        sunxi_des_poll fuel hw ss op ivsize areq = sunxi_aes_poll fuel hw ss op ivsize areq ∧
        r.ss = ss ∧ r.trace.all Ev.notBufLock = true) := by
  have hiff := no_chunk_iff areq
  have haes : no_chunk areq = true →
      sunxi_des_poll fuel hw ss op ivsize areq = sunxi_aes_poll fuel hw ss op ivsize areq := by
    intro h
    unfold sunxi_des_poll
    rw [if_pos h]
  refine ⟨⟨?_, ?_⟩, ?_⟩
  · rintro ⟨sg, hsg, hne⟩
    apply des_chunk_head fuel hw ss op ivsize areq r _ hrun
    intro h
    exact hne (hiff.1 h sg hsg)
  · intro hhead
    by_contra hno
    have hall : ∀ sg ∈ areq.src ++ areq.dst, sg.data.length % 4 = 0 := by
      intro sg hsg
      by_contra hne
      exact hno ⟨sg, hsg, hne⟩
    have h := hiff.2 hall
    rw [haes h] at hrun
    have hnb := aes_trace_no_buflock fuel hw ss op ivsize areq r hrun
    cases ht : r.trace with
    | nil => rw [ht] at hhead; simp at hhead
    | cons e t =>
      rw [ht] at hhead hnb
      simp only [List.head?_cons, Option.some.injEq] at hhead
      rw [hhead] at hnb
      simp [Ev.notBufLock] at hnb
  · intro hall
    have h := hiff.2 hall
    have hrun2 := hrun
    rw [haes h] at hrun2
    exact ⟨haes h, aes_poll_ss fuel hw ss op ivsize areq r hrun2,
      aes_trace_no_buflock fuel hw ss op ivsize areq r hrun2⟩

/-- Witness of C27: a request with entries of 2 and 6 bytes takes the
linearization path. -/
theorem des_path_choice_witness :
    ∃ r, sunxi_des_poll 3 hw_two ss_empty sunxi_cipher_init 8 req_chunked = some r ∧
      ((∃ sg ∈ req_chunked.src ++ req_chunked.dst, sg.data.length % 4 ≠ 0) ↔
        r.trace.head? = some (Ev.mutex_lock Mutex.bufin_lock)) :=
  ⟨_, rfl, (des_path_choice 3 hw_two ss_empty sunxi_cipher_init 8 req_chunked _ rfl).1⟩

/-! ## C26: FIFO flow control -/

theorem aes_poll_takes_lock (fuel : Nat) (hw : Device) (ss : sunxi_ss_ctx) (op : sunxi_req_ctx)
    (ivsize : Nat) (areq : ablkcipher_request) (r : CipherRet)
    (hsrc : areq.src ≠ []) (hdst : areq.dst ≠ [])
    (hrun : sunxi_aes_poll fuel hw ss op ivsize areq = some r) :
    Ev.mutex_lock Mutex.lock ∈ r.trace := by
  unfold sunxi_aes_poll at hrun
  split at hrun
  · rename_i h; exact absurd h hsrc
  · rename_i h; exact absurd h hdst
  · simp only [] at hrun
    split at hrun
    · split at hrun
      · simp only [Option.some.injEq] at hrun
        rw [← hrun]; simp
      · split at hrun
        · simp only [Option.some.injEq] at hrun
          rw [← hrun]; simp
        · split at hrun
          · simp at hrun
          · simp only [Option.some.injEq] at hrun
            rw [← hrun]; simp
    · split at hrun
      · simp only [Option.some.injEq] at hrun
        rw [← hrun]; simp
      · split at hrun
        · simp only [Option.some.injEq] at hrun
          rw [← hrun]; simp
        · split at hrun
          · simp at hrun
          · simp only [Option.some.injEq] at hrun
            rw [← hrun]; simp
          · simp only [Option.some.injEq] at hrun
            rw [← hrun]; simp

theorem stage_in_ok (hw : Device) (ss : sunxi_ss_ctx) (n : Nat)
    (hmem : ∀ k, hw.kmalloc_ok k = true) : (stage_in hw ss n).1.buf_in ≠ none := by
  unfold stage_in kmalloc
  split
  · simp [hmem]
  · rename_i b hb
    split
    · simp [hmem]
    · simp [hb]

theorem stage_out_ok (hw : Device) (ss : sunxi_ss_ctx) (n k : Nat)
    (hmem : ∀ k, hw.kmalloc_ok k = true) : (stage_out hw ss n k).2.2 = false := by
  unfold stage_out kmalloc
  simp only [hmem, if_true]
  split
  · rfl
  · split <;> rfl

theorem des_poll_takes_lock (fuel : Nat) (hw : Device) (ss : sunxi_ss_ctx) (op : sunxi_req_ctx)
    (ivsize : Nat) (areq : ablkcipher_request) (r : CipherRet)
    (hsrc : areq.src ≠ []) (hdst : areq.dst ≠ [])
    (hmem : ∀ k, hw.kmalloc_ok k = true)
    (hrun : sunxi_des_poll fuel hw ss op ivsize areq = some r) :
    Ev.mutex_lock Mutex.lock ∈ r.trace := by
  unfold sunxi_des_poll at hrun
  split at hrun
  · exact aes_poll_takes_lock fuel hw ss op ivsize areq r hsrc hdst hrun
  · simp only [] at hrun
    split at hrun
    · rename_i hb
      exact absurd hb (stage_in_ok hw ss areq.nbytes hmem)
    · have ho := stage_out_ok hw (stage_in hw ss areq.nbytes).1 areq.nbytes
        (stage_in hw ss areq.nbytes).2 hmem
      rcases hso : stage_out hw (stage_in hw ss areq.nbytes).1 areq.nbytes
        (stage_in hw ss areq.nbytes).2 with ⟨ss2, e_out, failed⟩
      rw [hso] at hrun ho
      simp only [] at hrun ho
      subst ho
      simp only [Bool.false_eq_true, if_false] at hrun
      split at hrun
      · simp at hrun
      · simp only [Option.some.injEq] at hrun
        rw [← hrun]; simp

/-- The fast loop returns within `oleft` turns once the device has a word
ready at every turn. -/
theorem fast_loop_returns (hw : Device) (src : List Nat) (hr : always_ready hw) :
    ∀ (fuel : Nat) (s : FastState), 0 < s.tx_cnt → 0 < s.oleft → s.oleft ≤ fuel →
      ∃ res, fast_loop hw src fuel s = some res := by
  intro fuel
  induction fuel with
  | zero => intro s _ h1 h2; omega
  | succ fuel ih =>
    intro s ht ho hf
    unfold fast_loop
    rcases hit : fast_iter hw src s with ⟨s1, e1⟩
    have hq := fast_iter_eq hw src s (Or.inr ho)
    rw [hit, if_pos ht] at hq
    have h1 : s1.oleft = s.oleft - min s.tx_cnt s.oleft := by
      rw [(Prod.mk.inj hq).1]
    have h2 : s1.tx_cnt = SS_TXFIFO_SPACES (hw.fcsr s.nf) := by
      rw [(Prod.mk.inj hq).1]
    simp only []
    by_cases hc : s1.oleft > 0
    · rw [if_pos hc]
      obtain ⟨res, hres⟩ := ih s1 (by rw [h2]; exact hr s.nf) hc (by omega)
      rw [hres]
      exact ⟨_, rfl⟩
    · rw [if_neg hc]
      exact ⟨_, rfl⟩

theorem fast_loop_returns_init (hw : Device) (src : List Nat) (hr : always_ready hw)
    (fuel : Nat) (s : FastState) (ht : s.tx_cnt = 0) (hf : s.oleft < fuel) :
    ∃ res, fast_loop hw src fuel s = some res := by
  obtain ⟨f, rfl⟩ : ∃ f, fuel = f + 1 := ⟨fuel - 1, by omega⟩
  unfold fast_loop
  rcases hit : fast_iter hw src s with ⟨s1, e1⟩
  have hq := fast_iter_eq hw src s (Or.inl ht)
  rw [hit, if_neg (by omega : ¬ s.tx_cnt > 0)] at hq
  have h1 : s1.oleft = s.oleft - 0 := by
    rw [(Prod.mk.inj hq).1]
  have h2 : s1.tx_cnt = SS_TXFIFO_SPACES (hw.fcsr s.nf) := by
    rw [(Prod.mk.inj hq).1]
  simp only []
  by_cases hc : s1.oleft > 0
  · rw [if_pos hc]
    obtain ⟨res, hres⟩ := fast_loop_returns hw src hr f s1 (by rw [h2]; exact hr s.nf) hc
      (by omega)
    rw [hres]
    exact ⟨_, rfl⟩
  · rw [if_neg hc]
    exact ⟨_, rfl⟩

theorem des_push_keeps (buf_in : List Nat) (nbytes : Nat) :
    ∀ (fuel : Nat) (s : DesState),
      (des_push buf_in nbytes fuel s).1.it = s.it ∧
      (des_push buf_in nbytes fuel s).1.tx_cnt = s.tx_cnt := by
  intro fuel
  induction fuel with
  | zero => intro s; exact ⟨rfl, rfl⟩
  | succ fuel ih =>
    intro s
    unfold des_push
    simp only []
    split
    · exact ih _
    · exact ⟨rfl, rfl⟩

theorem des_pop_moves (hw : Device) (nbytes : Nat) :
    ∀ (fuel : Nat) (s : DesState), 0 < fuel →
      s.it + 4 ≤ (des_pop hw nbytes fuel s).1.it := by
  intro fuel
  induction fuel with
  | zero => intro s h; omega
  | succ fuel ih =>
    intro s _
    unfold des_pop
    simp only []
    split
    · have hf : 0 < fuel ∨ fuel = 0 := by omega
      rcases hf with hf | hf
      · have := ih { s with buf_out := store32 s.buf_out s.it (hw.tx s.nt), it := s.it + 4,
                            tx_cnt := s.tx_cnt - 1, nt := s.nt + 1 } hf
        exact le_trans (Nat.le_add_right (s.it + 4) 4) this
      · subst hf
        exact le_refl _
    · exact le_refl _

theorem des_push_stage_keeps (buf_in : List Nat) (nbytes : Nat) (s : DesState) :
    ∃ sp ep, (if s.rx_cnt > 0 ∧ s.ir < nbytes then des_push buf_in nbytes s.rx_cnt s
        else (s, [])) = (sp, ep) ∧ sp.it = s.it ∧ sp.tx_cnt = s.tx_cnt := by
  by_cases h : s.rx_cnt > 0 ∧ s.ir < nbytes
  · rw [if_pos h]
    exact ⟨_, _, rfl, des_push_keeps buf_in nbytes s.rx_cnt s⟩
  · rw [if_neg h]
    exact ⟨_, _, rfl, rfl, rfl⟩

theorem des_pop_stage_moves (hw : Device) (nbytes : Nat) (s : DesState) :
    ∃ sq eq, (if s.tx_cnt > 0 ∧ s.it < nbytes then des_pop hw nbytes s.tx_cnt s
        else (s, [])) = (sq, eq) ∧ s.it ≤ sq.it ∧
      (0 < s.tx_cnt → s.it < nbytes → s.it + 4 ≤ sq.it) := by
  by_cases h : s.tx_cnt > 0 ∧ s.it < nbytes
  · rw [if_pos h]
    have := des_pop_moves hw nbytes s.tx_cnt s h.1
    exact ⟨_, _, rfl, by omega, fun _ _ => this⟩
  · rw [if_neg h]
    exact ⟨_, _, rfl, le_refl _, fun a b => absurd ⟨a, b⟩ h⟩

/-- One turn of the linearization pump never moves `it` back, and moves it
by at least one word while output is due, when the device has a word ready
at every read of `SS_FCSR`. -/
theorem des_iter_moves (hw : Device) (buf_in : List Nat) (nbytes : Nat) (s : DesState)
    (hr : always_ready hw) :
    s.it ≤ (des_iter hw buf_in nbytes s).1.it ∧
      (s.it < nbytes → s.it + 4 ≤ (des_iter hw buf_in nbytes s).1.it) := by
  unfold des_iter
  by_cases hf : s.rx_cnt = 0 ∨ s.tx_cnt = 0
  · rw [if_pos hf]
    simp only []
    obtain ⟨sp, ep, h1, h2, h3⟩ := des_push_stage_keeps buf_in nbytes
      { s with rx_cnt := SS_RXFIFO_SPACES (hw.fcsr s.nf),
               tx_cnt := SS_TXFIFO_SPACES (hw.fcsr s.nf), nf := s.nf + 1 }
    simp only [] at h1 h2 h3
    rw [h1]
    simp only []
    obtain ⟨sq, eq, k1, k2, k3⟩ := des_pop_stage_moves hw nbytes sp
    rw [k1]
    simp only []
    have hrk := hr s.nf
    by_cases he : sq.ir = nbytes
    · rw [if_pos he]
      simp only []
      exact ⟨by omega, fun h => by have := k3 (by omega) (by omega); omega⟩
    · rw [if_neg he]
      simp only []
      exact ⟨by omega, fun h => by have := k3 (by omega) (by omega); omega⟩
  · rw [if_neg hf]
    simp only []
    obtain ⟨sp, ep, h1, h2, h3⟩ := des_push_stage_keeps buf_in nbytes s
    rw [h1]
    simp only []
    obtain ⟨sq, eq, k1, k2, k3⟩ := des_pop_stage_moves hw nbytes sp
    rw [k1]
    simp only []
    by_cases he : sq.ir = nbytes
    · rw [if_pos he]
      simp only []
      exact ⟨by omega, fun h => by have := k3 (by omega) (by omega); omega⟩
    · rw [if_neg he]
      simp only []
      exact ⟨by omega, fun h => by have := k3 (by omega) (by omega); omega⟩

/-- The linearization pump returns within `nbytes / 4 + 1` turns once the
device has a word ready at every read of `SS_FCSR`. -/
theorem des_loop_returns (hw : Device) (buf_in : List Nat) (nbytes : Nat)
    (hr : always_ready hw) :
    ∀ (fuel : Nat) (s : DesState), 0 < fuel → nbytes ≤ s.it + 4 * fuel →
      ∃ res, des_loop hw buf_in nbytes fuel s = some res := by
  intro fuel
  induction fuel with
  | zero => intro s h; omega
  | succ fuel ih =>
    intro s _ hn
    unfold des_loop
    obtain ⟨m1, m2⟩ := des_iter_moves hw buf_in nbytes s hr
    rcases hit : des_iter hw buf_in nbytes s with ⟨s1, e1⟩
    rw [hit] at m1 m2
    simp only [] at m1 m2 ⊢
    by_cases hc : s1.it < nbytes
    · rw [if_pos hc]
      have hlt : s.it < nbytes := by omega
      have := m2 hlt
      obtain ⟨res, hres⟩ := ih s1 (by omega) (by omega)
      rw [hres]
      exact ⟨_, rfl⟩
    · rw [if_neg hc]
      exact ⟨_, rfl⟩

theorem aes_fast_returns (fuel : Nat) (hw : Device) (ss : sunxi_ss_ctx) (op : sunxi_req_ctx)
    (ivsize : Nat) (areq : ablkcipher_request) (hr : always_ready hw)
    (hf : areq.nbytes / 4 < fuel) (h1 : areq.src.length = 1) (h2 : areq.dst.length = 1) :
    ∃ r, sunxi_aes_poll fuel hw ss op ivsize areq = some r := by
  unfold sunxi_aes_poll
  split
  · exact ⟨_, rfl⟩
  · exact ⟨_, rfl⟩
  · rename_i in_sg in_rest out_sg out_rest hsrc hdst
    have e1 : in_rest = [] := by
      rw [hsrc] at h1
      simpa using h1
    have e2 : out_rest = [] := by
      rw [hdst] at h2
      simpa using h2
    simp only []
    rw [if_pos ⟨e1, e2⟩]
    split
    · exact ⟨_, rfl⟩
    · split
      · exact ⟨_, rfl⟩
      · obtain ⟨res, hres⟩ := fast_loop_returns_init hw in_sg.data hr fuel
          { ileft := areq.nbytes / 4, oleft := areq.nbytes / 4, rx_cnt := 32, tx_cnt := 0,
            si := 0, di := 0, nf := 0, nt := 0, mem := out_sg.data } rfl hf
        rw [hres]
        exact ⟨_, rfl⟩

theorem des_linear_returns (fuel : Nat) (hw : Device) (ss : sunxi_ss_ctx) (op : sunxi_req_ctx)
    (ivsize : Nat) (areq : ablkcipher_request) (hr : always_ready hw)
    (hf : areq.nbytes / 4 < fuel) (hc : no_chunk areq = false) :
    ∃ r, sunxi_des_poll fuel hw ss op ivsize areq = some r := by
  unfold sunxi_des_poll
  rw [hc]
  simp only [Bool.false_eq_true, if_false]
  split
  · exact ⟨_, rfl⟩
  · rename_i buf_in hb
    rcases hso : stage_out hw (stage_in hw ss areq.nbytes).1 areq.nbytes
      (stage_in hw ss areq.nbytes).2 with ⟨ss2, e_out, failed⟩
    simp only []
    cases failed with
    | true => exact ⟨_, rfl⟩
    | false =>
      simp only [Bool.false_eq_true, if_false]
      obtain ⟨res, hres⟩ := des_loop_returns hw
        (sg_copy_to_buffer areq.src buf_in areq.nbytes) areq.nbytes hr fuel
        { rx_cnt := 0, tx_cnt := 0, ir := 0, it := 0, nf := 0, nt := 0,
          buf_out := ss2.buf_out.getD [] } (by omega) (by simp only []; omega)
      rw [hres]
      exact ⟨_, rfl⟩

/-- C20: for a non-null source and destination list, an IV present and a key
length of 8, 16, 24 or 32.  In every run of `sunxi_aes_poll` that returns,
and in every run of `sunxi_des_poll` that returns and whose staging
allocations succeed (or that takes `ss->lock`), the writes into the key and
IV registers are, in order, key word `k` (bytes `4 * k` to `4 * k + 3` of the
stored key) to `SS_KEY0 + 4 * k` for `k < keylen / 4`, then IV word `j` to
`SS_IV0 + 4 * j` for `j < min 4 (ivsize / 4)` (4 words for an IV of 16 bytes,
2 for an IV of 8 bytes) and nothing else.  Such runs exist: on a device that
has a word ready at every read of `SS_FCSR`, with more than `nbytes / 4`
turns allowed, the fast path returns and so does the linearization path, with
exactly these writes.  The key writes lie in `SS_KEY0 .. SS_KEY7` and the IV
writes in `SS_IV0 .. SS_IV3`. -/
theorem key_iv_load (fuel : Nat) (hw : Device) (ss : sunxi_ss_ctx) (op : sunxi_req_ctx)
    (ivsize : Nat) (areq : ablkcipher_request) (iv : List Nat) (r : CipherRet)
    (hk : op.keylen = 8 ∨ op.keylen = 16 ∨ op.keylen = 24 ∨ op.keylen = 32)
    (hiv : areq.info = some iv) (hsrc : areq.src ≠ []) (hdst : areq.dst ≠ []) :
    (sunxi_aes_poll fuel hw ss op ivsize areq = some r →
      keyIvWrites r.trace =
        ((List.range (op.keylen / 4)).map fun k => (SS_KEY0 + 4 * k, load32 op.key (4 * k))) ++
          ((List.range (min 4 (ivsize / 4))).map fun j => (SS_IV0 + 4 * j, load32 iv (4 * j)))) ∧
    (sunxi_des_poll fuel hw ss op ivsize areq = some r →
      ((∀ k, hw.kmalloc_ok k = true) ∨ Ev.mutex_lock Mutex.lock ∈ r.trace) →
      keyIvWrites r.trace =
        ((List.range (op.keylen / 4)).map fun k => (SS_KEY0 + 4 * k, load32 op.key (4 * k))) ++
          ((List.range (min 4 (ivsize / 4))).map fun j => (SS_IV0 + 4 * j, load32 iv (4 * j)))) ∧
    (always_ready hw → areq.nbytes / 4 < fuel →
      areq.src.length = 1 ∧ areq.dst.length = 1 →
      ∃ r2, sunxi_aes_poll fuel hw ss op ivsize areq = some r2 ∧
        keyIvWrites r2.trace =
          ((List.range (op.keylen / 4)).map
              fun k => (SS_KEY0 + 4 * k, load32 op.key (4 * k))) ++
            ((List.range (min 4 (ivsize / 4))).map
              fun j => (SS_IV0 + 4 * j, load32 iv (4 * j)))) ∧
    (always_ready hw → areq.nbytes / 4 < fuel →
      no_chunk areq = false → (∀ k, hw.kmalloc_ok k = true) →
      ∃ r2, sunxi_des_poll fuel hw ss op ivsize areq = some r2 ∧
        Ev.mutex_lock Mutex.bufin_lock ∈ r2.trace ∧
        keyIvWrites r2.trace =
          ((List.range (op.keylen / 4)).map
              fun k => (SS_KEY0 + 4 * k, load32 op.key (4 * k))) ++
            ((List.range (min 4 (ivsize / 4))).map
              fun j => (SS_IV0 + 4 * j, load32 iv (4 * j)))) ∧
    (∀ k, k < op.keylen / 4 → SS_KEY0 ≤ SS_KEY0 + 4 * k ∧ SS_KEY0 + 4 * k ≤ SS_KEY7) ∧
    (∀ j, j < min 4 (ivsize / 4) → SS_IV0 ≤ SS_IV0 + 4 * j ∧ SS_IV0 + 4 * j ≤ SS_IV3) ∧
    (ivsize = 16 → min 4 (ivsize / 4) = 4) ∧ (ivsize = 8 → min 4 (ivsize / 4) = 2) := by
  have h2 : (op.keylen + 3) / 4 = op.keylen / 4 := by omega
  have hload : keyIvWrites (load_key_iv op ivsize areq.info) =
      ((List.range (op.keylen / 4)).map fun k => (SS_KEY0 + 4 * k, load32 op.key (4 * k))) ++
        ((List.range (min 4 (ivsize / 4))).map fun j => (SS_IV0 + 4 * j, load32 iv (4 * j))) := by
    rw [hiv, keyIvWrites_load op ivsize iv (by omega), h2]
    simp only [Nat.mul_comm _ 4]
  have haes : ∀ q, sunxi_aes_poll fuel hw ss op ivsize areq = some q →
      keyIvWrites q.trace = keyIvWrites (load_key_iv op ivsize areq.info) := fun q h =>
    aes_poll_key_iv fuel hw ss op ivsize areq q h
      (aes_poll_takes_lock fuel hw ss op ivsize areq q hsrc hdst h)
  have hdes : ∀ q, sunxi_des_poll fuel hw ss op ivsize areq = some q →
      ((∀ k, hw.kmalloc_ok k = true) ∨ Ev.mutex_lock Mutex.lock ∈ q.trace) →
      keyIvWrites q.trace = keyIvWrites (load_key_iv op ivsize areq.info) := by
    intro q h hl
    apply des_poll_key_iv fuel hw ss op ivsize areq q h
    rcases hl with hm | hm
    · exact des_poll_takes_lock fuel hw ss op ivsize areq q hsrc hdst hm h
    · exact hm
  refine ⟨?_, ?_, ?_, ?_, ?_, ?_, ?_, ?_⟩
  · intro h
    rw [haes r h, hload]
  · intro h hl
    rw [hdes r h hl, hload]
  · intro hr hf hl
    obtain ⟨q, hq⟩ := aes_fast_returns fuel hw ss op ivsize areq hr hf hl.1 hl.2
    exact ⟨q, hq, by rw [haes q hq, hload]⟩
  · intro hr hf hc hm
    obtain ⟨q, hq⟩ := des_linear_returns fuel hw ss op ivsize areq hr hf hc
    refine ⟨q, hq, ?_, by rw [hdes q hq (Or.inl hm), hload]⟩
    have hh := des_chunk_head fuel hw ss op ivsize areq q (by rw [hc]; decide) hq
    cases ht : q.trace with
    | nil => rw [ht] at hh; simp at hh
    | cons e t =>
      rw [ht] at hh
      simp only [List.head?_cons, Option.some.injEq] at hh
      rw [hh]
      simp
  · intro k hk2
    simp only [SS_KEY0, SS_KEY7]
    omega
  · intro j hj
    simp only [SS_IV0, SS_IV3]
    omega
  · intro h
    rw [h]
    rfl
  · intro h
    rw [h]
    rfl

/-- Witness of C20: a DES request of eight bytes with an 8-byte IV through
the linearization path, on a device that takes two words and then gives two;
and the same request on a device that has a word ready at every read. -/
theorem key_iv_load_witness :
    (∃ r, sunxi_des_poll 3 hw_two ss_empty op_des 8 req_chunked = some r ∧
      keyIvWrites r.trace =
        ((List.range (op_des.keylen / 4)).map
          fun k => (SS_KEY0 + 4 * k, load32 op_des.key (4 * k))) ++
          ((List.range (min 4 (8 / 4))).map
            fun j => (SS_IV0 + 4 * j, load32 (List.replicate 8 0) (4 * j))) ∧
      (keyIvWrites r.trace).map Prod.fst = [0x04, 0x08, 0x24, 0x28]) ∧
    (∃ r2, sunxi_des_poll 3 (hw_eager 1) ss_empty op_des 8 req_chunked = some r2 ∧
      Ev.mutex_lock Mutex.bufin_lock ∈ r2.trace ∧
      keyIvWrites r2.trace =
        ((List.range (op_des.keylen / 4)).map
          fun k => (SS_KEY0 + 4 * k, load32 op_des.key (4 * k))) ++
          ((List.range (min 4 (8 / 4))).map
            fun j => (SS_IV0 + 4 * j, load32 (List.replicate 8 0) (4 * j)))) :=
  ⟨⟨_, rfl,
      (key_iv_load 3 hw_two ss_empty op_des 8 req_chunked (List.replicate 8 0) _
        (by decide) rfl (by decide) (by decide)).2.1 rfl (Or.inl (fun _ => rfl)),
      by decide⟩,
    (key_iv_load 3 (hw_eager 1) ss_empty op_des 8 req_chunked (List.replicate 8 0)
      (empty_iv ss_empty op_des req_chunked)
      (by decide) rfl (by decide) (by decide)).2.2.2.1
      (fun _ => (by decide : 0 < SS_TXFIFO_SPACES (1 <<< 16))) (by decide)
      (by decide) (fun _ => rfl)⟩

/-! ## C1: the stream of a request that ends inside an entry -/

/-- C1: the six-byte message `1, ..., 6` hashed with MD5 by `sunxi_hash_init`,
one `sunxi_hash_update` of `nbytes = 6` whose single entry holds eight bytes,
and `sunxi_hash_final`.  The update returns 0 and pushes the first word only;
the bytes 5 and 6 are lost, and the stream written to `SS_RXFIFO` is the
padded four-byte message `1, 2, 3, 4` (bit length 32), not the padded
six-byte message. -/
theorem hash_stream_drops_tail :
    (sunxi_hash_update 6 [[1, 2, 3, 4, 5, 6, 7, 8]]
        (sunxi_hash_init "md5" sunxi_cipher_init []).op []).ret = 0 ∧
    (sunxi_hash_update 6 [[1, 2, 3, 4, 5, 6, 7, 8]]
        (sunxi_hash_init "md5" sunxi_cipher_init []).op []).null_deref = false ∧
    rxBytes ((sunxi_hash_init "md5" sunxi_cipher_init []).trace ++
        (sunxi_hash_update 6 [[1, 2, 3, 4, 5, 6, 7, 8]]
          (sunxi_hash_init "md5" sunxi_cipher_init []).op []).trace ++
        (sunxi_hash_final hw_idle
          (sunxi_hash_update 6 [[1, 2, 3, 4, 5, 6, 7, 8]]
            (sunxi_hash_init "md5" sunxi_cipher_init []).op []).op
          (List.replicate 16 0)).trace) = md_pad false [1, 2, 3, 4] ∧
    md_pad false [1, 2, 3, 4] ≠ md_pad false (([1, 2, 3, 4, 5, 6, 7, 8] : List Nat).take 6) ∧
    (md_pad false [1, 2, 3, 4]).drop 56 = [32, 0, 0, 0, 0, 0, 0, 0] ∧
    (md_pad false (([1, 2, 3, 4, 5, 6, 7, 8] : List Nat).take 6)).drop 56 =
      [48, 0, 0, 0, 0, 0, 0, 0] := by
  decide

end SunxiSS
